import Mathlib

/-!
# TFTP read-only server (ch06/tftp): wire codec and transfer session

A shallow embedding of `src/ch06/tftp/types.go` and `src/ch06/tftp/server.go`.

* Go `[]byte` and `string` values are lists of bytes; a byte is a natural number
  (every byte the code produces from a wider value is reduced modulo 256).
* `uint16` fields are natural numbers, reduced modulo 65536 where the Go code can overflow.
* A method with a pointer receiver takes the receiver's old value and returns the new one
  next to its error result (`none` is Go's `nil` error).
-/

namespace Tftp

/-! ## Constants (types.go 11-36) -/

/-- The maximum supported datagram size. -/
def DatagramSize : Nat := 516

/-- The maximum size of a data block: the datagram size less the 4-byte header. -/
def BlockSize : Nat := DatagramSize - 4

/-- Read request opcode. -/
def OpRRQ : Nat := 1

/-- Data opcode. -/
def OpData : Nat := 3

/-- Acknowledgement opcode. -/
def OpAck : Nat := 4

/-- Error opcode. -/
def OpErr : Nat := 5

/-- The error values the codec returns. `eof` and `unexpectedEOF` are `io.EOF` and
`io.ErrUnexpectedEOF`; the others are the `errors.New` values of types.go. -/
inductive TftpError
  | eof
  | unexpectedEOF
  | invalidRRQ
  | unsupportedMode
  | invalidDATA
  | invalidACK
  | invalidERROR
  deriving DecidableEq, Repr

/-! ## Library primitives used by the codec -/

/-- The two bytes `binary.Write(b, binary.BigEndian, v)` appends for a `uint16` value. -/
def putUint16 (v : Nat) : List Nat := [v / 256 % 256, v % 256]

/-- The effect of `binary.Read(r, binary.BigEndian, &v)` for a `uint16` destination: two bytes
are taken from the reader; with none left the error is `io.EOF`, with one left it is
`io.ErrUnexpectedEOF`. On success the value and the rest of the reader are returned. -/
def readUint16 : List Nat → Except TftpError (Nat × List Nat)
  | a :: b :: rest => .ok ((a * 256 + b) % 65536, rest)
  | [_] => .error .unexpectedEOF
  | [] => .error .eof

/-- The effect of `(*bytes.Buffer).ReadString(delim)`: the bytes up to and including the first
`delim`, the rest of the buffer, and `io.EOF` when the buffer holds no `delim` (all of it is
returned then). -/
def readString (delim : Nat) : List Nat → List Nat × List Nat × Option TftpError
  | [] => ([], [], some .eof)
  | c :: rest =>
    if c = delim then ([c], rest, none)
    else
      let r := readString delim rest
      (c :: r.1, r.2.1, r.2.2)

/-- The effect of `strings.TrimRight(s, "\x00")`: every trailing zero byte is removed. -/
def trimRightZero (s : List Nat) : List Nat := s.rdropWhile (fun c => c == 0)

/-- The ASCII branch of `strings.ToLower` on one byte. -/
def lowerByte (c : Nat) : Nat := if 65 ≤ c ∧ c ≤ 90 then c + 32 else c

/-- The effect of `strings.ToLower`. A string of ASCII bytes only is mapped byte by byte; a
string with a byte of 0x80 or more goes through `strings.Map(unicode.ToLower, s)`, which is
library code taken here as the parameter `uni`. -/
def toLower (uni : List Nat → List Nat) (s : List Nat) : List Nat :=
  if s.all (fun c => decide (c < 128)) then s.map lowerByte else uni s

/-- The bytes of the string "octet". -/
def octet : List Nat := [111, 99, 116, 101, 116]

/-! ## Read request (types.go 57-154) -/

/-- A read request: file name and transfer mode. -/
structure ReadReq where
  Filename : List Nat
  Mode : List Nat
  deriving DecidableEq, Repr

/-- The method `ReadReq.MarshalBinary`. Every write goes to a `bytes.Buffer`, whose writes
return a nil error, so no error branch of the source is taken. -/
def ReadReq.MarshalBinary (q : ReadReq) : Except TftpError (List Nat) :=
  let mode := if q.Mode ≠ [] then q.Mode else octet
  .ok (putUint16 OpRRQ ++ q.Filename ++ [0] ++ mode ++ [0])

/-- The method `(*ReadReq).UnmarshalBinary`: the receiver after the call and the error. -/
def ReadReq.UnmarshalBinary (uni : List Nat → List Nat) (q : ReadReq) (p : List Nat) :
    ReadReq × Option TftpError :=
  match readUint16 p with
  | .error e => (q, some e)
  | .ok (code, r) =>
    if code ≠ OpRRQ then (q, some .invalidRRQ)
    else
      let f := readString 0 r
      let q1 : ReadReq := { q with Filename := f.1 }
      if f.2.2 ≠ none then (q1, some .invalidRRQ)
      else
        let q2 : ReadReq := { q1 with Filename := trimRightZero q1.Filename }
        if q2.Filename.length = 0 then (q2, some .invalidRRQ)
        else
          let m := readString 0 f.2.1
          let q3 : ReadReq := { q2 with Mode := m.1 }
          if m.2.2 ≠ none then (q3, some .invalidRRQ)
          else
            let q4 : ReadReq := { q3 with Mode := trimRightZero q3.Mode }
            if q4.Mode.length = 0 then (q4, some .invalidRRQ)
            else
              let actual := toLower uni q4.Mode
              if actual ≠ octet then (q4, some .unsupportedMode)
              else (q4, none)

/-! ## Data (types.go 157-243) -/

/-- A data packet: the current block number and the payload source. The `io.Reader` is an
in-memory reader (`bytes.Reader`, `bytes.Buffer`), given by the bytes it has not yet returned. -/
structure Data where
  Block : Nat
  Payload : List Nat
  deriving DecidableEq, Repr

/-- The method `(*Data).MarshalBinary`: the receiver after the call and the result. The block
number is incremented first (a `uint16` increment), then up to `BlockSize` bytes are copied
from the payload source; `io.EOF` from `io.CopyN` is not an error. -/
def Data.MarshalBinary (d : Data) : Data × Except TftpError (List Nat) :=
  let block := (d.Block + 1) % 65536
  ({ Block := block, Payload := d.Payload.drop BlockSize },
   .ok (putUint16 OpData ++ putUint16 block ++ d.Payload.take BlockSize))

/-- The method `(*Data).UnmarshalBinary`: the receiver after the call and the error. -/
def Data.UnmarshalBinary (d : Data) (p : List Nat) : Data × Option TftpError :=
  if p.length < 4 ∨ p.length > DatagramSize then (d, some .invalidDATA)
  else
    match readUint16 (p.take 2) with
    | .error _ => (d, some .invalidDATA)
    | .ok (opcode, _) =>
      if opcode ≠ OpData then (d, some .invalidDATA)
      else
        match readUint16 ((p.drop 2).take 2) with
        | .error _ => (d, some .invalidDATA)
        | .ok (block, _) => ({ Block := block, Payload := p.drop 4 }, none)

/-! ## Ack (types.go 247-285) -/

/-- The method `Ack.MarshalBinary`; an `Ack` is the acknowledged block number. -/
def Ack.MarshalBinary (a : Nat) : Except TftpError (List Nat) :=
  .ok (putUint16 OpAck ++ putUint16 a)

/-- The method `(*Ack).UnmarshalBinary`: the receiver after the call and the error. -/
def Ack.UnmarshalBinary (a : Nat) (p : List Nat) : Nat × Option TftpError :=
  match readUint16 p with
  | .error e => (a, some e)
  | .ok (code, r) =>
    if code ≠ OpAck then (a, some .invalidACK)
    else
      match readUint16 r with
      | .error e => (a, some e)
      | .ok (v, _) => (v, none)

/-! ## Err (types.go 288-349) -/

/-- An error packet: error code and message. -/
structure Err where
  Error : Nat
  Message : List Nat
  deriving DecidableEq, Repr

/-- The method `Err.MarshalBinary`. -/
def Err.MarshalBinary (e : Err) : Except TftpError (List Nat) :=
  .ok (putUint16 OpErr ++ putUint16 e.Error ++ e.Message ++ [0])

/-- The method `(*Err).UnmarshalBinary`: the receiver after the call and the error. The message
is assigned (and trimmed) also when `ReadString` returns `io.EOF`. -/
def Err.UnmarshalBinary (e : Err) (p : List Nat) : Err × Option TftpError :=
  match readUint16 p with
  | .error err => (e, some err)
  | .ok (code, r) =>
    if code ≠ OpErr then (e, some .invalidERROR)
    else
      match readUint16 r with
      | .error err => (e, some err)
      | .ok (ec, r2) =>
        let m := readString 0 r2
        ({ Error := ec, Message := trimRightZero m.1 }, m.2.2)

/-! ## Server and transfer session (server.go 13-17, 72-156) -/

/-- The server configuration. `Payload` is `none` for a nil slice; `Timeout` is in
nanoseconds. -/
structure Server where
  Payload : Option (List Nat)
  Retries : Nat
  Timeout : Nat
  deriving DecidableEq, Repr

/-- What the session's connection does on one attempt of the retry loop: `conn.Write` fails,
or it succeeds and `conn.Read` times out, fails otherwise, or delivers a datagram. -/
inductive Event
  | writeErr
  | timeout
  | readErr
  | datagram (d : List Nat)
  deriving DecidableEq, Repr

/-- The peer of a session (client and network): it answers each attempt from the list of the
packets written so far, the one being written included. -/
abbrev Peer := List (List Nat) → Event

/-- How a session ends, after the log line it writes last. `outOfFuel` is not a behaviour of the
code: it marks an exhausted recursion bound of `handleLoop`. -/
inductive Outcome
  | complete (blocks : Nat)
  | marshalFailed
  | writeFailed
  | readFailed
  | clientError (message : List Nat)
  | exhausted
  | outOfFuel
  deriving DecidableEq, Repr

/-- The local variables of `Server.handle`, and the log of its connection: every packet written,
in order, each with what the following `conn.Read` returned. -/
structure Session where
  dataPkt : Data
  ackPkt : Nat
  errPkt : Err
  buf : List Nat
  log : List (List Nat × Event)
  deriving DecidableEq, Repr

/-- The packets written by the session, in order. -/
def Session.sent (st : Session) : List (List Nat) := st.log.map Prod.fst

/-- The effect of `conn.Read(buf)` delivering the datagram `d`: the first `min (len buf) (len d)`
bytes of `buf` are overwritten, the others are kept. -/
def recvInto (buf d : List Nat) : List Nat := d.take buf.length ++ buf.drop d.length

/-- How the `RETRY` loop is left: `next n` is `continue NEXTPACKET` with `n` bytes written,
`stop o` is a `return`, or the loop running to its end (`exhausted`). -/
inductive Step
  | next (n : Nat)
  | stop (o : Outcome)
  deriving DecidableEq, Repr

/-- The `RETRY` loop of `Server.handle` (server.go 105-152) with `i` attempts left, for the
marshalled packet `data`. -/
def retry (peer : Peer) (data : List Nat) : Nat → Session → Step × Session
  | 0, st => (.stop .exhausted, st)
  | i + 1, st =>
    match peer (st.sent ++ [data]) with
    | .writeErr => (.stop .writeFailed, st)
    | .timeout => retry peer data i { st with log := st.log ++ [(data, .timeout)] }
    | .readErr => (.stop .readFailed, { st with log := st.log ++ [(data, .readErr)] })
    | .datagram d =>
      let buf := recvInto st.buf d
      let lg := st.log ++ [(data, Event.datagram d)]
      let a := Ack.UnmarshalBinary st.ackPkt buf
      if a.2 = none then
        let st1 : Session := { st with ackPkt := a.1, buf := buf, log := lg }
        if a.1 = st.dataPkt.Block then (.next data.length, st1)
        else retry peer data i st1
      else
        let e := Err.UnmarshalBinary st.errPkt buf
        let st2 : Session := { st with ackPkt := a.1, errPkt := e.1, buf := buf, log := lg }
        if e.2 = none then (.stop (.clientError e.1.Message), st2)
        else retry peer data i st2

/-- The `NEXTPACKET` loop of `Server.handle` (server.go 95-155); `n` is the loop variable and
`fuel` bounds the number of iterations. -/
def handleLoop (s : Server) (peer : Peer) : Nat → Nat → Session → Outcome × Session
  | 0, n, st => if n = DatagramSize then (.outOfFuel, st) else (.complete st.dataPkt.Block, st)
  | fuel + 1, n, st =>
    if n = DatagramSize then
      match Data.MarshalBinary st.dataPkt with
      | (d, .error _) => (.marshalFailed, { st with dataPkt := d })
      | (d, .ok data) =>
        match retry peer data s.Retries { st with dataPkt := d } with
        | (.next n1, st1) => handleLoop s peer fuel n1 st1
        | (.stop o, st1) => (o, st1)
    else (.complete st.dataPkt.Block, st)

/-- The bytes `bytes.NewReader(s.Payload)` reads: none for a nil slice. -/
def Server.payload (s : Server) : List Nat := s.Payload.getD []

/-- The state of a session when `net.Dial` has succeeded: block counter 0, the whole payload
unread, a zeroed receive buffer of `DatagramSize` bytes. -/
def Server.initSession (s : Server) : Session :=
  { dataPkt := { Block := 0, Payload := s.payload },
    ackPkt := 0,
    errPkt := { Error := 0, Message := [] },
    buf := List.replicate DatagramSize 0,
    log := [] }

/-- The method `Server.handle` from the point where `net.Dial` has succeeded. The request is
only logged. Each pass of the outer loop takes `BlockSize` bytes from the payload, so
`length / BlockSize + 1` passes are enough (`handle_fuel_enough`). -/
def Server.handle (s : Server) (_clientAddr : List Nat) (_rrq : ReadReq) (peer : Peer) :
    Outcome × Session :=
  handleLoop s peer (s.payload.length / BlockSize + 1) DatagramSize s.initSession

/-- The block number in bytes 2-3 of a packet, read as a big-endian `uint16`. -/
def blockOf (pkt : List Nat) : Nat :=
  ((pkt.drop 2).headD 0 * 256 + (pkt.drop 3).headD 0) % 65536

/-- The payload of a Data packet: the bytes after the 4-byte header. -/
def payloadOf (pkt : List Nat) : List Nat := pkt.drop 4

/-- A peer that acknowledges each block: its answer to every written packet is a datagram that
`Ack.UnmarshalBinary` decodes, without error, to the block number of that packet. -/
def Acknowledges (peer : Peer) : Prop :=
  ∀ (hist : List (List Nat)) (pkt : List Nat), ∃ d, peer (hist ++ [pkt]) = .datagram d ∧
    ∀ a0, Ack.UnmarshalBinary a0 d = (blockOf pkt, none)

/-- The peer that answers each packet with the 4-byte Ack of its block number. -/
def ackPeer : Peer := fun hist =>
  .datagram (putUint16 OpAck ++ putUint16 (blockOf (hist.getLastD [])))

/-- The peer that plays a fixed script of events, one per attempt, and is silent afterwards. -/
def scriptPeer (script : List Event) : Peer := fun hist =>
  script.getD (hist.length - 1) .timeout

/-! ## Predicates on the connection log -/

/-- An entry of the connection log: a written packet and what the following read returned. -/
abbrev Entry := List Nat × Event

/-- The reply of the entry is a datagram that `Ack.UnmarshalBinary` decodes to the block number
of the entry's packet. -/
def Acked (x : Entry) : Prop :=
  ∃ d a0, x.2 = .datagram d ∧ Ack.UnmarshalBinary a0 d = (blockOf x.1, none)

/-- The reply of the entry is a datagram that, copied into some receive buffer of `DatagramSize`
bytes, makes the buffer decode to the Ack of the block number of the entry's packet. -/
def AckedBuf (x : Entry) : Prop :=
  ∃ d buf0 a0, x.2 = .datagram d ∧ buf0.length = DatagramSize ∧
    Ack.UnmarshalBinary a0 (recvInto buf0 d) = (blockOf x.1, none)

/-- The reply of the entry is a datagram that decodes to an Ack of another block number than
that of the entry's packet. -/
def WrongAck (x : Entry) : Prop :=
  ∃ d a0 a, x.2 = .datagram d ∧ Ack.UnmarshalBinary a0 d = (a, none) ∧ a ≠ blockOf x.1

/-- Two consecutive log entries: the second packet is the first one again, or it carries the
next block number (modulo 65536) and the first entry's reply made the buffer decode to the
matching Ack. -/
def StepBuf (x y : Entry) : Prop :=
  y.1 = x.1 ∨ (blockOf y.1 = (blockOf x.1 + 1) % 65536 ∧ AckedBuf x)

/-- The reply of the entry is a datagram that, copied into some receive buffer of `DatagramSize`
bytes, makes the buffer fail to decode as an Ack and decode as an Err with message `m`. -/
def ErrBuf (x : Entry) (m : List Nat) : Prop :=
  ∃ d buf0 a0 e0, x.2 = .datagram d ∧ buf0.length = DatagramSize ∧
    (Ack.UnmarshalBinary a0 (recvInto buf0 d)).2 ≠ none ∧
    (Err.UnmarshalBinary e0 (recvInto buf0 d)).2 = none ∧
    (Err.UnmarshalBinary e0 (recvInto buf0 d)).1.Message = m

/-- The reply of the entry is a datagram whose first `DatagramSize` bytes (the whole datagram
when it is not longer: what `conn.Read` copies into the receive buffer) are decoded without
error by `Err.UnmarshalBinary`. -/
def ErrReply (x : Entry) : Prop :=
  ∃ d e0, x.2 = .datagram d ∧ (Err.UnmarshalBinary e0 (d.take DatagramSize)).2 = none

/-- What the entries `new` logged by a `RETRY` loop of `i` attempts look like when the loop
ends the session with outcome `o`. -/
def StopOK (o : Outcome) (new : List Entry) (i : Nat) : Prop :=
  match o with
  | .exhausted => new.length = i
  | .readFailed => ∃ init x, new = init ++ [x] ∧ x.2 = .readErr
  | .clientError m => ∃ init x, new = init ++ [x] ∧ ErrBuf x m
  | .writeFailed => True
  | _ => False

/-- What a `RETRY` loop of `i` attempts for the packet `data`, started in state `st`, has done
when it is left with `r`: it has logged at most `i` entries, all for `data`, it has kept the
Data packet and the size of the buffer, it leaves for the next packet only on a reply that
made the buffer decode to the matching Ack, and a reply that decodes as an Err packet is the
last one and ends the session. -/
def RetrySpec (data : List Nat) (i : Nat) (st : Session) (r : Step × Session) : Prop :=
  ∃ new : List Entry, r.2.log = st.log ++ new ∧ new.length ≤ i ∧ (∀ x ∈ new, x.1 = data) ∧
    r.2.dataPkt = st.dataPkt ∧ r.2.buf.length = DatagramSize ∧
    (∀ n, r.1 = .next n → n = data.length ∧ ∃ init x, new = init ++ [x] ∧ AckedBuf x) ∧
    (∀ o, r.1 = .stop o → StopOK o new i) ∧
    (∀ j x, new[j]? = some x → ErrReply x →
      j + 1 = new.length ∧ ∃ m, r.1 = .stop (.clientError m))

/-- The bytes `MarshalBinary` returns for the Data packet `d`. -/
def Data.packet (d : Data) : List Nat :=
  putUint16 OpData ++ putUint16 ((d.Block + 1) % 65536) ++ d.Payload.take BlockSize

/-- The Data packet `d` after `MarshalBinary`. -/
def Data.advance (d : Data) : Data :=
  { Block := (d.Block + 1) % 65536, Payload := d.Payload.drop BlockSize }

/-- The `j`-th Data packet (counted from 0) of a transfer of the payload `P`: block number
`j + 1` modulo 65536 and the `j`-th run of `BlockSize` payload bytes. -/
def dataPacketAt (P : List Nat) (j : Nat) : List Nat :=
  putUint16 OpData ++ putUint16 ((j + 1) % 65536) ++ (P.drop (BlockSize * j)).take BlockSize

/-- The Data packets of a complete transfer of the payload `P`. -/
def dataPackets (P : List Nat) : List (List Nat) :=
  (List.range (P.length / BlockSize + 1)).map (dataPacketAt P)

/-- The loop-head invariant of a transfer of `P` to a peer that acknowledges each block: `k`
packets are sent, each once, and `k` blocks of the payload are consumed. -/
def AckInv (P : List Nat) (fuel n : Nat) (st : Session) : Prop :=
  st.buf.length = DatagramSize ∧
  ∃ k, st.dataPkt = { Block := k % 65536, Payload := P.drop (BlockSize * k) } ∧
    st.sent = (List.range k).map (dataPacketAt P) ∧
    (n = DatagramSize → BlockSize * k ≤ P.length ∧ P.length / BlockSize + 1 ≤ k + fuel) ∧
    (n ≠ DatagramSize → k = P.length / BlockSize + 1)

/-- What the last entry of the log looks like when the session has ended with outcome `o`. -/
def LastOK (o : Outcome) (log : List Entry) : Prop :=
  match o with
  | .complete b => ∀ x, log.getLast? = some x → blockOf x.1 = b ∧ AckedBuf x
  | .clientError m => ∃ x, log.getLast? = some x ∧ ErrBuf x m
  | .readFailed => ∃ x, log.getLast? = some x ∧ x.2 = .readErr
  | .exhausted => True
  | .writeFailed => True
  | .marshalFailed => False
  | .outOfFuel => False

/-- The loop-head invariant of a session with any peer: consecutive log entries are related by
`StepBuf`, the last entry, if any, is for the current block and was acknowledged, and the
recursion bound exceeds the number of full blocks left in the payload source. -/
def ChainInv (fuel n : Nat) (st : Session) : Prop :=
  st.buf.length = DatagramSize ∧ List.Chain' StepBuf st.log ∧
    (∀ x, st.log.getLast? = some x → blockOf x.1 = st.dataPkt.Block ∧ AckedBuf x) ∧
    (n = DatagramSize → st.dataPkt.Payload.length / BlockSize < fuel)

/-- Two consecutive log entries: the second packet is the first one again, or it carries the
next block number (modulo 65536) and the first entry's reply is a datagram that decodes to the
Ack of the first packet's block. -/
def StepAck (x y : Entry) : Prop :=
  y.1 = x.1 ∨ (blockOf y.1 = (blockOf x.1 + 1) % 65536 ∧ Acked x)

/-- The reply of the entry, when it is a datagram, has at least the 4 bytes of an Ack. -/
def FullReply (x : Entry) : Prop := ∀ d, x.2 = .datagram d → 4 ≤ d.length

/-- The loop-head invariant on block numbers, for a bound `M` below 65536 on the number of
blocks of the transfer: every packet logged carries a block number from 1 to the current
block counter, the first one carries 1, and the counter plus the blocks still to send stays
within `M`. -/
def BlockInv (M : Nat) (_fuel n : Nat) (st : Session) : Prop :=
  st.buf.length = DatagramSize ∧
    (st.log = [] → st.dataPkt.Block = 0) ∧
    (∀ x, st.log.head? = some x → blockOf x.1 = 1) ∧
    (M < 65536 →
      st.dataPkt.Block + (if n = DatagramSize then st.dataPkt.Payload.length / BlockSize + 1
        else 0) ≤ M ∧
      ∀ x ∈ st.log, 1 ≤ blockOf x.1 ∧ blockOf x.1 ≤ st.dataPkt.Block)

/-- Every element of the buffer is a byte. -/
def IsBytes (p : List Nat) : Prop := ∀ b ∈ p, b < 256

/-- A peer whose reply to the first packet written is lost (the read times out) and who
acknowledges every later packet. -/
def LosesFirstReply (peer : Peer) : Prop :=
  (∀ pkt, peer [pkt] = .timeout) ∧
    ∀ (hist : List (List Nat)) (pkt : List Nat), hist ≠ [] →
      ∃ d, peer (hist ++ [pkt]) = .datagram d ∧
        ∀ a0, Ack.UnmarshalBinary a0 d = (blockOf pkt, none)

/-- The peer that is silent on the first attempt and then answers each packet with its Ack. -/
def lossyPeer : Peer := fun hist => if hist.length ≤ 1 then .timeout else ackPeer hist

/-- The log, cut into one segment per block of the payload `P`: segment `j` (from 0) holds the
attempts for the `j`-th block: at most `R` entries, each for the `j`-th Data packet of `P`, and
at least one entry unless it is the last segment. -/
def SegOK (P : List Nat) (R : Nat) (segs : List (List Entry)) : Prop :=
  ∀ j seg, segs[j]? = some seg →
    seg.length ≤ R ∧ (∀ x ∈ seg, x.1 = dataPacketAt P j) ∧ (j + 1 < segs.length → seg ≠ [])

/-- No more than `R` consecutive entries of the log carry the same block number: every run
`run` of consecutive entries whose packets all have one block number has at most `R` entries. -/
def RunBound (R : Nat) (log : List Entry) : Prop :=
  ∀ pre run post, log = pre ++ run ++ post →
    (∀ x ∈ run, ∀ y ∈ run, blockOf x.1 = blockOf y.1) → run.length ≤ R

/-- The loop-head invariant for the retry budget: the log is the concatenation of one segment,
not empty, per block sent so far, the block counter is the number of segments, the payload
source is at the next block, the last packet logged carries the current block number, and no
run of one block number is longer than `R`. -/
def SegInv (P : List Nat) (R : Nat) (_fuel _n : Nat) (st : Session) : Prop :=
  st.buf.length = DatagramSize ∧ RunBound R st.log ∧
    (∀ x, st.log.getLast? = some x → blockOf x.1 = st.dataPkt.Block) ∧
    ∃ segs : List (List Entry), st.log = segs.flatten ∧
      st.dataPkt = { Block := segs.length % 65536, Payload := P.drop (BlockSize * segs.length) } ∧
      SegOK P R segs ∧ ∀ seg ∈ segs, seg ≠ []

/-! ## The dispatcher (server.go 33-68) -/

/-- The duration `time.Second`, in nanoseconds. -/
def Second : Nat := 1000000000

/-- What `Serve` returns: one of its two configuration errors, or the error of
`conn.ReadFrom`. -/
inductive ServeError
  | nilConnection
  | payloadRequired
  | readError (e : Nat)
  deriving DecidableEq, Repr

/-- A listening connection that is not nil, as `Serve` sees it: the datagrams `conn.ReadFrom`
delivers, each with the address of its sender, and the error that ends the sequence. -/
structure Listener where
  inbound : List (List Nat × List Nat)
  err : Nat
  deriving DecidableEq, Repr

/-- One `go s.handle(addr.String(), rrq)`: the server value, the client address and the
request the session is started with. -/
structure Spawn where
  server : Server
  clientAddr : List Nat
  rrq : ReadReq
  deriving DecidableEq, Repr

/-- The result of `Serve`: the error returned, the receiver after the call, the number of
datagrams read, the sessions spawned in order, and the requests logged as bad. -/
structure ServeResult where
  err : ServeError
  server : Server
  reads : Nat
  spawned : List Spawn
  rejected : List (List Nat × TftpError)
  deriving DecidableEq, Repr

/-- The buffer `Serve` unmarshals after reading the datagram `d`: `make([]byte, DatagramSize)`
with `d` copied into it by `conn.ReadFrom`. -/
def datagramBuf (d : List Nat) : List Nat := recvInto (List.replicate DatagramSize 0) d

/-- The `for` loop of `Serve` (server.go 52-67) over the datagrams read: each is copied into a
fresh buffer of `DatagramSize` zero bytes, and the whole buffer is unmarshalled into the
variable `rrq`, which is declared before the loop. -/
def serveLoop (uni : List Nat → List Nat) (s : Server) :
    ReadReq → List (List Nat × List Nat) → List Spawn × List (List Nat × TftpError)
  | _, [] => ([], [])
  | rrq, (addr, d) :: rest =>
    let buf := datagramBuf d
    let r := ReadReq.UnmarshalBinary uni rrq buf
    let tail := serveLoop uni s r.1 rest
    match r.2 with
    | some e => (tail.1, (addr, e) :: tail.2)
    | none => ({ server := s, clientAddr := addr, rrq := r.1 } :: tail.1, tail.2)

/-- The method `(*Server).Serve`; `conn` is `none` for a nil connection. -/
def Server.Serve (uni : List Nat → List Nat) (s : Server) (conn : Option Listener) :
    ServeResult :=
  match conn with
  | none => { err := .nilConnection, server := s, reads := 0, spawned := [], rejected := [] }
  | some l =>
    if s.Payload = none then
      { err := .payloadRequired, server := s, reads := 0, spawned := [], rejected := [] }
    else
      let s1 : Server := if s.Retries = 0 then { s with Retries := 10 } else s
      let s2 : Server := if s1.Timeout = 0 then { s1 with Timeout := 6 * Second } else s1
      let r := serveLoop uni s2 { Filename := [], Mode := [] } l.inbound
      { err := .readError l.err, server := s2, reads := l.inbound.length,
        spawned := r.1, rejected := r.2 }

end Tftp

/-!
# Typed payloads (ch04/types.go)

`Binary` and `String` are lists of bytes. An `io.Reader` is given by the chunks of bytes its
successive `Read` calls can return: one `Read` returns bytes of the first chunk only, as a TCP
connection returns what has arrived and a `bytes.Buffer` returns all it holds.
-/

namespace Payloads

/-- The type byte of a `Binary`. -/
def BinaryType : Nat := 1

/-- The type byte of a `String`. -/
def StringType : Nat := 2

/-- The maximum payload size: `10 << 20`. -/
def MaxPayloadSize : Nat := 10 * 2 ^ 20

/-- The errors of types.go and of the readers. -/
inductive IoError
  | eof
  | unexpectedEOF
  | invalidBinary
  | invalidString
  | unknownType
  | maxPayloadSize
  deriving DecidableEq, Repr

/-- An `io.Reader`: the chunks still to be read. -/
abbrev Reader := List (List Nat)

/-- One call `r.Read(p)` with `len(p) = k`: up to `k` bytes of the first chunk that is not
empty; `io.EOF` when no byte is left and `k` is positive. -/
def Reader.read (k : Nat) : Reader → List Nat × Reader × Option IoError
  | [] => ([], [], if k = 0 then none else some .eof)
  | c :: cs =>
    if k = 0 then ([], c :: cs, none)
    else if c = [] then Reader.read k cs
    else (c.take k, (if c.drop k = [] then cs else c.drop k :: cs), none)

/-- The function `io.ReadFull(r, p)` with `len(p) = k`, which `binary.Read` uses: `Read` is
called until `k` bytes are read; `io.EOF` when none could be read, `io.ErrUnexpectedEOF` when
fewer than `k`. -/
def readFull : Nat → Reader → List Nat × Reader × Option IoError
  | k, [] => ([], [], if k = 0 then none else some .eof)
  | k, c :: cs =>
    if k ≤ c.length then (c.take k, (if c.drop k = [] then cs else c.drop k :: cs), none)
    else
      let r := readFull (k - c.length) cs
      (c ++ r.1, r.2.1,
        match r.2.2 with
        | some .eof => if c ++ r.1 = [] then some .eof else some .unexpectedEOF
        | e => e)

/-- The four bytes `binary.Write(w, binary.BigEndian, v)` writes for a `uint32`. -/
def putUint32 (v : Nat) : List Nat :=
  [v / 2 ^ 24 % 256, v / 2 ^ 16 % 256, v / 2 ^ 8 % 256, v % 256]

/-- The `uint32` that `binary.Read` decodes from four big-endian bytes. -/
def getUint32 (bs : List Nat) : Nat := bs.foldl (fun acc b => acc * 256 + b) 0 % 2 ^ 32

/-- The method `Binary.WriteTo` on a writer that accepts every write: the bytes written (type,
size as `uint32(len(m))`, payload) and the count returned. -/
def Binary.WriteTo (m : List Nat) : List Nat × Nat :=
  (BinaryType :: (putUint32 (m.length % 2 ^ 32) ++ m), 1 + 4 + m.length)

/-- The method `String.WriteTo` on a writer that accepts every write. -/
def String.WriteTo (m : List Nat) : List Nat × Nat :=
  (StringType :: (putUint32 (m.length % 2 ^ 32) ++ m), 1 + 4 + m.length)

/-- The method `(*Binary).ReadFrom`: the receiver after the call, the count and error returned,
and the reader after the call. The payload is read by one `Read` into a zeroed slice of `size`
bytes. -/
def Binary.ReadFrom (m : List Nat) (r : Reader) : List Nat × Nat × Option IoError × Reader :=
  let t := readFull 1 r
  match t.2.2 with
  | some e => (m, 0, some e, t.2.1)
  | none =>
    if t.1 ≠ [BinaryType] then (m, 1, some .invalidBinary, t.2.1)
    else
      let z := readFull 4 t.2.1
      match z.2.2 with
      | some e => (m, 1, some e, z.2.1)
      | none =>
        let size := getUint32 z.1
        if size > MaxPayloadSize then (m, 5, some .maxPayloadSize, z.2.1)
        else
          let rd := Reader.read size z.2.1
          (rd.1 ++ List.replicate (size - rd.1.length) 0, 5 + rd.1.length, rd.2.2, rd.2.1)

/-- The method `(*String).ReadFrom`: as for `Binary`, but the receiver is assigned only when
the `Read` returns no error. -/
def String.ReadFrom (m : List Nat) (r : Reader) : List Nat × Nat × Option IoError × Reader :=
  let t := readFull 1 r
  match t.2.2 with
  | some e => (m, 0, some e, t.2.1)
  | none =>
    if t.1 ≠ [StringType] then (m, 1, some .invalidString, t.2.1)
    else
      let z := readFull 4 t.2.1
      match z.2.2 with
      | some e => (m, 1, some e, z.2.1)
      | none =>
        let size := getUint32 z.1
        if size > MaxPayloadSize then (m, 5, some .maxPayloadSize, z.2.1)
        else
          let rd := Reader.read size z.2.1
          match rd.2.2 with
          | some e => (m, 5, some e, rd.2.1)
          | none => (rd.1 ++ List.replicate (size - rd.1.length) 0, 5 + rd.1.length, none, rd.2.1)

/-- A decoded payload with its concrete type. -/
inductive Payload
  | binary (b : List Nat)
  | string (s : List Nat)
  deriving DecidableEq, Repr

/-- The function `decode`: the payload (`none` for nil), the error, and the reader after the
call. `io.MultiReader(bytes.NewReader([]byte{typ}), r)` is the reader `r` with the chunk `[typ]`
in front. -/
def decode (r : Reader) : Option Payload × Option IoError × Reader :=
  let t := readFull 1 r
  match t.2.2 with
  | some e => (none, some e, t.2.1)
  | none =>
    if t.1 = [BinaryType] then
      let p := Binary.ReadFrom [] (t.1 :: t.2.1)
      match p.2.2.1 with
      | some e => (none, some e, p.2.2.2)
      | none => (some (.binary p.1), none, p.2.2.2)
    else if t.1 = [StringType] then
      let p := String.ReadFrom [] (t.1 :: t.2.1)
      match p.2.2.1 with
      | some e => (none, some e, p.2.2.2)
      | none => (some (.string p.1), none, p.2.2.2)
    else (none, some .unknownType, t.2.1)

/-- The bytes `WriteTo` writes for a payload. -/
def Payload.encode : Payload → List Nat
  | .binary b => (Binary.WriteTo b).1
  | .string m => (String.WriteTo m).1

/-- The contents of a payload. -/
def Payload.bytes : Payload → List Nat
  | .binary b => b
  | .string m => m

/-- The results of `n` successive calls of `decode` on a reader. -/
def decodeN : Nat → Reader → List (Option Payload × Option IoError)
  | 0, _ => []
  | n + 1, r => ((decode r).1, (decode r).2.1) :: decodeN n (decode r).2.2

/-- An in-memory reader holding the bytes `bs`: every `Read` returns all that is asked for, as
far as the bytes go. -/
def buffered (bs : List Nat) : Reader := if bs = [] then [] else [bs]

end Payloads

/-!
# Prefix restriction middleware (ch09/middleware/restrict_prefix.go)

A request is its URL path (a list of bytes) and everything else it carries. `path.Clean` is
library code, taken as a parameter.
-/

namespace Middleware

/-- The status code `http.StatusNotFound`. -/
def StatusNotFound : Nat := 404

/-- An HTTP request: the URL path and the rest of the request. -/
structure Request where
  Path : List Nat
  Rest : List Nat
  deriving DecidableEq, Repr

/-- What a handler does: `http.Error(w, body, code)`, or a call of the next handler. -/
inductive Effect
  | error (body : String) (code : Nat)
  | next (r : Request)
  deriving DecidableEq, Repr

/-- The effect of `strings.Split(s, "/")`: the runs of bytes between the slashes (byte 47);
the empty string gives one empty run. -/
def splitSlash : List Nat → List (List Nat)
  | [] => [[]]
  | c :: rest =>
    if c = 47 then [] :: splitSlash rest
    else
      match splitSlash rest with
      | seg :: segs => (c :: seg) :: segs
      | [] => [[c]]

/-- The `for` loop of the handler over the segments of the path: the first segment that
`strings.HasPrefix` finds to start with the prefix ends the handler with 404; after the last
segment the next handler is called. -/
def restrictLoop (pfx : List Nat) (r : Request) : List (List Nat) → List Effect
  | [] => [.next r]
  | p :: ps => if pfx.isPrefixOf p then [.error "Not Found" StatusNotFound]
    else restrictLoop pfx r ps

/-- The handler `RestrictPrefix(prefix, next)` applied to a request: the effects it has, in
order. -/
def RestrictPrefix (clean : List Nat → List Nat) (pfx : List Nat) (r : Request) :
    List Effect :=
  restrictLoop pfx r (splitSlash (clean r.Path))

end Middleware

namespace Tftp

/-! ## Lemmas on the library primitives -/

theorem readUint16_putUint16 (v : Nat) (rest : List Nat) (hv : v < 65536) :
    readUint16 (putUint16 v ++ rest) = .ok (v, rest) := by
  have h : (v / 256 % 256 * 256 + v % 256) % 65536 = v := by omega
  simp [putUint16, readUint16, h]

theorem readString_terminated (f rest : List Nat) (hz : 0 ∉ f) :
    readString 0 (f ++ 0 :: rest) = (f ++ [0], rest, none) := by
  induction f with
  | nil => simp [readString]
  | cons c f ih =>
    have hc : c ≠ 0 := fun h => hz (by simp [h])
    have hf : 0 ∉ f := fun h => hz (by simp [h])
    simp [readString, hc, ih hf]

theorem trimRightZero_terminated (f : List Nat) (hz : 0 ∉ f) :
    trimRightZero (f ++ [0]) = f := by
  unfold trimRightZero
  rw [List.rdropWhile_concat]
  simp only [beq_self_eq_true, if_true]
  rw [List.rdropWhile_eq_self_iff]
  intro hne
  have hmem : f.getLast hne ∈ f := List.getLast_mem hne
  intro h
  have h0 : f.getLast hne = 0 := by simpa using h
  exact hz (h0 ▸ hmem)

theorem lowerByte_mem_octet (c : Nat) (h : lowerByte c ∈ octet) : c ≠ 0 ∧ c < 128 := by
  unfold lowerByte at h
  simp only [octet, List.mem_cons, List.mem_singleton, List.not_mem_nil, or_false] at h
  split at h <;> omega

theorem mode_octet_facts (m : List Nat) (hm : m.map lowerByte = octet) :
    m ≠ [] ∧ 0 ∉ m ∧ m.all (fun c => decide (c < 128)) = true := by
  have hall : ∀ c ∈ m, lowerByte c ∈ octet := by
    intro c hc
    rw [← hm]
    exact List.mem_map_of_mem _ hc
  refine ⟨?_, ?_, ?_⟩
  · intro h
    rw [h] at hm
    simp [octet] at hm
  · intro h0
    exact (lowerByte_mem_octet 0 (hall 0 h0)).1 rfl
  · rw [List.all_eq_true]
    intro c hc
    simpa using (lowerByte_mem_octet c (hall c hc)).2

/-! ## Round trips of the codec (C1-C4) -/

/-- C1: for a read request with a non-empty file name without zero byte and a mode that is
"octet" up to letter case, `UnmarshalBinary` of the bytes of `MarshalBinary` succeeds and the
receiver then holds the same file name and the same mode. -/
theorem ReadReq_roundtrip (uni : List Nat → List Nat) (q q0 : ReadReq)
    (hne : q.Filename ≠ []) (hz : 0 ∉ q.Filename) (hm : q.Mode.map lowerByte = octet) :
    ∃ p, q.MarshalBinary = .ok p ∧ ReadReq.UnmarshalBinary uni q0 p = (q, none) := by
  obtain ⟨hmne, hmz, hascii⟩ := mode_octet_facts q.Mode hm
  refine ⟨putUint16 OpRRQ ++ q.Filename ++ [0] ++ q.Mode ++ [0], ?_, ?_⟩
  · simp [ReadReq.MarshalBinary, hmne]
  · have hshape : putUint16 OpRRQ ++ q.Filename ++ [0] ++ q.Mode ++ [0]
        = putUint16 OpRRQ ++ (q.Filename ++ 0 :: (q.Mode ++ 0 :: [])) := by simp
    have hlf : q.Filename.length ≠ 0 := by
      intro h
      exact hne (List.length_eq_zero.mp h)
    have hlm : q.Mode.length ≠ 0 := by
      intro h
      exact hmne (List.length_eq_zero.mp h)
    rw [hshape]
    unfold ReadReq.UnmarshalBinary
    rw [readUint16_putUint16 OpRRQ _ (by decide)]
    simp only [ne_eq, not_true_eq_false, if_false]
    rw [readString_terminated q.Filename _ hz]
    simp only [not_true_eq_false, if_false, trimRightZero_terminated q.Filename hz, hlf]
    rw [readString_terminated q.Mode _ hmz]
    simp only [not_true_eq_false, if_false, trimRightZero_terminated q.Mode hmz, hlm]
    simp [toLower, hascii, hm]

/-- C1 witness: file name "x", mode "OCTET". -/
theorem ReadReq_roundtrip_witness :
    ∃ p, ReadReq.MarshalBinary ⟨[120], [79, 67, 84, 69, 84]⟩ = .ok p ∧
      ReadReq.UnmarshalBinary id ⟨[], []⟩ p = (⟨[120], [79, 67, 84, 69, 84]⟩, none) :=
  ReadReq_roundtrip id ⟨[120], [79, 67, 84, 69, 84]⟩ ⟨[], []⟩ (by decide) (by decide) (by decide)

/-- C2 counterexample: for the Data packet with block number 0 and the one-byte payload 7,
`MarshalBinary` returns `00 03 00 01 07` and `UnmarshalBinary` of it succeeds with block
number 1, not the block number 0 the packet had. -/
theorem Data_roundtrip_block_counterexample :
    (Data.MarshalBinary ⟨0, [7]⟩).2 = .ok [0, 3, 0, 1, 7] ∧
      Data.UnmarshalBinary ⟨0, []⟩ [0, 3, 0, 1, 7] = (⟨1, [7]⟩, none) ∧
      (Data.UnmarshalBinary ⟨0, []⟩ [0, 3, 0, 1, 7]).1.Block ≠ (⟨0, [7]⟩ : Data).Block :=
  ⟨rfl, by decide, by decide⟩

/-- C2 (amended): for a Data packet with block number `b` and a payload of at most 512 bytes,
`UnmarshalBinary` of the bytes of `MarshalBinary` succeeds with the same payload bytes and
with block number `(b + 1) mod 65536`, the number `MarshalBinary` has left in the packet. -/
theorem Data_roundtrip (d d0 : Data) (hlen : d.Payload.length ≤ 512) :
    ∃ p, (Data.MarshalBinary d).2 = .ok p ∧
      Data.UnmarshalBinary d0 p = (⟨(d.Block + 1) % 65536, d.Payload⟩, none) ∧
      (Data.MarshalBinary d).1.Block = (d.Block + 1) % 65536 := by
  have htake : d.Payload.take BlockSize = d.Payload :=
    List.take_of_length_le (by simpa [BlockSize, DatagramSize] using hlen)
  have hb : (d.Block + 1) % 65536 < 65536 := Nat.mod_lt _ (by decide)
  refine ⟨putUint16 OpData ++ putUint16 ((d.Block + 1) % 65536) ++ d.Payload, ?_, ?_, rfl⟩
  · simp [Data.MarshalBinary, htake]
  · have hl : ¬ ((putUint16 OpData ++ putUint16 ((d.Block + 1) % 65536) ++ d.Payload).length < 4 ∨
        (putUint16 OpData ++ putUint16 ((d.Block + 1) % 65536) ++ d.Payload).length
          > DatagramSize) := by
      simp only [putUint16, DatagramSize, List.length_append, List.length_cons, List.length_nil]
      omega
    have h2 : (putUint16 OpData ++ putUint16 ((d.Block + 1) % 65536) ++ d.Payload).take 2
        = putUint16 OpData ++ [] := by simp [putUint16]
    have h3 : ((putUint16 OpData ++ putUint16 ((d.Block + 1) % 65536) ++ d.Payload).drop 2).take 2
        = putUint16 ((d.Block + 1) % 65536) ++ [] := by simp [putUint16]
    have h4 : (putUint16 OpData ++ putUint16 ((d.Block + 1) % 65536) ++ d.Payload).drop 4
        = d.Payload := by simp [putUint16]
    unfold Data.UnmarshalBinary
    rw [if_neg hl, h2, h3, h4, readUint16_putUint16 OpData _ (by decide),
      readUint16_putUint16 _ _ hb]
    simp

/-- C2 witness: block number 65535 (the increment wraps to 0) and a two-byte payload. -/
theorem Data_roundtrip_witness :
    ∃ p, (Data.MarshalBinary ⟨65535, [1, 2]⟩).2 = .ok p ∧
      Data.UnmarshalBinary ⟨9, []⟩ p = (⟨(65535 + 1) % 65536, [1, 2]⟩, none) ∧
      (Data.MarshalBinary ⟨65535, [1, 2]⟩).1.Block = (65535 + 1) % 65536 :=
  Data_roundtrip ⟨65535, [1, 2]⟩ ⟨9, []⟩ (by decide)

/-- C3: for every 16-bit block number `a`, `UnmarshalBinary` of the bytes of
`Ack(a).MarshalBinary` succeeds and sets the receiver to `a`. -/
theorem Ack_roundtrip (a a0 : Nat) (ha : a < 65536) :
    ∃ p, Ack.MarshalBinary a = .ok p ∧ Ack.UnmarshalBinary a0 p = (a, none) := by
  refine ⟨putUint16 OpAck ++ putUint16 a, rfl, ?_⟩
  have h : putUint16 OpAck ++ putUint16 a = putUint16 OpAck ++ (putUint16 a ++ []) := by simp
  unfold Ack.UnmarshalBinary
  rw [h, readUint16_putUint16 OpAck _ (by decide)]
  simp only [ne_eq, not_true_eq_false, if_false]
  rw [readUint16_putUint16 a _ ha]

/-- C3 witness: block number 65535. -/
theorem Ack_roundtrip_witness :
    ∃ p, Ack.MarshalBinary 65535 = .ok p ∧ Ack.UnmarshalBinary 0 p = (65535, none) :=
  Ack_roundtrip 65535 0 (by decide)

/-- C4: for an Err packet with a 16-bit error code and a message without zero byte (the empty
message included), `UnmarshalBinary` of the bytes of `MarshalBinary` succeeds and the receiver
then holds the same error code and the same message. -/
theorem Err_roundtrip (e e0 : Err) (hc : e.Error < 65536) (hz : 0 ∉ e.Message) :
    ∃ p, e.MarshalBinary = .ok p ∧ Err.UnmarshalBinary e0 p = (e, none) := by
  refine ⟨putUint16 OpErr ++ putUint16 e.Error ++ e.Message ++ [0], rfl, ?_⟩
  have h : putUint16 OpErr ++ putUint16 e.Error ++ e.Message ++ [0]
      = putUint16 OpErr ++ (putUint16 e.Error ++ (e.Message ++ 0 :: [])) := by simp
  unfold Err.UnmarshalBinary
  rw [h, readUint16_putUint16 OpErr _ (by decide)]
  simp only [ne_eq, not_true_eq_false, if_false]
  rw [readUint16_putUint16 e.Error _ hc]
  simp only [readString_terminated e.Message [] hz, trimRightZero_terminated e.Message hz]

/-- C4 witness: error code 65535 and the empty message. -/
theorem Err_roundtrip_witness :
    ∃ p, Err.MarshalBinary ⟨65535, []⟩ = .ok p ∧
      Err.UnmarshalBinary ⟨0, [1]⟩ p = (⟨65535, []⟩, none) :=
  Err_roundtrip ⟨65535, []⟩ ⟨0, [1]⟩ (by decide) (by decide)

end Tftp

namespace Tftp

/-! ## The receive buffer and the decoders -/

theorem recvInto_length (buf d : List Nat) : (recvInto buf d).length = buf.length := by
  simp only [recvInto, List.length_append, List.length_take, List.length_drop]
  omega

theorem Ack_unmarshal_recvInto (a0 : Nat) (buf d : List Nat) (hb : 4 ≤ buf.length)
    (hd : 4 ≤ d.length) :
    Ack.UnmarshalBinary a0 (recvInto buf d) = Ack.UnmarshalBinary a0 d := by
  match d, hd with
  | a :: b :: c :: e :: rest, _ =>
    match buf, hb with
    | _ :: _ :: _ :: _ :: brest, _ =>
      simp [recvInto, Ack.UnmarshalBinary, readUint16]

theorem Ack_unmarshal_ok_length (a0 v : Nat) (d : List Nat)
    (h : Ack.UnmarshalBinary a0 d = (v, none)) : 4 ≤ d.length := by
  match d with
  | [] => simp [Ack.UnmarshalBinary, readUint16] at h
  | [_] => simp [Ack.UnmarshalBinary, readUint16] at h
  | [_, _] =>
    simp only [Ack.UnmarshalBinary, readUint16] at h
    split at h <;> simp at h
  | [_, _, _] =>
    simp only [Ack.UnmarshalBinary, readUint16] at h
    split at h <;> simp at h
  | _ :: _ :: _ :: _ :: _ => simp

theorem Ack_unmarshal_ok_indep (a0 a1 v : Nat) (d : List Nat)
    (h : Ack.UnmarshalBinary a0 d = (v, none)) : Ack.UnmarshalBinary a1 d = (v, none) := by
  match d, Ack_unmarshal_ok_length a0 v d h with
  | a :: b :: c :: e :: rest, _ =>
    simp only [Ack.UnmarshalBinary, readUint16] at h ⊢
    split at h
    · simp at h
    · rename_i hc
      rw [if_neg hc]
      simpa using h

theorem readString_append_ok (l t m r : List Nat) (h : readString 0 l = (m, r, none)) :
    readString 0 (l ++ t) = (m, r ++ t, none) := by
  induction l generalizing m r with
  | nil => simp [readString] at h
  | cons c rest ih =>
    by_cases hc : c = 0
    · simp only [readString, hc, if_true, Prod.mk.injEq, and_true] at h
      simp [readString, hc, h.1.symm, h.2.symm]
    · simp only [readString, hc, if_false, Prod.mk.injEq] at h
      obtain ⟨h1, h2, h3⟩ := h
      have hrec := ih (readString 0 rest).1 (readString 0 rest).2.1 (by
        rw [← h3])
      show readString 0 (c :: (rest ++ t)) = (m, r ++ t, none)
      simp only [readString, hc, if_false, hrec]
      rw [h1, h2]

theorem recvInto_short (buf d : List Nat) (h : d.length ≤ buf.length) :
    recvInto buf d = d ++ buf.drop d.length := by
  rw [recvInto, List.take_of_length_le h]

theorem Err_unmarshal_append (e0 e1 : Err) (d t : List Nat)
    (h : (Err.UnmarshalBinary e0 d).2 = none) :
    (Err.UnmarshalBinary e1 (d ++ t)).2 = none ∧
      (Err.UnmarshalBinary e1 (d ++ t)).1 = (Err.UnmarshalBinary e0 d).1 ∧
      ∀ a, (Ack.UnmarshalBinary a (d ++ t)).2 ≠ none := by
  match d with
  | [] => simp [Err.UnmarshalBinary, readUint16] at h
  | [_] => simp [Err.UnmarshalBinary, readUint16] at h
  | [_, _] =>
    simp only [Err.UnmarshalBinary, readUint16] at h
    split at h <;> simp at h
  | [_, _, _] =>
    simp only [Err.UnmarshalBinary, readUint16] at h
    split at h <;> simp at h
  | a :: b :: c :: e :: rest =>
    simp only [Err.UnmarshalBinary, readUint16] at h
    split at h
    · simp at h
    · rename_i hcode
      simp only [ne_eq, Decidable.not_not] at hcode
      have hrs : readString 0 rest
          = ((readString 0 rest).1, (readString 0 rest).2.1, none) := by
        rw [← h]
      have happ := readString_append_ok rest t _ _ hrs
      refine ⟨?_, ?_, ?_⟩
      · simp [Err.UnmarshalBinary, readUint16, hcode, happ]
      · simp [Err.UnmarshalBinary, readUint16, hcode, happ]
      · intro a0
        simp [Ack.UnmarshalBinary, readUint16, hcode, OpAck, OpErr]

theorem ErrReply_buf (data d buf : List Nat) (a : Nat) (e : Err)
    (h : ErrReply (data, .datagram d)) (hbuf : buf.length = DatagramSize) :
    (Ack.UnmarshalBinary a (recvInto buf d)).2 ≠ none ∧
      (Err.UnmarshalBinary e (recvInto buf d)).2 = none := by
  obtain ⟨d1, e0, hd1, hdec⟩ := h
  cases hd1
  rw [recvInto, hbuf]
  obtain ⟨h1, _, h3⟩ := Err_unmarshal_append e0 e (d.take DatagramSize) (buf.drop d.length) hdec
  exact ⟨h3 a, h1⟩

/-! ## One attempt of the retry loop -/

theorem retry_zero (peer : Peer) (data : List Nat) (st : Session) :
    retry peer data 0 st = (.stop .exhausted, st) := rfl

theorem retry_writeErr (peer : Peer) (data : List Nat) (i : Nat) (st : Session)
    (hp : peer (st.sent ++ [data]) = .writeErr) :
    retry peer data (i + 1) st = (.stop .writeFailed, st) := by
  simp [retry, hp]

theorem retry_timeout (peer : Peer) (data : List Nat) (i : Nat) (st : Session)
    (hp : peer (st.sent ++ [data]) = .timeout) :
    retry peer data (i + 1) st
      = retry peer data i { st with log := st.log ++ [(data, .timeout)] } := by
  simp [retry, hp]

theorem retry_readErr (peer : Peer) (data : List Nat) (i : Nat) (st : Session)
    (hp : peer (st.sent ++ [data]) = .readErr) :
    retry peer data (i + 1) st
      = (.stop .readFailed, { st with log := st.log ++ [(data, .readErr)] }) := by
  simp [retry, hp]

theorem retry_ack_match (peer : Peer) (data : List Nat) (i : Nat) (st : Session) (d : List Nat)
    (hp : peer (st.sent ++ [data]) = .datagram d)
    (ha : (Ack.UnmarshalBinary st.ackPkt (recvInto st.buf d)).2 = none)
    (hm : (Ack.UnmarshalBinary st.ackPkt (recvInto st.buf d)).1 = st.dataPkt.Block) :
    retry peer data (i + 1) st
      = (.next data.length,
         { st with ackPkt := (Ack.UnmarshalBinary st.ackPkt (recvInto st.buf d)).1,
                   buf := recvInto st.buf d,
                   log := st.log ++ [(data, .datagram d)] }) := by
  simp [retry, hp, ha, hm]

theorem retry_ack_other (peer : Peer) (data : List Nat) (i : Nat) (st : Session) (d : List Nat)
    (hp : peer (st.sent ++ [data]) = .datagram d)
    (ha : (Ack.UnmarshalBinary st.ackPkt (recvInto st.buf d)).2 = none)
    (hm : (Ack.UnmarshalBinary st.ackPkt (recvInto st.buf d)).1 ≠ st.dataPkt.Block) :
    retry peer data (i + 1) st
      = retry peer data i
         { st with ackPkt := (Ack.UnmarshalBinary st.ackPkt (recvInto st.buf d)).1,
                   buf := recvInto st.buf d,
                   log := st.log ++ [(data, .datagram d)] } := by
  simp [retry, hp, ha, hm]

theorem retry_err (peer : Peer) (data : List Nat) (i : Nat) (st : Session) (d : List Nat)
    (hp : peer (st.sent ++ [data]) = .datagram d)
    (ha : (Ack.UnmarshalBinary st.ackPkt (recvInto st.buf d)).2 ≠ none)
    (he : (Err.UnmarshalBinary st.errPkt (recvInto st.buf d)).2 = none) :
    retry peer data (i + 1) st
      = (.stop (.clientError (Err.UnmarshalBinary st.errPkt (recvInto st.buf d)).1.Message),
         { st with ackPkt := (Ack.UnmarshalBinary st.ackPkt (recvInto st.buf d)).1,
                   errPkt := (Err.UnmarshalBinary st.errPkt (recvInto st.buf d)).1,
                   buf := recvInto st.buf d,
                   log := st.log ++ [(data, .datagram d)] }) := by
  simp [retry, hp, ha, he]

theorem retry_bad (peer : Peer) (data : List Nat) (i : Nat) (st : Session) (d : List Nat)
    (hp : peer (st.sent ++ [data]) = .datagram d)
    (ha : (Ack.UnmarshalBinary st.ackPkt (recvInto st.buf d)).2 ≠ none)
    (he : (Err.UnmarshalBinary st.errPkt (recvInto st.buf d)).2 ≠ none) :
    retry peer data (i + 1) st
      = retry peer data i
         { st with ackPkt := (Ack.UnmarshalBinary st.ackPkt (recvInto st.buf d)).1,
                   errPkt := (Err.UnmarshalBinary st.errPkt (recvInto st.buf d)).1,
                   buf := recvInto st.buf d,
                   log := st.log ++ [(data, .datagram d)] } := by
  simp [retry, hp, ha, he]

/-! ## What the retry loop does, for every peer -/

theorem StopOK_cons (o : Outcome) (new : List Entry) (i : Nat) (x : Entry)
    (h : StopOK o new i) : StopOK o (x :: new) (i + 1) := by
  cases o with
  | exhausted =>
    simp only [StopOK] at h ⊢
    simp [h]
  | readFailed =>
    simp only [StopOK] at h ⊢
    obtain ⟨init, y, hnew, hy⟩ := h
    exact ⟨x :: init, y, by simp [hnew], hy⟩
  | clientError m =>
    simp only [StopOK] at h ⊢
    obtain ⟨init, y, hnew, hy⟩ := h
    exact ⟨x :: init, y, by simp [hnew], hy⟩
  | writeFailed => trivial
  | complete b => exact h.elim
  | marshalFailed => exact h.elim
  | outOfFuel => exact h.elim

theorem RetrySpec_lift (data : List Nat) (i : Nat) (st st1 : Session) (e : Event)
    (r : Step × Session) (hlog : st1.log = st.log ++ [(data, e)])
    (hdata : st1.dataPkt = st.dataPkt) (hne : ¬ ErrReply (data, e))
    (h : RetrySpec data i st1 r) :
    RetrySpec data (i + 1) st r := by
  obtain ⟨new, h1, h2, h3, h4, h5, h6, h7, h8⟩ := h
  refine ⟨(data, e) :: new, ?_, ?_, ?_, ?_, h5, ?_, ?_, ?_⟩
  · rw [h1, hlog]
    simp
  · simpa using h2
  · intro x hx
    rcases List.mem_cons.mp hx with hx | hx
    · rw [hx]
    · exact h3 x hx
  · rw [h4, hdata]
  · intro n hn
    obtain ⟨hlen, init, x, hnew, hx⟩ := h6 n hn
    exact ⟨hlen, (data, e) :: init, x, by simp [hnew], hx⟩
  · intro o ho
    exact StopOK_cons o new i (data, e) (h7 o ho)
  · intro j x hj hx
    cases j with
    | zero =>
      simp only [List.getElem?_cons_zero, Option.some.injEq] at hj
      rw [← hj] at hx
      exact absurd hx hne
    | succ j =>
      simp only [List.getElem?_cons_succ] at hj
      obtain ⟨hlast, hm⟩ := h8 j x hj hx
      exact ⟨by simp [hlast], hm⟩

theorem getElem?_singleton_some {α : Type} (a x : α) (j : Nat) (h : [a][j]? = some x) :
    j = 0 ∧ x = a := by
  cases j with
  | zero => exact ⟨rfl, by simpa using h.symm⟩
  | succ j => simp at h

theorem retry_spec (peer : Peer) (data : List Nat) (i : Nat) (st : Session)
    (hbuf : st.buf.length = DatagramSize) (hblk : blockOf data = st.dataPkt.Block) :
    RetrySpec data i st (retry peer data i st) := by
  induction i generalizing st with
  | zero =>
    refine ⟨[], by simp [retry_zero], by simp, by simp, rfl, hbuf, ?_, ?_, ?_⟩
    · intro n hn
      simp [retry_zero] at hn
    · intro o ho
      simp only [retry_zero, Step.stop.injEq] at ho
      subst ho
      simp [StopOK]
    · intro j x hj
      simp at hj
  | succ i ih =>
    cases hp : peer (st.sent ++ [data]) with
    | writeErr =>
      rw [retry_writeErr peer data i st hp]
      refine ⟨[], by simp, by simp, by simp, rfl, hbuf, ?_, ?_, ?_⟩
      · intro n hn
        simp at hn
      · intro o ho
        simp only [Step.stop.injEq] at ho
        subst ho
        simp [StopOK]
      · intro j x hj
        simp at hj
    | timeout =>
      rw [retry_timeout peer data i st hp]
      refine RetrySpec_lift data i st { st with log := st.log ++ [(data, .timeout)] } .timeout _
        rfl rfl ?_ (ih { st with log := st.log ++ [(data, .timeout)] } hbuf hblk)
      rintro ⟨d, _, hd, _⟩
      cases hd
    | readErr =>
      rw [retry_readErr peer data i st hp]
      refine ⟨[(data, .readErr)], rfl, by simp, by simp, rfl, hbuf, ?_, ?_, ?_⟩
      · intro n hn
        simp at hn
      · intro o ho
        simp only [Step.stop.injEq] at ho
        subst ho
        exact ⟨[], (data, .readErr), rfl, rfl⟩
      · intro j x hj hx
        obtain ⟨_, hxe⟩ := getElem?_singleton_some _ x j hj
        subst hxe
        obtain ⟨d, _, hd, _⟩ := hx
        cases hd
    | datagram d =>
      have hlen : (recvInto st.buf d).length = DatagramSize := by
        rw [recvInto_length, hbuf]
      by_cases ha : (Ack.UnmarshalBinary st.ackPkt (recvInto st.buf d)).2 = none
      · have hnoerr : ¬ ErrReply (data, .datagram d) := fun h =>
          (ErrReply_buf data d st.buf st.ackPkt st.errPkt h hbuf).1 ha
        by_cases hm : (Ack.UnmarshalBinary st.ackPkt (recvInto st.buf d)).1 = st.dataPkt.Block
        · rw [retry_ack_match peer data i st d hp ha hm]
          refine ⟨[(data, .datagram d)], rfl, by simp, by simp, rfl, hlen, ?_, ?_, ?_⟩
          · intro n hn
            simp only [Step.next.injEq] at hn
            refine ⟨hn.symm, [], (data, .datagram d), rfl, ?_⟩
            refine ⟨d, st.buf, st.ackPkt, rfl, hbuf, ?_⟩
            rw [hblk, ← hm, ← ha]
          · intro o ho
            simp at ho
          · intro j x hj hx
            obtain ⟨_, hxe⟩ := getElem?_singleton_some _ x j hj
            subst hxe
            exact absurd hx hnoerr
        · rw [retry_ack_other peer data i st d hp ha hm]
          exact RetrySpec_lift data i st
            { st with ackPkt := (Ack.UnmarshalBinary st.ackPkt (recvInto st.buf d)).1,
                      buf := recvInto st.buf d,
                      log := st.log ++ [(data, .datagram d)] } (.datagram d) _ rfl rfl hnoerr
            (ih { st with ackPkt := (Ack.UnmarshalBinary st.ackPkt (recvInto st.buf d)).1,
                          buf := recvInto st.buf d,
                          log := st.log ++ [(data, .datagram d)] } hlen hblk)
      · by_cases he : (Err.UnmarshalBinary st.errPkt (recvInto st.buf d)).2 = none
        · rw [retry_err peer data i st d hp ha he]
          refine ⟨[(data, .datagram d)], rfl, by simp, by simp, rfl, hlen, ?_, ?_, ?_⟩
          · intro n hn
            simp at hn
          · intro o ho
            simp only [Step.stop.injEq] at ho
            subst ho
            exact ⟨[], (data, .datagram d), rfl, d, st.buf, st.ackPkt, st.errPkt, rfl, hbuf,
              ha, he, rfl⟩
          · intro j x hj _
            obtain ⟨hj0, _⟩ := getElem?_singleton_some _ x j hj
            exact ⟨by simp [hj0], _, rfl⟩
        · have hnoerr : ¬ ErrReply (data, .datagram d) := fun h =>
            he (ErrReply_buf data d st.buf st.ackPkt st.errPkt h hbuf).2
          rw [retry_bad peer data i st d hp ha he]
          exact RetrySpec_lift data i st
            { st with ackPkt := (Ack.UnmarshalBinary st.ackPkt (recvInto st.buf d)).1,
                      errPkt := (Err.UnmarshalBinary st.errPkt (recvInto st.buf d)).1,
                      buf := recvInto st.buf d,
                      log := st.log ++ [(data, .datagram d)] } (.datagram d) _ rfl rfl hnoerr
            (ih { st with ackPkt := (Ack.UnmarshalBinary st.ackPkt (recvInto st.buf d)).1,
                          errPkt := (Err.UnmarshalBinary st.errPkt (recvInto st.buf d)).1,
                          buf := recvInto st.buf d,
                          log := st.log ++ [(data, .datagram d)] } hlen hblk)

/-! ## The outer loop: marshalling and a proof rule -/

theorem Data_marshal_eq (d : Data) : Data.MarshalBinary d = (d.advance, .ok d.packet) := rfl

theorem blockOf_packet (d : Data) : blockOf d.packet = (d.Block + 1) % 65536 := by
  have h : (d.Block + 1) % 65536 < 65536 := Nat.mod_lt _ (by decide)
  simp only [Data.packet, putUint16, blockOf, List.cons_append, List.nil_append, List.drop_succ_cons,
    List.drop_zero, List.headD_cons]
  omega

theorem payloadOf_packet (d : Data) : payloadOf d.packet = d.Payload.take BlockSize := by
  simp [Data.packet, putUint16, payloadOf]

theorem packet_length (d : Data) : d.packet.length = 4 + min BlockSize d.Payload.length := by
  simp [Data.packet, putUint16]
  omega

theorem packet_length_full (d : Data) :
    d.packet.length = DatagramSize ↔ 512 ≤ d.Payload.length := by
  rw [packet_length]
  simp only [BlockSize, DatagramSize]
  omega

theorem handleLoop_done (s : Server) (peer : Peer) (fuel n : Nat) (st : Session)
    (hn : n ≠ DatagramSize) :
    handleLoop s peer fuel n st = (.complete st.dataPkt.Block, st) := by
  cases fuel <;> simp [handleLoop, hn]

theorem handleLoop_next (s : Server) (peer : Peer) (fuel : Nat) (st st1 : Session) (n1 : Nat)
    (h : retry peer st.dataPkt.packet s.Retries { st with dataPkt := st.dataPkt.advance }
      = (.next n1, st1)) :
    handleLoop s peer (fuel + 1) DatagramSize st = handleLoop s peer fuel n1 st1 := by
  simp [handleLoop, Data_marshal_eq, h]

theorem handleLoop_stop (s : Server) (peer : Peer) (fuel : Nat) (st st1 : Session) (o : Outcome)
    (h : retry peer st.dataPkt.packet s.Retries { st with dataPkt := st.dataPkt.advance }
      = (.stop o, st1)) :
    handleLoop s peer (fuel + 1) DatagramSize st = (o, st1) := by
  simp [handleLoop, Data_marshal_eq, h]

/-- A proof rule for the outer loop: an invariant `Inv fuel n st` of the loop head that every
pass preserves gives `Post` of the result. -/
theorem handleLoop_rule (s : Server) (peer : Peer) (Inv : Nat → Nat → Session → Prop)
    (Post : Outcome × Session → Prop)
    (hdone : ∀ fuel n st, Inv fuel n st → n ≠ DatagramSize →
      Post (.complete st.dataPkt.Block, st))
    (hfuel : ∀ st, Inv 0 DatagramSize st → Post (.outOfFuel, st))
    (hstop : ∀ fuel st o st1, Inv (fuel + 1) DatagramSize st →
      retry peer st.dataPkt.packet s.Retries { st with dataPkt := st.dataPkt.advance }
        = (.stop o, st1) → Post (o, st1))
    (hnext : ∀ fuel st n1 st1, Inv (fuel + 1) DatagramSize st →
      retry peer st.dataPkt.packet s.Retries { st with dataPkt := st.dataPkt.advance }
        = (.next n1, st1) → Inv fuel n1 st1)
    (fuel n : Nat) (st : Session) (hinv : Inv fuel n st) :
    Post (handleLoop s peer fuel n st) := by
  induction fuel generalizing n st with
  | zero =>
    by_cases hn : n = DatagramSize
    · subst hn
      simpa [handleLoop] using hfuel st hinv
    · rw [handleLoop_done s peer 0 n st hn]
      exact hdone 0 n st hinv hn
  | succ fuel ih =>
    by_cases hn : n = DatagramSize
    · subst hn
      cases hr : retry peer st.dataPkt.packet s.Retries
          { st with dataPkt := st.dataPkt.advance } with
      | mk step st1 =>
        cases step with
        | next n1 =>
          rw [handleLoop_next s peer fuel st st1 n1 hr]
          exact ih n1 st1 (hnext fuel st n1 st1 hinv hr)
        | stop o =>
          rw [handleLoop_stop s peer fuel st st1 o hr]
          exact hstop fuel st o st1 hinv hr
    · rw [handleLoop_done s peer (fuel + 1) n st hn]
      exact hdone (fuel + 1) n st hinv hn

/-! ## A peer that acknowledges each block -/

theorem retry_acknowledged (peer : Peer) (hack : Acknowledges peer) (data : List Nat) (i : Nat)
    (st : Session) (hbuf : st.buf.length = DatagramSize)
    (hblk : blockOf data = st.dataPkt.Block) :
    ∃ d a, retry peer data (i + 1) st
      = (.next data.length,
         { st with ackPkt := a, buf := recvInto st.buf d,
                   log := st.log ++ [(data, .datagram d)] }) := by
  obtain ⟨d, hp, hd⟩ := hack st.sent data
  have hd4 : 4 ≤ d.length := Ack_unmarshal_ok_length 0 _ d (hd 0)
  have hb4 : 4 ≤ st.buf.length := by
    rw [hbuf]
    decide
  have hdec : Ack.UnmarshalBinary st.ackPkt (recvInto st.buf d) = (st.dataPkt.Block, none) := by
    rw [Ack_unmarshal_recvInto st.ackPkt st.buf d hb4 hd4, hd st.ackPkt, hblk]
  refine ⟨d, (Ack.UnmarshalBinary st.ackPkt (recvInto st.buf d)).1, ?_⟩
  exact retry_ack_match peer data i st d hp (by rw [hdec]) (by rw [hdec])

theorem dataPacketAt_eq_packet (P : List Nat) (k : Nat) :
    (⟨k % 65536, P.drop (BlockSize * k)⟩ : Data).packet = dataPacketAt P k := by
  have h : (k % 65536 + 1) % 65536 = (k + 1) % 65536 := by omega
  simp [Data.packet, dataPacketAt, h]

theorem advance_eq (P : List Nat) (k : Nat) :
    (⟨k % 65536, P.drop (BlockSize * k)⟩ : Data).advance
      = ⟨(k + 1) % 65536, P.drop (BlockSize * (k + 1))⟩ := by
  have h : (k % 65536 + 1) % 65536 = (k + 1) % 65536 := by omega
  have h2 : BlockSize * k + BlockSize = BlockSize * (k + 1) := by ring
  simp [Data.advance, h, List.drop_drop, h2]

theorem ackInv_init (s : Server) :
    AckInv s.payload (s.payload.length / BlockSize + 1) DatagramSize s.initSession := by
  refine ⟨by simp [Server.initSession], 0, ?_, ?_, ?_, ?_⟩
  · simp [Server.initSession]
  · simp [Server.initSession, Session.sent]
  · intro _
    exact ⟨by simp, by omega⟩
  · intro h
    exact (h rfl).elim

theorem handle_acknowledged (s : Server) (addr : List Nat) (rrq : ReadReq) (peer : Peer)
    (hR : 0 < s.Retries) (hack : Acknowledges peer) :
    (s.handle addr rrq peer).1 = .complete ((s.payload.length / BlockSize + 1) % 65536) ∧
      (s.handle addr rrq peer).2.sent = dataPackets s.payload := by
  obtain ⟨R, hRe⟩ : ∃ R, s.Retries = R + 1 := ⟨s.Retries - 1, by omega⟩
  have hbs : BlockSize = 512 := rfl
  have hds : DatagramSize = 516 := rfl
  refine handleLoop_rule s peer (AckInv s.payload)
    (fun r => r.1 = .complete ((s.payload.length / BlockSize + 1) % 65536) ∧
      r.2.sent = dataPackets s.payload) ?_ ?_ ?_ ?_ _ _ _ (ackInv_init s)
  · rintro fuel n st ⟨_, k, hd, hsent, _, hk⟩ hn
    have hk := hk hn
    subst hk
    exact ⟨by simp [hd], hsent⟩
  · rintro st ⟨_, k, hd, hsent, hk, _⟩
    obtain ⟨h1, h2⟩ := hk rfl
    have := Nat.lt_succ_iff.mpr (Nat.le_refl (s.payload.length / BlockSize))
    have h3 := Nat.div_add_mod s.payload.length BlockSize
    have h4 := Nat.mod_lt s.payload.length (show 0 < BlockSize by decide)
    rw [hbs] at h1 h2 h3 h4
    omega
  · rintro fuel st o st1 ⟨hbuf, k, hd, hsent, hk, _⟩ hr
    obtain ⟨d, a, hret⟩ := retry_acknowledged peer hack st.dataPkt.packet R
      { st with dataPkt := st.dataPkt.advance } hbuf (by simp [blockOf_packet, Data.advance])
    rw [hRe, hret] at hr
    simp at hr
  · rintro fuel st n1 st1 ⟨hbuf, k, hd, hsent, hk, _⟩ hr
    obtain ⟨d, a, hret⟩ := retry_acknowledged peer hack st.dataPkt.packet R
      { st with dataPkt := st.dataPkt.advance } hbuf (by simp [blockOf_packet, Data.advance])
    rw [hRe, hret] at hr
    simp only [Prod.mk.injEq, Step.next.injEq] at hr
    obtain ⟨hn1, hst1⟩ := hr
    obtain ⟨h1, h2⟩ := hk rfl
    subst hst1
    have hpk : st.dataPkt.packet = dataPacketAt s.payload k := by
      rw [hd, dataPacketAt_eq_packet]
    have hfull : n1 = DatagramSize ↔ BlockSize * (k + 1) ≤ s.payload.length := by
      rw [← hn1, packet_length_full, hd]
      simp only [List.length_drop, hbs]
      omega
    refine ⟨by simp [recvInto_length, hbuf], k + 1, ?_, ?_, ?_, ?_⟩
    · simp [hd, advance_eq]
    · simp [Session.sent, List.range_succ, hpk] at hsent ⊢
      exact hsent
    · intro hn
      exact ⟨hfull.mp hn, by omega⟩
    · intro hn
      have hlt : ¬ BlockSize * (k + 1) ≤ s.payload.length := fun h => hn (hfull.mpr h)
      have h3 := Nat.div_add_mod s.payload.length BlockSize
      have h4 := Nat.mod_lt s.payload.length (show 0 < BlockSize by decide)
      have h5 : s.payload.length / BlockSize = k := by
        apply Nat.div_eq_of_lt_le
        · rw [Nat.mul_comm]
          exact h1
        · rw [Nat.mul_comm]
          omega
      omega

theorem ackPeer_acknowledges : Acknowledges ackPeer := by
  intro hist pkt
  refine ⟨putUint16 OpAck ++ putUint16 (blockOf pkt), by simp [ackPeer], ?_⟩
  intro a0
  have hb : blockOf pkt < 65536 := Nat.mod_lt _ (by decide)
  have h : putUint16 OpAck ++ putUint16 (blockOf pkt)
      = putUint16 OpAck ++ (putUint16 (blockOf pkt) ++ []) := by simp
  unfold Ack.UnmarshalBinary
  rw [h, readUint16_putUint16 OpAck _ (by decide)]
  simp only [ne_eq, not_true_eq_false, if_false]
  rw [readUint16_putUint16 _ _ hb]

theorem flatten_chunks (P : List Nat) (m : Nat) :
    ((List.range m).map (fun j => (P.drop (BlockSize * j)).take BlockSize)).flatten
      = P.take (BlockSize * m) := by
  induction m with
  | zero => simp
  | succ m ih =>
    rw [List.range_succ, List.map_append, List.flatten_append, ih, Nat.mul_succ, List.take_add]
    simp

theorem payloadOf_dataPacketAt (P : List Nat) (j : Nat) :
    payloadOf (dataPacketAt P j) = (P.drop (BlockSize * j)).take BlockSize := by
  simp [dataPacketAt, putUint16, payloadOf]

theorem blockOf_dataPacketAt (P : List Nat) (j : Nat) :
    blockOf (dataPacketAt P j) = (j + 1) % 65536 := by
  have h := blockOf_packet ⟨j % 65536, P.drop (BlockSize * j)⟩
  rw [dataPacketAt_eq_packet] at h
  rw [h]
  simp only
  omega

theorem flatten_dataPackets (P : List Nat) :
    ((dataPackets P).map payloadOf).flatten = P := by
  have hmap : (dataPackets P).map payloadOf
      = (List.range (P.length / BlockSize + 1)).map
          (fun j => (P.drop (BlockSize * j)).take BlockSize) := by
    simp [dataPackets, List.map_map, Function.comp_def, payloadOf_dataPacketAt]
  rw [hmap, flatten_chunks]
  apply List.take_of_length_le
  have h3 := Nat.div_add_mod P.length BlockSize
  have h4 := Nat.mod_lt P.length (show 0 < BlockSize by decide)
  rw [Nat.mul_succ]
  omega

theorem dataPackets_getElem? (P : List Nat) (j : Nat) (p : List Nat)
    (h : (dataPackets P)[j]? = some p) :
    j < P.length / BlockSize + 1 ∧ p = dataPacketAt P j := by
  unfold dataPackets at h
  rw [List.getElem?_map] at h
  by_cases hj : j < P.length / BlockSize + 1
  · rw [List.getElem?_range hj] at h
    simp only [Option.map_some', Option.some.injEq] at h
    exact ⟨hj, h.symm⟩
  · rw [List.getElem?_eq_none (by simpa using hj)] at h
    simp at h

/-! ## C5 and C6: a transfer to a peer that acknowledges each block -/

/-- C5: for every payload, every request and every peer that acknowledges each block, the
payloads of the Data packets `Server.handle` writes, concatenated in the order written, are
the server's payload. `Retries` is positive, as it is in every session `Serve` spawns. -/
theorem handle_serves_payload (s : Server) (addr : List Nat) (rrq : ReadReq) (peer : Peer)
    (hR : 0 < s.Retries) (hack : Acknowledges peer) :
    ((s.handle addr rrq peer).2.sent.map payloadOf).flatten = s.payload := by
  rw [(handle_acknowledged s addr rrq peer hR hack).2]
  exact flatten_dataPackets s.payload

/-- C5 witness: a three-byte payload, one attempt per block, the peer answering each packet
with its Ack. -/
theorem handle_serves_payload_witness :
    (((⟨some [1, 2, 3], 1, 0⟩ : Server).handle [] ⟨[120], octet⟩ ackPeer).2.sent.map
      payloadOf).flatten = (⟨some [1, 2, 3], 1, 0⟩ : Server).payload :=
  handle_serves_payload ⟨some [1, 2, 3], 1, 0⟩ [] ⟨[120], octet⟩ ackPeer (by decide)
    ackPeer_acknowledges

/-- C6: for a payload of length `L` served to a peer that acknowledges each block (`Retries`
positive), `Server.handle` writes exactly `L / 512 + 1` packets and then completes; the packet
at position `j` (from 0) carries block number `j + 1` (modulo 65536) and 512 payload bytes
when it is not the last, and `L mod 512` payload bytes (none when 512 divides `L`) when it is
the last. -/
theorem handle_block_count (s : Server) (addr : List Nat) (rrq : ReadReq) (peer : Peer)
    (hR : 0 < s.Retries) (hack : Acknowledges peer) :
    (s.handle addr rrq peer).2.sent.length = s.payload.length / 512 + 1 ∧
      (∀ j p, (s.handle addr rrq peer).2.sent[j]? = some p →
        blockOf p = (j + 1) % 65536 ∧
        (payloadOf p).length = if j < s.payload.length / 512 then 512
          else s.payload.length % 512) ∧
      (s.handle addr rrq peer).1 = .complete ((s.payload.length / 512 + 1) % 65536) := by
  obtain ⟨hout, hsent⟩ := handle_acknowledged s addr rrq peer hR hack
  have hbs : BlockSize = 512 := rfl
  rw [hsent]
  refine ⟨by simp [dataPackets, hbs], ?_, by rw [hout, hbs]⟩
  intro j p hjp
  obtain ⟨hj, hp⟩ := dataPackets_getElem? s.payload j p hjp
  subst hp
  refine ⟨blockOf_dataPacketAt s.payload j, ?_⟩
  rw [payloadOf_dataPacketAt]
  have h3 := Nat.div_add_mod s.payload.length 512
  have h4 := Nat.mod_lt s.payload.length (show 0 < 512 by decide)
  rw [hbs] at hj
  simp only [List.length_take, List.length_drop, hbs]
  split <;> omega

/-- C6 witness: an empty payload (a nil slice): one packet, with a zero-length payload. -/
theorem handle_block_count_witness :
    ((⟨none, 1, 0⟩ : Server).handle [] ⟨[120], octet⟩ ackPeer).2.sent.length
        = (⟨none, 1, 0⟩ : Server).payload.length / 512 + 1 ∧
      (∀ j p, ((⟨none, 1, 0⟩ : Server).handle [] ⟨[120], octet⟩ ackPeer).2.sent[j]? = some p →
        blockOf p = (j + 1) % 65536 ∧
        (payloadOf p).length = if j < (⟨none, 1, 0⟩ : Server).payload.length / 512 then 512
          else (⟨none, 1, 0⟩ : Server).payload.length % 512) ∧
      ((⟨none, 1, 0⟩ : Server).handle [] ⟨[120], octet⟩ ackPeer).1
        = .complete (((⟨none, 1, 0⟩ : Server).payload.length / 512 + 1) % 65536) :=
  handle_block_count ⟨none, 1, 0⟩ [] ⟨[120], octet⟩ ackPeer (by decide) ackPeer_acknowledges

/-! ## The log of a session with any peer -/

theorem chain_same_packet (data : List Nat) (new : List Entry) (h : ∀ x ∈ new, x.1 = data) :
    List.Chain' StepBuf new := by
  induction new with
  | nil => exact List.chain'_nil
  | cons a rest ih =>
    cases rest with
    | nil => exact List.chain'_singleton a
    | cons b rest =>
      refine List.Chain'.cons ?_ (ih (fun x hx => h x (List.mem_cons_of_mem _ hx)))
      left
      rw [h a (by simp), h b (by simp)]

theorem chain_extend (st : Session) (new : List Entry) (fuel n : Nat)
    (hinv : ChainInv fuel n st) (hnew : ∀ x ∈ new, x.1 = st.dataPkt.packet) :
    List.Chain' StepBuf (st.log ++ new) := by
  obtain ⟨_, hchain, hlast, _⟩ := hinv
  refine List.Chain'.append hchain (chain_same_packet _ new hnew) ?_
  intro x hx y hy
  obtain ⟨hbx, hax⟩ := hlast x (by simpa using hx)
  right
  have hy1 : y.1 = st.dataPkt.packet := hnew y (List.mem_of_mem_head? hy)
  rw [hy1, blockOf_packet, hbx]
  exact ⟨rfl, hax⟩

theorem handle_chain (s : Server) (addr : List Nat) (rrq : ReadReq) (peer : Peer) :
    List.Chain' StepBuf (s.handle addr rrq peer).2.log ∧
      LastOK (s.handle addr rrq peer).1 (s.handle addr rrq peer).2.log := by
  refine handleLoop_rule s peer ChainInv
    (fun r => List.Chain' StepBuf r.2.log ∧ LastOK r.1 r.2.log) ?_ ?_ ?_ ?_ _ _ _ ?_
  · rintro fuel n st ⟨_, hchain, hlast, _⟩ _
    exact ⟨hchain, hlast⟩
  · rintro st ⟨_, _, _, hf⟩
    exact absurd (hf rfl) (Nat.not_lt_zero _)
  · intro fuel st o st1 hinv hr
    obtain ⟨new, hlog, _, hnew, _, _, _, hstop, _⟩ := retry_spec peer st.dataPkt.packet s.Retries
      { st with dataPkt := st.dataPkt.advance } hinv.1 (by simp [blockOf_packet, Data.advance])
    rw [hr] at hlog hstop
    have hso := hstop o rfl
    have hlog1 : st1.log = st.log ++ new := hlog
    refine ⟨?_, ?_⟩
    · show List.Chain' StepBuf st1.log
      rw [hlog1]
      exact chain_extend st new _ _ hinv hnew
    · show LastOK o st1.log
      rw [hlog1]
      cases o with
      | exhausted => trivial
      | writeFailed => trivial
      | readFailed =>
        obtain ⟨init, x, hx, hx2⟩ := hso
        exact ⟨x, by rw [hx, ← List.append_assoc, List.getLast?_concat], hx2⟩
      | clientError m =>
        obtain ⟨init, x, hx, hx2⟩ := hso
        exact ⟨x, by rw [hx, ← List.append_assoc, List.getLast?_concat], hx2⟩
      | complete b => exact hso.elim
      | marshalFailed => exact hso.elim
      | outOfFuel => exact hso.elim
  · intro fuel st n1 st1 hinv hr
    obtain ⟨new, hlog, _, hnew, hdata, hbuf, hnext, _, _⟩ := retry_spec peer st.dataPkt.packet
      s.Retries { st with dataPkt := st.dataPkt.advance } hinv.1
      (by simp [blockOf_packet, Data.advance])
    rw [hr] at hlog hnext hdata hbuf
    obtain ⟨hn1, init, x, hx, hax⟩ := hnext n1 rfl
    have hlog1 : st1.log = st.log ++ new := hlog
    have hdata1 : st1.dataPkt = st.dataPkt.advance := hdata
    refine ⟨hbuf, ?_, ?_, ?_⟩
    · rw [hlog1]
      exact chain_extend st new _ _ hinv hnew
    · intro y hy
      rw [hlog1, hx, ← List.append_assoc, List.getLast?_concat] at hy
      simp only [Option.some.injEq] at hy
      subst hy
      have hx1 : x.1 = st.dataPkt.packet := hnew x (by simp [hx])
      rw [hx1, blockOf_packet, hdata1]
      exact ⟨rfl, hax⟩
    · intro hfull
      have hge : 512 ≤ st.dataPkt.Payload.length := by
        rw [← packet_length_full, ← hn1]
        exact hfull
      have hf := hinv.2.2.2 rfl
      have hbs : BlockSize = 512 := rfl
      rw [hdata1]
      simp only [Data.advance, List.length_drop]
      rw [hbs] at hf ⊢
      omega
  · exact ⟨by simp [Server.initSession], by simp [Server.initSession], by
      simp [Server.initSession], fun _ => by simp [Server.initSession]⟩

theorem handle_fuel_enough (s : Server) (addr : List Nat) (rrq : ReadReq) (peer : Peer) :
    (s.handle addr rrq peer).1 ≠ .outOfFuel ∧ (s.handle addr rrq peer).1 ≠ .marshalFailed := by
  have h := (handle_chain s addr rrq peer).2
  constructor <;> intro ho <;> rw [ho] at h <;> exact h

theorem chain_imp_mem {α : Type} {R S : α → α → Prop} (l : List α)
    (h : List.Chain' R l) (himp : ∀ a ∈ l, ∀ b ∈ l, R a b → S a b) : List.Chain' S l := by
  induction l with
  | nil => exact List.chain'_nil
  | cons a rest ih =>
    cases rest with
    | nil => exact List.chain'_singleton a
    | cons b rest =>
      rw [List.chain'_cons] at h ⊢
      refine ⟨himp a (by simp) b (by simp) h.1, ih h.2 ?_⟩
      intro x hx y hy
      exact himp x (List.mem_cons_of_mem _ hx) y (List.mem_cons_of_mem _ hy)

theorem AckedBuf_full (x : Entry) (ha : AckedBuf x) (hf : FullReply x) : Acked x := by
  obtain ⟨d, buf0, a0, hd, hb, hdec⟩ := ha
  have hb4 : 4 ≤ buf0.length := by
    rw [hb]
    decide
  rw [Ack_unmarshal_recvInto a0 buf0 d hb4 (hf d hd)] at hdec
  exact ⟨d, a0, hd, hdec⟩

theorem WrongAck_not_AckedBuf (x : Entry) (hw : WrongAck x) : ¬ AckedBuf x := by
  rintro ⟨d, buf0, a0, hd, hb, hdec⟩
  obtain ⟨d1, a1, a, hd1, hdec1, hne⟩ := hw
  rw [hd] at hd1
  cases hd1
  have hb4 : 4 ≤ buf0.length := by
    rw [hb]
    decide
  rw [Ack_unmarshal_recvInto a0 buf0 d hb4 (Ack_unmarshal_ok_length a1 a d hdec1),
    Ack_unmarshal_ok_indep a1 a0 a d hdec1] at hdec
  exact hne (by simpa using hdec)

theorem WrongAck_not_ErrBuf (x : Entry) (m : List Nat) (hw : WrongAck x) : ¬ ErrBuf x m := by
  rintro ⟨d, buf0, a0, e0, hd, hb, hdec, _, _⟩
  obtain ⟨d1, a1, a, hd1, hdec1, _⟩ := hw
  rw [hd] at hd1
  cases hd1
  have hb4 : 4 ≤ buf0.length := by
    rw [hb]
    decide
  rw [Ack_unmarshal_recvInto a0 buf0 d hb4 (Ack_unmarshal_ok_length a1 a d hdec1),
    Ack_unmarshal_ok_indep a1 a0 a d hdec1] at hdec
  exact hdec rfl

/-! ## C7: when the session moves to the next block -/

set_option maxRecDepth 100000 in
/-- C7, evaluated: `Retries = 2` and a payload of 512 bytes; the client answers block 1 with the
four bytes `07 07 00 01` and then with the two bytes `00 04`. `Ack.UnmarshalBinary` rejects
both datagrams, so no datagram that decodes as an Ack was received. But the receive buffer
keeps the bytes `00 01` of the first datagram behind the two bytes of the second and decodes
to the Ack of block 1: the session writes the Data packet of block 2. -/
theorem stale_buffer_advances :
    (Ack.UnmarshalBinary 0 [7, 7, 0, 1]).2 = some .invalidACK ∧
      (Ack.UnmarshalBinary 0 [0, 4]).2 = some .eof ∧
      (((⟨some (List.replicate 512 9), 2, 0⟩ : Server).handle [] ⟨[120], octet⟩
        (scriptPeer [.datagram [7, 7, 0, 1], .datagram [0, 4]])).2.log.map
          (fun x => (blockOf x.1, x.2)))
        = [(1, .datagram [7, 7, 0, 1]), (1, .datagram [0, 4]), (2, .timeout), (2, .timeout)] := by
  decide

set_option maxRecDepth 100000 in
/-- The retry budget bounds the retransmission: with `Retries = 1` and a one-byte payload, the
reply to block 1 is the Ack of block 7, which uses the only attempt. The Data packet was
written once and the session ends with its retries exhausted. -/
theorem wrong_ack_last_attempt :
    Ack.UnmarshalBinary 0 [0, 4, 0, 7] = (7, none) ∧
      ((⟨some [1], 1, 0⟩ : Server).handle [] ⟨[120], octet⟩
        (scriptPeer [.datagram [0, 4, 0, 7]])).2.log
        = [([0, 3, 0, 1, 1], .datagram [0, 4, 0, 7])] ∧
      ((⟨some [1], 1, 0⟩ : Server).handle [] ⟨[120], octet⟩
        (scriptPeer [.datagram [0, 4, 0, 7]])).1 = .exhausted := by
  decide

/-- The log of every session of `Server.handle`, with every peer, entry by entry: (1) each
packet written after another is the same packet again, or it carries the next block number
and the reply to the previous packet made the receive buffer decode to the Ack of the previous
packet's block; when that reply has at least 4 bytes, the reply itself decodes to this Ack;
(2) after a reply that decodes to an Ack of another block number the next packet written, if
any, is the same packet again; (3) when such a reply is the last one of the session, the
session has ended with its retries exhausted or on a failed write. -/
theorem handle_steps (s : Server) (addr : List Nat) (rrq : ReadReq) (peer : Peer) :
    List.Chain' (fun x y => StepBuf x y ∧ (FullReply x → StepAck x y))
        (s.handle addr rrq peer).2.log ∧
      List.Chain' (fun x y => WrongAck x → y.1 = x.1) (s.handle addr rrq peer).2.log ∧
      (∀ x, (s.handle addr rrq peer).2.log.getLast? = some x → WrongAck x →
        (s.handle addr rrq peer).1 = .exhausted ∨ (s.handle addr rrq peer).1 = .writeFailed) := by
  obtain ⟨hchain, hlast⟩ := handle_chain s addr rrq peer
  refine ⟨?_, ?_, ?_⟩
  · refine List.Chain'.imp ?_ hchain
    intro a b hab
    refine ⟨hab, fun hfull => ?_⟩
    rcases hab with h | ⟨h1, h2⟩
    · exact Or.inl h
    · exact Or.inr ⟨h1, AckedBuf_full a h2 hfull⟩
  · refine List.Chain'.imp ?_ hchain
    intro a b hab hw
    rcases hab with h | ⟨_, h2⟩
    · exact h
    · exact absurd h2 (WrongAck_not_AckedBuf a hw)
  · intro x hx hw
    cases ho : (s.handle addr rrq peer).1 with
    | exhausted => exact Or.inl rfl
    | writeFailed => exact Or.inr rfl
    | complete b =>
      rw [ho] at hlast
      exact absurd (hlast x hx).2 (WrongAck_not_AckedBuf x hw)
    | clientError m =>
      rw [ho] at hlast
      obtain ⟨y, hy, hey⟩ := hlast
      rw [hx] at hy
      cases hy
      exact absurd hey (WrongAck_not_ErrBuf x m hw)
    | readFailed =>
      rw [ho] at hlast
      obtain ⟨y, hy, hey⟩ := hlast
      rw [hx] at hy
      cases hy
      obtain ⟨d, _, _, hd, _⟩ := hw
      rw [hd] at hey
      cases hey
    | marshalFailed =>
      rw [ho] at hlast
      exact hlast.elim
    | outOfFuel =>
      rw [ho] at hlast
      exact hlast.elim

theorem retry_log_extends (peer : Peer) (data : List Nat) (i : Nat) (st : Session) :
    ∃ new, (retry peer data i st).2.log = st.log ++ new := by
  induction i generalizing st with
  | zero => exact ⟨[], by simp [retry_zero]⟩
  | succ i ih =>
    cases hp : peer (st.sent ++ [data]) with
    | writeErr => exact ⟨[], by simp [retry_writeErr peer data i st hp]⟩
    | timeout =>
      obtain ⟨new, hnew⟩ := ih { st with log := st.log ++ [(data, .timeout)] }
      exact ⟨(data, .timeout) :: new, by rw [retry_timeout peer data i st hp, hnew]; simp⟩
    | readErr => exact ⟨[(data, .readErr)], by rw [retry_readErr peer data i st hp]⟩
    | datagram d =>
      by_cases ha : (Ack.UnmarshalBinary st.ackPkt (recvInto st.buf d)).2 = none
      · by_cases hm : (Ack.UnmarshalBinary st.ackPkt (recvInto st.buf d)).1 = st.dataPkt.Block
        · exact ⟨[(data, .datagram d)], by rw [retry_ack_match peer data i st d hp ha hm]⟩
        · obtain ⟨new, hnew⟩ := ih
            { st with ackPkt := (Ack.UnmarshalBinary st.ackPkt (recvInto st.buf d)).1,
                      buf := recvInto st.buf d,
                      log := st.log ++ [(data, .datagram d)] }
          exact ⟨(data, .datagram d) :: new, by
            rw [retry_ack_other peer data i st d hp ha hm, hnew]; simp⟩
      · by_cases he : (Err.UnmarshalBinary st.errPkt (recvInto st.buf d)).2 = none
        · exact ⟨[(data, .datagram d)], by rw [retry_err peer data i st d hp ha he]⟩
        · obtain ⟨new, hnew⟩ := ih
            { st with ackPkt := (Ack.UnmarshalBinary st.ackPkt (recvInto st.buf d)).1,
                      errPkt := (Err.UnmarshalBinary st.errPkt (recvInto st.buf d)).1,
                      buf := recvInto st.buf d,
                      log := st.log ++ [(data, .datagram d)] }
          exact ⟨(data, .datagram d) :: new, by
            rw [retry_bad peer data i st d hp ha he, hnew]; simp⟩

theorem retry_first_entry (peer : Peer) (data : List Nat) (i : Nat) (st : Session)
    (hw : peer (st.sent ++ [data]) ≠ .writeErr) :
    ∃ rest, (retry peer data (i + 1) st).2.log
      = st.log ++ (data, peer (st.sent ++ [data])) :: rest := by
  cases hp : peer (st.sent ++ [data]) with
  | writeErr => exact absurd hp hw
  | timeout =>
    obtain ⟨new, hnew⟩ := retry_log_extends peer data i
      { st with log := st.log ++ [(data, .timeout)] }
    exact ⟨new, by rw [retry_timeout peer data i st hp, hnew]; simp⟩
  | readErr => exact ⟨[], by rw [retry_readErr peer data i st hp]⟩
  | datagram d =>
    by_cases ha : (Ack.UnmarshalBinary st.ackPkt (recvInto st.buf d)).2 = none
    · by_cases hm : (Ack.UnmarshalBinary st.ackPkt (recvInto st.buf d)).1 = st.dataPkt.Block
      · exact ⟨[], by rw [retry_ack_match peer data i st d hp ha hm]⟩
      · obtain ⟨new, hnew⟩ := retry_log_extends peer data i
          { st with ackPkt := (Ack.UnmarshalBinary st.ackPkt (recvInto st.buf d)).1,
                    buf := recvInto st.buf d,
                    log := st.log ++ [(data, .datagram d)] }
        exact ⟨new, by rw [retry_ack_other peer data i st d hp ha hm, hnew]; simp⟩
    · by_cases he : (Err.UnmarshalBinary st.errPkt (recvInto st.buf d)).2 = none
      · exact ⟨[], by rw [retry_err peer data i st d hp ha he]⟩
      · obtain ⟨new, hnew⟩ := retry_log_extends peer data i
          { st with ackPkt := (Ack.UnmarshalBinary st.ackPkt (recvInto st.buf d)).1,
                    errPkt := (Err.UnmarshalBinary st.errPkt (recvInto st.buf d)).1,
                    buf := recvInto st.buf d,
                    log := st.log ++ [(data, .datagram d)] }
        exact ⟨new, by rw [retry_bad peer data i st d hp ha he, hnew]; simp⟩

/-- In every state of the retry loop, with at least one attempt left after the current one
(`i + 2` in all): a reply that decodes to an Ack of another block number than the current
one does not end the loop, and the same Data packet is written again, as long as that write
succeeds. -/
theorem wrong_ack_resent (peer : Peer) (data : List Nat) (i : Nat) (st : Session)
    (d : List Nat) (a : Nat) (hbuf : st.buf.length = DatagramSize)
    (hp : peer (st.sent ++ [data]) = .datagram d)
    (hdec : Ack.UnmarshalBinary st.ackPkt d = (a, none)) (hne : a ≠ st.dataPkt.Block)
    (hw : peer (st.sent ++ [data] ++ [data]) ≠ .writeErr) :
    ∃ rest, (retry peer data (i + 2) st).2.log
      = st.log ++ (data, .datagram d) :: (data, peer (st.sent ++ [data] ++ [data])) :: rest := by
  have hb4 : 4 ≤ st.buf.length := by
    rw [hbuf]
    decide
  have hdec1 : Ack.UnmarshalBinary st.ackPkt (recvInto st.buf d) = (a, none) := by
    rw [Ack_unmarshal_recvInto st.ackPkt st.buf d hb4
      (Ack_unmarshal_ok_length st.ackPkt a d hdec), hdec]
  rw [retry_ack_other peer data (i + 1) st d hp (by rw [hdec1]) (by rw [hdec1]; exact hne)]
  have hsent : ({ st with ackPkt := (Ack.UnmarshalBinary st.ackPkt (recvInto st.buf d)).1,
                          buf := recvInto st.buf d,
                          log := st.log ++ [(data, .datagram d)] } : Session).sent
      = st.sent ++ [data] := by
    simp [Session.sent]
  obtain ⟨rest, hrest⟩ := retry_first_entry peer data i
    { st with ackPkt := (Ack.UnmarshalBinary st.ackPkt (recvInto st.buf d)).1,
              buf := recvInto st.buf d,
              log := st.log ++ [(data, .datagram d)] } (by rw [hsent]; exact hw)
  refine ⟨rest, ?_⟩
  rw [hrest, hsent]
  simp

set_option maxRecDepth 100000 in
/-- An instance: `Retries = 2`, a one-byte payload; the reply to block 1 is first the Ack of
block 7, then the Ack of block 1. The packet is written twice and the transfer completes. -/
theorem wrong_ack_resent_example :
    ((⟨some [1], 2, 0⟩ : Server).handle [] ⟨[120], octet⟩
        (scriptPeer [.datagram [0, 4, 0, 7], .datagram [0, 4, 0, 1]])).2.log
        = [([0, 3, 0, 1, 1], .datagram [0, 4, 0, 7]), ([0, 3, 0, 1, 1], .datagram [0, 4, 0, 1])] ∧
      ((⟨some [1], 2, 0⟩ : Server).handle [] ⟨[120], octet⟩
        (scriptPeer [.datagram [0, 4, 0, 7], .datagram [0, 4, 0, 1]])).1 = .complete 1 := by
  decide

/-! ## C8: the block numbers of the packets written -/

theorem head?_append_of_head (l new : List Entry) (x : Entry)
    (h : (l ++ new).head? = some x) : l.head? = some x ∨ (l = [] ∧ new.head? = some x) := by
  cases l with
  | nil => exact Or.inr ⟨rfl, by simpa using h⟩
  | cons a rest => exact Or.inl (by simpa using h)

theorem blockInv_step (M : Nat) (fuel n : Nat) (st st1 : Session) (new : List Entry)
    (hinv : BlockInv M fuel n st) (hn : n = DatagramSize)
    (hlog : st1.log = st.log ++ new) (hnew : ∀ x ∈ new, x.1 = st.dataPkt.packet) :
    (∀ x, st1.log.head? = some x → blockOf x.1 = 1) ∧
      (M < 65536 → st.dataPkt.advance.Block = st.dataPkt.Block + 1 ∧
        st.dataPkt.Block + st.dataPkt.Payload.length / BlockSize + 1 ≤ M ∧
        ∀ x ∈ st1.log, 1 ≤ blockOf x.1 ∧ blockOf x.1 ≤ st.dataPkt.Block + 1) := by
  obtain ⟨_, hempty, hhead, hbound⟩ := hinv
  refine ⟨?_, ?_⟩
  · intro x hx
    rw [hlog] at hx
    rcases head?_append_of_head st.log new x hx with h | ⟨h1, h2⟩
    · exact hhead x h
    · rw [hnew x (List.mem_of_mem_head? h2), blockOf_packet, hempty h1]
  · intro hM
    obtain ⟨hb, hall⟩ := hbound hM
    rw [if_pos hn] at hb
    have hbs : BlockSize = 512 := rfl
    rw [hbs] at hb ⊢
    have hadv : st.dataPkt.advance.Block = st.dataPkt.Block + 1 := by
      simp only [Data.advance]
      omega
    refine ⟨hadv, by omega, ?_⟩
    intro x hx
    rw [hlog] at hx
    rcases List.mem_append.mp hx with h | h
    · have := hall x h
      omega
    · rw [hnew x h, blockOf_packet]
      omega

theorem handle_blocks (s : Server) (addr : List Nat) (rrq : ReadReq) (peer : Peer) :
    (∀ x, (s.handle addr rrq peer).2.log.head? = some x → blockOf x.1 = 1) ∧
      (s.payload.length / BlockSize + 1 < 65536 →
        ∀ x ∈ (s.handle addr rrq peer).2.log,
          1 ≤ blockOf x.1 ∧ blockOf x.1 ≤ s.payload.length / BlockSize + 1) := by
  have hbs : BlockSize = 512 := rfl
  refine handleLoop_rule s peer (BlockInv (s.payload.length / BlockSize + 1))
    (fun r => (∀ x, r.2.log.head? = some x → blockOf x.1 = 1) ∧
      (s.payload.length / BlockSize + 1 < 65536 →
        ∀ x ∈ r.2.log, 1 ≤ blockOf x.1 ∧ blockOf x.1 ≤ s.payload.length / BlockSize + 1))
    ?_ ?_ ?_ ?_ _ _ _ ?_
  · rintro fuel n st ⟨_, _, hhead, hbound⟩ hn
    refine ⟨hhead, ?_⟩
    intro hM x hx
    obtain ⟨hb, hall⟩ := hbound hM
    have := hall x hx
    omega
  · rintro st ⟨_, _, hhead, hbound⟩
    refine ⟨hhead, ?_⟩
    intro hM x hx
    obtain ⟨hb, hall⟩ := hbound hM
    have := hall x hx
    omega
  · intro fuel st o st1 hinv hr
    obtain ⟨new, hlog, _, hnew, _, _, _, _, _⟩ := retry_spec peer st.dataPkt.packet s.Retries
      { st with dataPkt := st.dataPkt.advance } hinv.1 (by simp [blockOf_packet, Data.advance])
    rw [hr] at hlog
    obtain ⟨h1, h2⟩ := blockInv_step _ _ _ st st1 new hinv rfl hlog hnew
    refine ⟨h1, ?_⟩
    intro hM x hx
    obtain ⟨_, hb, hall⟩ := h2 hM
    have := hall x hx
    rw [hbs] at hb hM ⊢
    omega
  · intro fuel st n1 st1 hinv hr
    obtain ⟨new, hlog, _, hnew, hdata, hbuf, hnext, _, _⟩ := retry_spec peer st.dataPkt.packet
      s.Retries { st with dataPkt := st.dataPkt.advance } hinv.1
      (by simp [blockOf_packet, Data.advance])
    rw [hr] at hlog hnext hdata hbuf
    obtain ⟨hn1, init, x, hx, _⟩ := hnext n1 rfl
    have hlog1 : st1.log = st.log ++ new := hlog
    have hdata1 : st1.dataPkt = st.dataPkt.advance := hdata
    obtain ⟨h1, h2⟩ := blockInv_step _ _ _ st st1 new hinv rfl hlog1 hnew
    refine ⟨hbuf, ?_, h1, ?_⟩
    · intro hnil
      rw [hlog1, hx] at hnil
      simp at hnil
    · intro hM
      obtain ⟨hadv, hb, hall⟩ := h2 hM
      rw [hdata1, hadv]
      refine ⟨?_, hall⟩
      rw [hbs] at hb hM ⊢
      split
      · rename_i hfull
        have hge : 512 ≤ st.dataPkt.Payload.length := by
          rw [← packet_length_full, ← hn1]
          exact hfull
        simp only [Data.advance, List.length_drop, hbs]
        omega
      · omega
  · refine ⟨by simp [Server.initSession], fun _ => by simp [Server.initSession],
      by simp [Server.initSession], ?_⟩
    intro _
    simp [Server.initSession]

theorem nogap_chain (a : Nat) (l : List Nat)
    (h : List.Chain (fun x y => y = x ∨ y = x + 1) a l) :
    ∀ v ∈ a :: l, ∀ k, a ≤ k → k ≤ v → k ∈ a :: l := by
  induction l generalizing a with
  | nil =>
    intro v hv k hak hkv
    simp only [List.mem_singleton] at hv ⊢
    omega
  | cons b rest ih =>
    intro v hv k hak hkv
    rw [List.chain_cons] at h
    by_cases hk : k = a
    · simp [hk]
    · have hvb : v ∈ b :: rest := by
        rcases List.mem_cons.mp hv with hva | hvr
        · omega
        · exact hvr
      have hbk : b ≤ k := by
        rcases h.1 with hb | hb <;> omega
      exact List.mem_cons_of_mem _ (ih b h.2 v hvb k hbk hkv)

theorem nogap_chain' (l : List Nat) (h : List.Chain' (fun x y => y = x ∨ y = x + 1) l)
    (hhead : ∀ x, l.head? = some x → x = 1) :
    ∀ v ∈ l, ∀ k, 1 ≤ k → k ≤ v → k ∈ l := by
  cases l with
  | nil =>
    intro v hv
    simp at hv
  | cons a rest =>
    have ha : a = 1 := hhead a rfl
    subst ha
    exact nogap_chain 1 rest h

/-- C8 counterexample: a payload of 65535 * 512 bytes served, with one attempt per block, to
the peer that answers each packet with its Ack. The packets written at positions 65534 and
65535 (from 0) carry the block numbers 65535 and 0: the second is neither the first nor the
first plus one. -/
theorem block_number_wraps_counterexample :
    ∃ p q,
      ((⟨some (List.replicate 33553920 0), 1, 0⟩ : Server).handle [] ⟨[120], octet⟩
        ackPeer).2.sent[65534]? = some p ∧
      ((⟨some (List.replicate 33553920 0), 1, 0⟩ : Server).handle [] ⟨[120], octet⟩
        ackPeer).2.sent[65535]? = some q ∧
      blockOf p = 65535 ∧ blockOf q = 0 := by
  have hsent := (handle_acknowledged ⟨some (List.replicate 33553920 0), 1, 0⟩ []
    ⟨[120], octet⟩ ackPeer (by decide) ackPeer_acknowledges).2
  have hP : (⟨some (List.replicate 33553920 0), 1, 0⟩ : Server).payload
      = List.replicate 33553920 0 := rfl
  have hlen : (List.replicate 33553920 0 : List Nat).length / BlockSize + 1 = 65536 := by
    rw [List.length_replicate]
    rfl
  refine ⟨dataPacketAt (List.replicate 33553920 0) 65534,
    dataPacketAt (List.replicate 33553920 0) 65535, ?_, ?_, ?_, ?_⟩
  · rw [hsent, hP, dataPackets, hlen, List.getElem?_map,
      List.getElem?_range (by decide : 65534 < 65536)]
    rfl
  · rw [hsent, hP, dataPackets, hlen, List.getElem?_map,
      List.getElem?_range (by decide : 65535 < 65536)]
    rfl
  · rw [blockOf_dataPacketAt]
  · rw [blockOf_dataPacketAt]

/-- C8 (amended): in every session of `Server.handle`, with every peer, the first packet
written carries block number 1, and each next packet is the previous packet again, byte for
byte, or carries the previous block number plus one modulo 65536. When the payload is shorter
than 65535 * 512 bytes the counter does not wrap: each next packet is the previous one again
or carries the previous block number plus exactly one, and every number from 1 to a block
number written is the block number of a packet written. -/
theorem handle_block_numbers (s : Server) (addr : List Nat) (rrq : ReadReq) (peer : Peer) :
    (∀ p, (s.handle addr rrq peer).2.sent.head? = some p → blockOf p = 1) ∧
      List.Chain' (fun p q => q = p ∨ blockOf q = (blockOf p + 1) % 65536)
        (s.handle addr rrq peer).2.sent ∧
      (s.payload.length < 65535 * 512 →
        List.Chain' (fun p q => q = p ∨ blockOf q = blockOf p + 1)
          (s.handle addr rrq peer).2.sent ∧
        ∀ p ∈ (s.handle addr rrq peer).2.sent, ∀ k, 1 ≤ k → k ≤ blockOf p →
          ∃ q ∈ (s.handle addr rrq peer).2.sent, blockOf q = k) := by
  obtain ⟨hhead, hbound⟩ := handle_blocks s addr rrq peer
  have hchain := (handle_chain s addr rrq peer).1
  have hmod : List.Chain' (fun p q => q = p ∨ blockOf q = (blockOf p + 1) % 65536)
      (s.handle addr rrq peer).2.sent := by
    rw [Session.sent, List.chain'_map]
    refine List.Chain'.imp ?_ hchain
    intro a b hab
    rcases hab with h | ⟨h, _⟩
    · exact Or.inl h
    · exact Or.inr h
  have hhead1 : ∀ p, (s.handle addr rrq peer).2.sent.head? = some p → blockOf p = 1 := by
    intro p hp
    rw [Session.sent, List.head?_map] at hp
    cases hx : (s.handle addr rrq peer).2.log.head? with
    | none => simp [hx] at hp
    | some x =>
      rw [hx] at hp
      simp only [Option.map_some', Option.some.injEq] at hp
      rw [← hp]
      exact hhead x hx
  refine ⟨hhead1, hmod, ?_⟩
  intro hL
  have hbs : BlockSize = 512 := rfl
  have hM : s.payload.length / BlockSize + 1 < 65536 := by
    rw [hbs]
    omega
  have hb : ∀ p ∈ (s.handle addr rrq peer).2.sent, 1 ≤ blockOf p ∧ blockOf p < 65536 := by
    intro p hp
    rw [Session.sent, List.mem_map] at hp
    obtain ⟨x, hx, hxp⟩ := hp
    have := hbound hM x hx
    rw [← hxp]
    omega
  have hexact : List.Chain' (fun p q => q = p ∨ blockOf q = blockOf p + 1)
      (s.handle addr rrq peer).2.sent := by
    refine chain_imp_mem _ hmod ?_
    intro p hp q hq hpq
    rcases hpq with h | h
    · exact Or.inl h
    · right
      have h1 := hb p hp
      have h2 := hb q hq
      omega
  refine ⟨hexact, ?_⟩
  intro p hp k hk1 hkp
  have hnat : List.Chain' (fun x y => y = x ∨ y = x + 1)
      ((s.handle addr rrq peer).2.sent.map blockOf) := by
    rw [List.chain'_map]
    refine List.Chain'.imp ?_ hexact
    intro a b hab
    rcases hab with h | h
    · exact Or.inl (by rw [h])
    · exact Or.inr h
  have hnathead : ∀ x, ((s.handle addr rrq peer).2.sent.map blockOf).head? = some x → x = 1 := by
    intro x hx
    rw [List.head?_map] at hx
    cases hq : (s.handle addr rrq peer).2.sent.head? with
    | none => simp [hq] at hx
    | some q =>
      rw [hq] at hx
      simp only [Option.map_some', Option.some.injEq] at hx
      rw [← hx]
      exact hhead1 q hq
  have hmem := nogap_chain' _ hnat hnathead (blockOf p) (List.mem_map_of_mem _ hp) k hk1 hkp
  obtain ⟨q, hq, hqk⟩ := List.mem_map.mp hmem
  exact ⟨q, hq, hqk⟩

/-- C8 witness: a one-byte payload, `Retries = 2`, the first read times out and the second
returns the Ack of block 1. -/
theorem handle_block_numbers_witness :
    (⟨some [1], 2, 0⟩ : Server).payload.length < 65535 * 512 ∧
      List.Chain' (fun p q => q = p ∨ blockOf q = blockOf p + 1)
        ((⟨some [1], 2, 0⟩ : Server).handle [] ⟨[120], octet⟩
          (scriptPeer [.timeout, .datagram [0, 4, 0, 1]])).2.sent ∧
      ∀ p ∈ ((⟨some [1], 2, 0⟩ : Server).handle [] ⟨[120], octet⟩
          (scriptPeer [.timeout, .datagram [0, 4, 0, 1]])).2.sent, ∀ k, 1 ≤ k → k ≤ blockOf p →
        ∃ q ∈ ((⟨some [1], 2, 0⟩ : Server).handle [] ⟨[120], octet⟩
          (scriptPeer [.timeout, .datagram [0, 4, 0, 1]])).2.sent, blockOf q = k :=
  ⟨by decide, (handle_block_numbers ⟨some [1], 2, 0⟩ [] ⟨[120], octet⟩
    (scriptPeer [.timeout, .datagram [0, 4, 0, 1]])).2.2 (by decide)⟩

/-! ## C9: every read times out -/

theorem retry_timeouts (peer : Peer) (data : List Nat)
    (ht : ∀ hist, peer (hist ++ [data]) = .timeout) (i : Nat) (st : Session) :
    retry peer data i st
      = (.stop .exhausted, { st with log := st.log ++ List.replicate i (data, .timeout) }) := by
  induction i generalizing st with
  | zero => simp [retry_zero]
  | succ i ih =>
    rw [retry_timeout peer data i st (ht st.sent), ih]
    simp [List.replicate_succ]

/-- C9: in every session of `Server.handle` with `Retries = R`, if every attempt to send the
packet `p` is followed by a read that times out, and `p` is written at all, then the packets
written end with exactly `R` copies of `p`, byte for byte, `p` is not written before them, and
the session ends with its retries exhausted. (With `R = 0` nothing is written.) -/
theorem timeouts_exhaust_retries (s : Server) (addr : List Nat) (rrq : ReadReq) (peer : Peer)
    (p : List Nat) (ht : ∀ hist, peer (hist ++ [p]) = .timeout)
    (hp : p ∈ (s.handle addr rrq peer).2.sent) :
    ∃ pre, (s.handle addr rrq peer).2.sent = pre ++ List.replicate s.Retries p ∧ p ∉ pre ∧
      (s.handle addr rrq peer).1 = .exhausted := by
  revert hp
  refine handleLoop_rule s peer
    (fun _ _ st => st.buf.length = DatagramSize ∧ p ∉ st.sent)
    (fun r => p ∈ r.2.sent →
      ∃ pre, r.2.sent = pre ++ List.replicate s.Retries p ∧ p ∉ pre ∧ r.1 = .exhausted)
    ?_ ?_ ?_ ?_ _ _ _ ?_
  · rintro fuel n st ⟨_, hnot⟩ _ hmem
    exact absurd hmem hnot
  · rintro st ⟨_, hnot⟩ hmem
    exact absurd hmem hnot
  · rintro fuel st o st1 ⟨hbuf, hnot⟩ hr hmem
    by_cases hdp : st.dataPkt.packet = p
    · rw [hdp, retry_timeouts peer p ht] at hr
      simp only [Prod.mk.injEq, Step.stop.injEq] at hr
      obtain ⟨ho, hst⟩ := hr
      refine ⟨st.sent, ?_, hnot, ho.symm⟩
      rw [← hst]
      simp [Session.sent]
    · obtain ⟨new, hlog, _, hnew, _, _, _, _, _⟩ := retry_spec peer st.dataPkt.packet s.Retries
        { st with dataPkt := st.dataPkt.advance } hbuf (by simp [blockOf_packet, Data.advance])
      rw [hr] at hlog
      have hlog1 : st1.log = st.log ++ new := hlog
      rw [Session.sent, hlog1, List.map_append, List.mem_append] at hmem
      rcases hmem with h | h
      · exact absurd h hnot
      · obtain ⟨x, hx, hxp⟩ := List.mem_map.mp h
        exact absurd ((hnew x hx).symm.trans hxp) hdp
  · rintro fuel st n1 st1 ⟨hbuf, hnot⟩ hr
    by_cases hdp : st.dataPkt.packet = p
    · rw [hdp, retry_timeouts peer p ht] at hr
      simp at hr
    · obtain ⟨new, hlog, _, hnew, _, hbuf1, _, _, _⟩ := retry_spec peer st.dataPkt.packet
        s.Retries { st with dataPkt := st.dataPkt.advance } hbuf
        (by simp [blockOf_packet, Data.advance])
      rw [hr] at hlog hbuf1
      have hlog1 : st1.log = st.log ++ new := hlog
      refine ⟨hbuf1, ?_⟩
      intro hmem
      rw [Session.sent, hlog1, List.map_append, List.mem_append] at hmem
      rcases hmem with h | h
      · exact absurd h hnot
      · obtain ⟨x, hx, hxp⟩ := List.mem_map.mp h
        exact absurd ((hnew x hx).symm.trans hxp) hdp
  · exact ⟨by simp [Server.initSession], by simp [Server.initSession, Session.sent]⟩

set_option maxRecDepth 100000 in
/-- C9 witness: `Retries = 3`, a one-byte payload and a peer that never answers. -/
theorem timeouts_exhaust_retries_witness :
    (∀ hist, scriptPeer [] (hist ++ [[0, 3, 0, 1, 1]]) = .timeout) ∧
      [0, 3, 0, 1, 1] ∈ ((⟨some [1], 3, 0⟩ : Server).handle [] ⟨[120], octet⟩
        (scriptPeer [])).2.sent ∧
      ∃ pre, ((⟨some [1], 3, 0⟩ : Server).handle [] ⟨[120], octet⟩ (scriptPeer [])).2.sent
          = pre ++ List.replicate (⟨some [1], 3, 0⟩ : Server).Retries [0, 3, 0, 1, 1] ∧
        [0, 3, 0, 1, 1] ∉ pre ∧
        ((⟨some [1], 3, 0⟩ : Server).handle [] ⟨[120], octet⟩ (scriptPeer [])).1 = .exhausted :=
  ⟨fun _ => rfl, by decide,
    timeouts_exhaust_retries ⟨some [1], 3, 0⟩ [] ⟨[120], octet⟩ (scriptPeer [])
      [0, 3, 0, 1, 1] (fun _ => rfl) (by decide)⟩

/-! ## C10: an Error packet from the client -/

set_option maxRecDepth 1000000 in
/-- C10 counterexample: `Retries = 3`, a one-byte payload; every reply is the Err packet of 518
bytes with code 1 and a message of 513 bytes. `Err.UnmarshalBinary` decodes the datagram
without error, but the receive buffer takes its first 516 bytes only, without the terminating
zero byte: the Data packet is written three times and the session ends with its retries
exhausted, not on the client's error. -/
theorem oversize_error_resent_counterexample :
    ([0, 5, 0, 1] ++ List.replicate 513 88 ++ [0]).length = 518 ∧
      (Err.UnmarshalBinary ⟨0, []⟩ ([0, 5, 0, 1] ++ List.replicate 513 88 ++ [0])).2 = none ∧
      ((⟨some [1], 3, 0⟩ : Server).handle [] ⟨[120], octet⟩
        (fun _ => .datagram ([0, 5, 0, 1] ++ List.replicate 513 88 ++ [0]))).2.sent
        = [[0, 3, 0, 1, 1], [0, 3, 0, 1, 1], [0, 3, 0, 1, 1]] ∧
      ((⟨some [1], 3, 0⟩ : Server).handle [] ⟨[120], octet⟩
        (fun _ => .datagram ([0, 5, 0, 1] ++ List.replicate 513 88 ++ [0]))).1 = .exhausted := by
  decide

/-- C10 (amended): in every session of `Server.handle`, with every peer, a reply that is a
datagram whose first `DatagramSize` bytes (the whole datagram when it has at most 516 bytes)
decode without error as an Err packet is the last entry of the log, and the session has ended
on the client's error: no packet is written after it. At the level of the retry loop: in every
state and with any number `i + 1` of attempts left, such a reply makes the loop return at
once, with the decoded message, having logged this one attempt only; in particular so does
every datagram of at most `DatagramSize` bytes that decodes as an Err packet. -/
theorem error_reply_ends_session (s : Server) (addr : List Nat) (rrq : ReadReq) (peer : Peer) :
    (∀ j x, (s.handle addr rrq peer).2.log[j]? = some x → ErrReply x →
        j + 1 = (s.handle addr rrq peer).2.log.length ∧
        ∃ m, (s.handle addr rrq peer).1 = .clientError m) ∧
      (∀ (data : List Nat) (i : Nat) (st : Session) (d : List Nat) (e0 : Err),
        st.buf.length = DatagramSize → peer (st.sent ++ [data]) = .datagram d →
        (Err.UnmarshalBinary e0 (d.take DatagramSize)).2 = none →
        (retry peer data (i + 1) st).1
            = .stop (.clientError (Err.UnmarshalBinary e0 (d.take DatagramSize)).1.Message) ∧
          (retry peer data (i + 1) st).2.log = st.log ++ [(data, .datagram d)]) ∧
      (∀ (data : List Nat) (i : Nat) (st : Session) (d : List Nat) (e0 : Err),
        st.buf.length = DatagramSize → peer (st.sent ++ [data]) = .datagram d →
        d.length ≤ DatagramSize → (Err.UnmarshalBinary e0 d).2 = none →
        (retry peer data (i + 1) st).1
            = .stop (.clientError (Err.UnmarshalBinary e0 d).1.Message) ∧
          (retry peer data (i + 1) st).2.log = st.log ++ [(data, .datagram d)]) := by
  have hloop : ∀ (data : List Nat) (i : Nat) (st : Session) (d : List Nat) (e0 : Err),
      st.buf.length = DatagramSize → peer (st.sent ++ [data]) = .datagram d →
      (Err.UnmarshalBinary e0 (d.take DatagramSize)).2 = none →
      (retry peer data (i + 1) st).1
          = .stop (.clientError (Err.UnmarshalBinary e0 (d.take DatagramSize)).1.Message) ∧
        (retry peer data (i + 1) st).2.log = st.log ++ [(data, .datagram d)] := by
    intro data i st d e0 hbuf hp hdec
    have herr : ErrReply (data, .datagram d) := ⟨d, e0, rfl, hdec⟩
    obtain ⟨ha, he⟩ := ErrReply_buf data d st.buf st.ackPkt st.errPkt herr hbuf
    rw [retry_err peer data i st d hp ha he]
    refine ⟨?_, rfl⟩
    have hrecv : recvInto st.buf d = d.take DatagramSize ++ st.buf.drop d.length := by
      rw [recvInto, hbuf]
    rw [hrecv, (Err_unmarshal_append e0 st.errPkt (d.take DatagramSize)
      (st.buf.drop d.length) hdec).2.1]
  refine ⟨?_, hloop, ?_⟩
  · refine handleLoop_rule s peer
      (fun _ _ st => st.buf.length = DatagramSize ∧ ∀ x ∈ st.log, ¬ ErrReply x)
      (fun r => ∀ j x, r.2.log[j]? = some x → ErrReply x →
        j + 1 = r.2.log.length ∧ ∃ m, r.1 = .clientError m) ?_ ?_ ?_ ?_ _ _ _ ?_
    · rintro fuel n st ⟨_, hno⟩ _ j x hj hx
      exact absurd hx (hno x (List.getElem?_mem hj))
    · rintro st ⟨_, hno⟩ j x hj hx
      exact absurd hx (hno x (List.getElem?_mem hj))
    · rintro fuel st o st1 ⟨hbuf, hno⟩ hr j x hj hx
      obtain ⟨new, hlog, _, _, _, _, _, _, herr⟩ := retry_spec peer st.dataPkt.packet s.Retries
        { st with dataPkt := st.dataPkt.advance } hbuf (by simp [blockOf_packet, Data.advance])
      rw [hr] at hlog herr
      have hlog1 : st1.log = st.log ++ new := hlog
      rw [show (o, st1).2.log = st.log ++ new from hlog1] at hj ⊢
      by_cases hlt : j < st.log.length
      · rw [List.getElem?_append_left hlt] at hj
        exact absurd hx (hno x (List.getElem?_mem hj))
      · rw [List.getElem?_append_right (Nat.le_of_not_lt hlt)] at hj
        obtain ⟨hlast, m, hm⟩ := herr _ x hj hx
        simp only [Step.stop.injEq] at hm
        refine ⟨?_, m, hm⟩
        rw [List.length_append]
        omega
    · rintro fuel st n1 st1 ⟨hbuf, hno⟩ hr
      obtain ⟨new, hlog, _, _, _, hbuf1, _, _, herr⟩ := retry_spec peer st.dataPkt.packet
        s.Retries { st with dataPkt := st.dataPkt.advance } hbuf
        (by simp [blockOf_packet, Data.advance])
      rw [hr] at hlog herr hbuf1
      have hlog1 : st1.log = st.log ++ new := hlog
      refine ⟨hbuf1, ?_⟩
      intro x hx hex
      rw [hlog1, List.mem_append] at hx
      rcases hx with h | h
      · exact hno x h hex
      · obtain ⟨j, hj⟩ := List.getElem?_of_mem h
        obtain ⟨_, m, hm⟩ := herr j x hj hex
        simp at hm
    · exact ⟨by simp [Server.initSession], by simp [Server.initSession]⟩
  · intro data i st d e0 hbuf hp hlen hdec
    have htake : d.take DatagramSize = d := List.take_of_length_le hlen
    have h := hloop data i st d e0 hbuf hp (by rw [htake]; exact hdec)
    rw [htake] at h
    exact h

set_option maxRecDepth 100000 in
/-- C10 witness: `Retries = 3`, a one-byte payload; the reply to block 1 is the Err packet with
code 1 and message "X". -/
theorem error_reply_ends_session_witness :
    ((⟨some [1], 3, 0⟩ : Server).handle [] ⟨[120], octet⟩
        (scriptPeer [.datagram [0, 5, 0, 1, 88, 0]])).2.log[0]?
        = some ([0, 3, 0, 1, 1], .datagram [0, 5, 0, 1, 88, 0]) ∧
      ErrReply ([0, 3, 0, 1, 1], .datagram [0, 5, 0, 1, 88, 0]) ∧
      0 + 1 = ((⟨some [1], 3, 0⟩ : Server).handle [] ⟨[120], octet⟩
        (scriptPeer [.datagram [0, 5, 0, 1, 88, 0]])).2.log.length ∧
      ∃ m, ((⟨some [1], 3, 0⟩ : Server).handle [] ⟨[120], octet⟩
        (scriptPeer [.datagram [0, 5, 0, 1, 88, 0]])).1 = .clientError m :=
  ⟨by decide, ⟨[0, 5, 0, 1, 88, 0], ⟨0, []⟩, rfl, by decide⟩,
    (error_reply_ends_session ⟨some [1], 3, 0⟩ [] ⟨[120], octet⟩
      (scriptPeer [.datagram [0, 5, 0, 1, 88, 0]])).1 0
      ([0, 3, 0, 1, 1], .datagram [0, 5, 0, 1, 88, 0]) (by decide)
      ⟨[0, 5, 0, 1, 88, 0], ⟨0, []⟩, rfl, by decide⟩⟩

/-! ## The decoders, buffer by buffer (C11-C20) -/

theorem readString_none (l : List Nat) (h : (readString 0 l).2.2 = none) :
    ∃ f, 0 ∉ f ∧ l = f ++ 0 :: (readString 0 l).2.1 ∧ (readString 0 l).1 = f ++ [0] := by
  induction l with
  | nil => simp [readString] at h
  | cons c rest ih =>
    by_cases hc : c = 0
    · subst hc
      exact ⟨[], by simp, by simp [readString], by simp [readString]⟩
    · simp only [readString, hc, if_false] at h ⊢
      obtain ⟨f, hf, hl, hs⟩ := ih h
      refine ⟨c :: f, ?_, ?_, ?_⟩
      · intro hmem
        rcases List.mem_cons.mp hmem with h0 | h0
        · exact hc h0.symm
        · exact hf h0
      · rw [List.cons_append, ← hl]
      · rw [hs, List.cons_append]

theorem readString_eof (l : List Nat) (hz : 0 ∉ l) : readString 0 l = (l, [], some .eof) := by
  induction l with
  | nil => rfl
  | cons c rest ih =>
    have hc : c ≠ 0 := fun h => hz (by simp [h])
    have hr : 0 ∉ rest := fun h => hz (by simp [h])
    simp [readString, hc, ih hr]

theorem opcode_bytes (a b v : Nat) (ha : a < 256) (hb : b < 256) (hv : v < 256) :
    (a * 256 + b) % 65536 = v ↔ a = 0 ∧ b = v := by
  omega

theorem ReadReq_unmarshal_form (uni : List Nat → List Nat) (q0 : ReadReq)
    (f m rest : List Nat) (hne : f ≠ []) (hz : 0 ∉ f) (hmz : 0 ∉ m) :
    ReadReq.UnmarshalBinary uni q0 (0 :: 1 :: (f ++ 0 :: (m ++ 0 :: rest)))
      = (⟨f, m⟩, if m = [] then some .invalidRRQ
          else if toLower uni m = octet then none else some .unsupportedMode) := by
  have hlf : f.length ≠ 0 := fun h => hne (List.length_eq_zero.mp h)
  unfold ReadReq.UnmarshalBinary
  simp only [readUint16, OpRRQ]
  simp only [ne_eq, not_true_eq_false, if_false, Nat.reduceMul, Nat.reduceAdd, Nat.reduceMod]
  rw [readString_terminated f _ hz]
  simp only [not_true_eq_false, if_false, trimRightZero_terminated f hz, hlf]
  rw [readString_terminated m _ hmz]
  simp only [not_true_eq_false, if_false, trimRightZero_terminated m hmz]
  by_cases hm : m = []
  · simp [hm]
  · have hlm : m.length ≠ 0 := fun h => hm (List.length_eq_zero.mp h)
    by_cases ho : toLower uni m = octet
    · simp [hm, hlm, ho]
    · simp [hm, hlm, ho]

theorem ReadReq_unmarshal_ok (uni : List Nat → List Nat) (q0 : ReadReq) (p : List Nat)
    (hp : IsBytes p) (h : (ReadReq.UnmarshalBinary uni q0 p).2 = none) :
    ∃ f m rest, p = 0 :: 1 :: (f ++ 0 :: (m ++ 0 :: rest)) ∧ f ≠ [] ∧ 0 ∉ f ∧ 0 ∉ m ∧
      toLower uni m = octet := by
  match p, hp with
  | [], _ => simp [ReadReq.UnmarshalBinary, readUint16] at h
  | [_], _ => simp [ReadReq.UnmarshalBinary, readUint16] at h
  | a :: b :: r, hp =>
    simp only [ReadReq.UnmarshalBinary, readUint16] at h
    split_ifs at h with c1 c2 c3 c4 c5 c6
    have hab := (opcode_bytes a b 1 (hp a (by simp)) (hp b (by simp)) (by decide)).mp
      (by simpa [OpRRQ] using c1)
    obtain ⟨f, hf, hr, hs⟩ := readString_none r (by simpa using c2)
    obtain ⟨m, hm, hr1, hs1⟩ := readString_none (readString 0 r).2.1 (by simpa using c4)
    rw [hs, trimRightZero_terminated f hf] at c3
    rw [hs1, trimRightZero_terminated m hm] at c6
    refine ⟨f, m, (readString 0 (readString 0 r).2.1).2.1, ?_, ?_, hf, hm, by simpa using c6⟩
    · rw [hab.1, hab.2, ← hr1, ← hr]
    · intro hnil
      exact c3 (by rw [hnil]; rfl)

/-- C11: `ReadReq.UnmarshalBinary` succeeds on a buffer `p` of bytes exactly when `p` is
`00 01`, a non-empty file name `f` without zero byte, `00`, a mode `m` without zero byte that
`strings.ToLower` maps to "octet", `00`, and any bytes `rest`; the receiver then holds the file
name `f` and the mode `m` as written, and `rest` is ignored. -/
theorem ReadReq_unmarshal_iff (uni : List Nat → List Nat) (q0 : ReadReq) (p : List Nat)
    (hp : IsBytes p) :
    ((ReadReq.UnmarshalBinary uni q0 p).2 = none ↔
        ∃ f m rest, p = 0 :: 1 :: (f ++ 0 :: (m ++ 0 :: rest)) ∧ f ≠ [] ∧ 0 ∉ f ∧ 0 ∉ m ∧
          toLower uni m = octet) ∧
      (∀ f m rest, p = 0 :: 1 :: (f ++ 0 :: (m ++ 0 :: rest)) → f ≠ [] → 0 ∉ f → 0 ∉ m →
        toLower uni m = octet → ReadReq.UnmarshalBinary uni q0 p = (⟨f, m⟩, none)) := by
  have hform : ∀ f m rest, p = 0 :: 1 :: (f ++ 0 :: (m ++ 0 :: rest)) → f ≠ [] → 0 ∉ f →
      0 ∉ m → toLower uni m = octet → ReadReq.UnmarshalBinary uni q0 p = (⟨f, m⟩, none) := by
    intro f m rest hpf hne hz hmz hlow
    have hm : m ≠ [] := by
      intro hnil
      rw [hnil] at hlow
      simp [toLower, octet] at hlow
    rw [hpf, ReadReq_unmarshal_form uni q0 f m rest hne hz hmz]
    simp [hm, hlow]
  refine ⟨⟨ReadReq_unmarshal_ok uni q0 p hp, ?_⟩, hform⟩
  rintro ⟨f, m, rest, hpf, hne, hz, hmz, hlow⟩
  rw [hform f m rest hpf hne hz hmz hlow]

/-- C11 witness: the buffer `00 01 'x' 00 "OcTeT" 00 09`. -/
theorem ReadReq_unmarshal_iff_witness :
    IsBytes [0, 1, 120, 0, 79, 99, 84, 101, 84, 0, 9] ∧
      (ReadReq.UnmarshalBinary id ⟨[], []⟩ [0, 1, 120, 0, 79, 99, 84, 101, 84, 0, 9]).2 = none ∧
      ReadReq.UnmarshalBinary id ⟨[], []⟩ [0, 1, 120, 0, 79, 99, 84, 101, 84, 0, 9]
        = (⟨[120], [79, 99, 84, 101, 84]⟩, none) :=
  have hb : IsBytes [0, 1, 120, 0, 79, 99, 84, 101, 84, 0, 9] := by
    intro b hb
    simp only [List.mem_cons, List.mem_singleton, List.not_mem_nil, or_false] at hb
    omega
  ⟨hb,
    (ReadReq_unmarshal_iff id ⟨[], []⟩ [0, 1, 120, 0, 79, 99, 84, 101, 84, 0, 9] hb).1.mpr
      ⟨[120], [79, 99, 84, 101, 84], [9], rfl, by decide, by decide, by decide, by decide⟩,
    (ReadReq_unmarshal_iff id ⟨[], []⟩ [0, 1, 120, 0, 79, 99, 84, 101, 84, 0, 9] hb).2
      [120] [79, 99, 84, 101, 84] [9] rfl (by decide) (by decide) (by decide) (by decide)⟩

/-- C12: a buffer with the read-request opcode, a non-empty zero-terminated file name and a
non-empty zero-terminated mode that is not "octet" up to letter case (its byte-wise lower-casing
differs from "octet", and for a mode with non-ASCII bytes the Unicode lower-casing differs too)
makes `ReadReq.UnmarshalBinary` fail with the unsupported-mode error, which is not the
invalid-request error; the receiver holds the mode as written, not "octet". -/
theorem ReadReq_unsupported_mode (uni : List Nat → List Nat) (q0 : ReadReq)
    (f m rest : List Nat) (hne : f ≠ []) (hz : 0 ∉ f) (hm : m ≠ []) (hmz : 0 ∉ m)
    (hcase : m.map lowerByte ≠ octet)
    (huni : m.all (fun c => decide (c < 128)) = false → uni m ≠ octet) :
    ReadReq.UnmarshalBinary uni q0 (0 :: 1 :: (f ++ 0 :: (m ++ 0 :: rest)))
        = (⟨f, m⟩, some .unsupportedMode) ∧
      TftpError.unsupportedMode ≠ TftpError.invalidRRQ := by
  have hmode : toLower uni m ≠ octet := by
    unfold toLower
    cases hall : m.all (fun c => decide (c < 128)) with
    | true => simpa using hcase
    | false => simpa using huni hall
  refine ⟨?_, by decide⟩
  rw [ReadReq_unmarshal_form uni q0 f m rest hne hz hmz]
  simp [hm, hmode]

/-- C12 witness: file name "x", mode "netascii". -/
theorem ReadReq_unsupported_mode_witness :
    ReadReq.UnmarshalBinary id ⟨[], []⟩
        (0 :: 1 :: ([120] ++ 0 :: ([110, 101, 116, 97, 115, 99, 105, 105] ++ 0 :: [])))
        = (⟨[120], [110, 101, 116, 97, 115, 99, 105, 105]⟩, some .unsupportedMode) ∧
      TftpError.unsupportedMode ≠ TftpError.invalidRRQ :=
  ReadReq_unsupported_mode id ⟨[], []⟩ [120] [110, 101, 116, 97, 115, 99, 105, 105] []
    (by decide) (by decide) (by decide) (by decide) (by decide) (by decide)

/-- C13: for every read request, `MarshalBinary` does not fail and returns `00 01`, the file
name, `00`, the mode (the string "octet" when the Mode field is empty) and `00`; the length is
`2 + len(Filename) + 1 + len(mode) + 1`. -/
theorem ReadReq_marshal (q : ReadReq) :
    q.MarshalBinary
        = .ok (0 :: 1 :: (q.Filename ++ 0 :: ((if q.Mode = [] then octet else q.Mode) ++ [0]))) ∧
      ∀ p, q.MarshalBinary = .ok p →
        p.length = 2 + q.Filename.length + 1 + (if q.Mode = [] then octet else q.Mode).length
          + 1 := by
  have h : q.MarshalBinary
      = .ok (0 :: 1 :: (q.Filename ++ 0 :: ((if q.Mode = [] then octet else q.Mode) ++ [0]))) := by
    by_cases hm : q.Mode = [] <;> simp [ReadReq.MarshalBinary, putUint16, OpRRQ, hm]
  refine ⟨h, ?_⟩
  intro p hp
  rw [h] at hp
  cases hp
  simp only [List.length_cons, List.length_append, List.length_nil]
  omega

theorem Data_unmarshal_cases (d0 : Data) (p : List Nat) (hp : IsBytes p) :
    ((Data.UnmarshalBinary d0 p).2 = some .invalidDATA ↔
        (p.length < 4 ∨ p.length > 516 ∨ p.take 2 ≠ [0, 3])) ∧
      ((Data.UnmarshalBinary d0 p).2 = none ↔
        ¬ (p.length < 4 ∨ p.length > 516 ∨ p.take 2 ≠ [0, 3])) := by
  match p, hp with
  | [], _ => simp [Data.UnmarshalBinary]
  | [_], _ => simp [Data.UnmarshalBinary]
  | [_, _], _ => simp [Data.UnmarshalBinary]
  | [_, _, _], _ => simp [Data.UnmarshalBinary]
  | a :: b :: c :: e :: rest, hp =>
    have hop := opcode_bytes a b 3 (hp a (by simp)) (hp b (by simp)) (by decide)
    have htake : (a :: b :: c :: e :: rest).take 2 ≠ [0, 3] ↔ ¬ (a = 0 ∧ b = 3) := by simp
    rw [htake, ← hop]
    by_cases hlen : rest.length + 4 > 516
    · have hl : rest.length + 1 + 1 + 1 + 1 > 516 := hlen
      simp [Data.UnmarshalBinary, DatagramSize, hl]
    · have hl : ¬ (rest.length + 1 + 1 + 1 + 1 < 4 ∨ 516 < rest.length + 1 + 1 + 1 + 1) := by
        omega
      have hl2 : rest.length ≤ 512 := by omega
      by_cases hcode : (a * 256 + b) % 65536 = 3
      · simp [Data.UnmarshalBinary, DatagramSize, readUint16, OpData, hcode, hl, hl2]
      · simp [Data.UnmarshalBinary, DatagramSize, readUint16, OpData, hcode, hl]

/-- C14: on a buffer of bytes `Data.UnmarshalBinary` fails, with the invalid-DATA error, exactly
when the buffer has fewer than 4 bytes, more than 516 bytes, or first two bytes other than
`00 03`; otherwise it succeeds. -/
theorem Data_unmarshal_fails_iff (d0 : Data) (p : List Nat) (hp : IsBytes p) :
    ((Data.UnmarshalBinary d0 p).2 = some .invalidDATA ↔
        (p.length < 4 ∨ p.length > 516 ∨ p.take 2 ≠ [0, 3])) ∧
      ((Data.UnmarshalBinary d0 p).2 = none ↔
        ¬ (p.length < 4 ∨ p.length > 516 ∨ p.take 2 ≠ [0, 3])) :=
  Data_unmarshal_cases d0 p hp

/-- C14 witness: the 4-byte buffer `00 03 00 07` is accepted. -/
theorem Data_unmarshal_fails_iff_witness :
    IsBytes [0, 3, 0, 7] ∧ (Data.UnmarshalBinary ⟨0, []⟩ [0, 3, 0, 7]).2 = none :=
  have hb : IsBytes [0, 3, 0, 7] := by
    intro b hb
    simp only [List.mem_cons, List.mem_singleton, List.not_mem_nil, or_false] at hb
    omega
  ⟨hb, (Data_unmarshal_fails_iff ⟨0, []⟩ [0, 3, 0, 7] hb).2.mpr (by decide)⟩

/-- C15: for every buffer `p` of bytes that `Data.UnmarshalBinary` accepts, the buffer is
`p0 p1 p2 p3` followed by at most 512 bytes, the decoded block number is the big-endian value
`p2 * 256 + p3` and the decoded payload is the bytes after the fourth. -/
theorem Data_unmarshal_ok (d0 : Data) (p : List Nat) (hp : IsBytes p)
    (h : (Data.UnmarshalBinary d0 p).2 = none) :
    ∃ a b c e rest, p = a :: b :: c :: e :: rest ∧
      (Data.UnmarshalBinary d0 p).1.Block = c * 256 + e ∧
      (Data.UnmarshalBinary d0 p).1.Payload = p.drop 4 ∧
      (Data.UnmarshalBinary d0 p).1.Payload = rest ∧ rest.length ≤ 512 := by
  have hcond := ((Data_unmarshal_cases d0 p hp).2.mp h)
  match p, hp with
  | [], _ => simp at hcond
  | [_], _ => simp at hcond
  | [_, _], _ => simp at hcond
  | [_, _, _], _ => simp at hcond
  | a :: b :: c :: e :: rest, hp =>
    have hc : c < 256 := hp c (by simp)
    have he : e < 256 := hp e (by simp)
    have hab : (a * 256 + b) % 65536 = 3 := by
      have hop := opcode_bytes a b 3 (hp a (by simp)) (hp b (by simp)) (by decide)
      rw [hop]
      simp only [List.take_succ_cons, List.take_zero, ne_eq, List.cons.injEq, and_true,
        not_or, not_not] at hcond
      exact hcond.2.2
    have hl : ¬ (rest.length + 1 + 1 + 1 + 1 < 4 ∨ 516 < rest.length + 1 + 1 + 1 + 1) := by
      simp only [List.length_cons] at hcond
      omega
    have hval : (c * 256 + e) % 65536 = c * 256 + e := by omega
    refine ⟨a, b, c, e, rest, rfl, ?_, ?_, ?_, ?_⟩
    · simp [Data.UnmarshalBinary, DatagramSize, readUint16, OpData, hab, hl, hval]
    · simp [Data.UnmarshalBinary, DatagramSize, readUint16, OpData, hab, hl]
    · simp [Data.UnmarshalBinary, DatagramSize, readUint16, OpData, hab, hl]
    · omega

/-- C15 witness: the buffer `00 03 01 02 09 08` decodes to block 258 and payload `09 08`. -/
theorem Data_unmarshal_ok_witness :
    IsBytes [0, 3, 1, 2, 9, 8] ∧ (Data.UnmarshalBinary ⟨0, []⟩ [0, 3, 1, 2, 9, 8]).2 = none ∧
      ∃ a b c e rest, [0, 3, 1, 2, 9, 8] = a :: b :: c :: e :: rest ∧
        (Data.UnmarshalBinary ⟨0, []⟩ [0, 3, 1, 2, 9, 8]).1.Block = c * 256 + e ∧
        (Data.UnmarshalBinary ⟨0, []⟩ [0, 3, 1, 2, 9, 8]).1.Payload
          = [0, 3, 1, 2, 9, 8].drop 4 ∧
        (Data.UnmarshalBinary ⟨0, []⟩ [0, 3, 1, 2, 9, 8]).1.Payload = rest ∧
        rest.length ≤ 512 :=
  have hb : IsBytes [0, 3, 1, 2, 9, 8] := by
    intro b hb
    simp only [List.mem_cons, List.mem_singleton, List.not_mem_nil, or_false] at hb
    omega
  ⟨hb, by decide, Data_unmarshal_ok ⟨0, []⟩ [0, 3, 1, 2, 9, 8] hb (by decide)⟩

/-- C16: for every Data packet with block counter `b` and a payload source with `n` bytes left,
`MarshalBinary` does not fail, sets Block to `b + 1` (a `uint16` increment: `(b + 1) mod
65536`, which is `b + 1` for `b` below 65535), returns `00 03`, the two big-endian bytes of the
new block number and the next `min n 512` bytes of the source, and leaves the source advanced
by `min n 512` bytes; the output has `4 + min n 512` bytes, between 4 and 516, and fewer than
516 exactly when the source held fewer than 512 bytes. -/
theorem Data_marshal (d : Data) :
    (Data.MarshalBinary d).1.Block = (d.Block + 1) % 65536 ∧
      (d.Block < 65535 → (Data.MarshalBinary d).1.Block = d.Block + 1) ∧
      (Data.MarshalBinary d).2
        = .ok (0 :: 3 :: ((d.Block + 1) % 65536 / 256) :: ((d.Block + 1) % 65536 % 256) ::
            d.Payload.take (min d.Payload.length 512)) ∧
      (Data.MarshalBinary d).1.Payload = d.Payload.drop (min d.Payload.length 512) ∧
      (Data.MarshalBinary d).1.Payload.length = d.Payload.length - min d.Payload.length 512 ∧
      ∀ p, (Data.MarshalBinary d).2 = .ok p →
        p.length = 4 + min d.Payload.length 512 ∧ 4 ≤ p.length ∧ p.length ≤ 516 ∧
        (p.length < 516 ↔ d.Payload.length < 512) := by
  have hbs : BlockSize = 512 := rfl
  have hb : (d.Block + 1) % 65536 < 65536 := Nat.mod_lt _ (by decide)
  have hhi : (d.Block + 1) % 65536 / 256 % 256 = (d.Block + 1) % 65536 / 256 := by omega
  have htake : d.Payload.take (min d.Payload.length 512) = d.Payload.take 512 := by
    rcases Nat.le_total d.Payload.length 512 with h | h
    · rw [Nat.min_eq_left h, List.take_of_length_le h, List.take_of_length_le (Nat.le_refl _)]
    · rw [Nat.min_eq_right h]
  have hdrop : d.Payload.drop (min d.Payload.length 512) = d.Payload.drop 512 := by
    rcases Nat.le_total d.Payload.length 512 with h | h
    · rw [Nat.min_eq_left h, List.drop_of_length_le h, List.drop_of_length_le (Nat.le_refl _)]
    · rw [Nat.min_eq_right h]
  have hok : (Data.MarshalBinary d).2
      = .ok (0 :: 3 :: ((d.Block + 1) % 65536 / 256) :: ((d.Block + 1) % 65536 % 256) ::
          d.Payload.take (min d.Payload.length 512)) := by
    rw [htake]
    simp [Data.MarshalBinary, putUint16, OpData, hbs, hhi]
  refine ⟨rfl, ?_, hok, ?_, ?_, ?_⟩
  · intro hlt
    show (d.Block + 1) % 65536 = d.Block + 1
    omega
  · rw [hdrop]
    simp [Data.MarshalBinary, hbs]
  · simp only [Data.MarshalBinary, hbs, List.length_drop]
    omega
  · intro p hp
    rw [hok] at hp
    cases hp
    simp only [List.length_cons, List.length_take]
    omega

/-- C16 witness: block counter 7 and a three-byte source. -/
theorem Data_marshal_witness :
    (7 : Nat) < 65535 ∧ (Data.MarshalBinary ⟨7, [1, 2, 3]⟩).1.Block = 7 + 1 ∧
      (Data.MarshalBinary ⟨7, [1, 2, 3]⟩).2 = .ok [0, 3, 0, 8, 1, 2, 3] :=
  ⟨by decide, (Data_marshal ⟨7, [1, 2, 3]⟩).2.1 (by decide), (Data_marshal ⟨7, [1, 2, 3]⟩).2.2.1⟩

/-- C17: with Block at 65535, `Data.MarshalBinary` does not fail, sets Block to 0 and emits the
block number 0 in bytes 2-3 of the packet. -/
theorem Data_marshal_wraps (payload : List Nat) :
    (Data.MarshalBinary ⟨65535, payload⟩).1.Block = 0 ∧
      (Data.MarshalBinary ⟨65535, payload⟩).2 = .ok (0 :: 3 :: 0 :: 0 :: payload.take 512) := by
  have hbs : BlockSize = 512 := rfl
  refine ⟨?_, ?_⟩
  · simp [Data.MarshalBinary]
  · simp [Data.MarshalBinary, putUint16, OpData, hbs]

/-- C18: for every 16-bit block number `a`, `Ack(a).MarshalBinary` does not fail and returns
exactly the 4 bytes `00 04`, `a / 256`, `a mod 256`. -/
theorem Ack_marshal (a : Nat) (ha : a < 65536) :
    Ack.MarshalBinary a = .ok [0, 4, a / 256, a % 256] ∧ a / 256 < 256 ∧ a % 256 < 256 ∧
      ∀ p, Ack.MarshalBinary a = .ok p → p.length = 4 := by
  have hhi : a / 256 % 256 = a / 256 := by omega
  have hok : Ack.MarshalBinary a = .ok [0, 4, a / 256, a % 256] := by
    simp [Ack.MarshalBinary, putUint16, OpAck, hhi]
  refine ⟨hok, by omega, by omega, ?_⟩
  intro p hp
  rw [hok] at hp
  cases hp
  rfl

/-- C18 witness: the Ack of block 258 is `00 04 01 02`. -/
theorem Ack_marshal_witness :
    Ack.MarshalBinary 258 = .ok [0, 4, 258 / 256, 258 % 256] ∧ 258 / 256 < 256 ∧
      258 % 256 < 256 ∧ ∀ p, Ack.MarshalBinary 258 = .ok p → p.length = 4 :=
  Ack_marshal 258 (by decide)

/-- C19: for every buffer of at least 2 bytes whose first two bytes are not `00 04`,
`Ack.UnmarshalBinary` fails with the invalid-ACK error and leaves the receiver unchanged. -/
theorem Ack_unmarshal_bad_opcode (a0 a b : Nat) (rest : List Nat) (ha : a < 256) (hb : b < 256)
    (hop : [a, b] ≠ [0, 4]) :
    Ack.UnmarshalBinary a0 (a :: b :: rest) = (a0, some .invalidACK) := by
  have hcode : (a * 256 + b) % 65536 ≠ OpAck := by
    intro h
    have hab := (opcode_bytes a b 4 ha hb (by decide)).mp h
    exact hop (by rw [hab.1, hab.2])
  simp [Ack.UnmarshalBinary, readUint16, hcode]

/-- C19 witness: a Data packet given to the Ack decoder. -/
theorem Ack_unmarshal_bad_opcode_witness :
    Ack.UnmarshalBinary 7 (0 :: 3 :: [0, 1]) = (7, some .invalidACK) :=
  Ack_unmarshal_bad_opcode 7 0 3 [0, 1] (by decide) (by decide) (by decide)

/-- C20: for a buffer that starts with `00 05` and two bytes `c e` of error code,
`Err.UnmarshalBinary` returns an error (`io.EOF`) when no zero byte follows, and when the
bytes after the code are a message `m` without zero byte, a zero byte and anything else, it
succeeds with error code `c * 256 + e` and Message `m`. -/
theorem Err_unmarshal_terminator (e0 : Err) (c e : Nat) (hc : c < 256) (he : e < 256) :
    (∀ rest, 0 ∉ rest → (Err.UnmarshalBinary e0 (0 :: 5 :: c :: e :: rest)).2 = some .eof) ∧
      (∀ m rest, 0 ∉ m →
        Err.UnmarshalBinary e0 (0 :: 5 :: c :: e :: (m ++ 0 :: rest))
          = (⟨c * 256 + e, m⟩, none)) := by
  have hval : (c * 256 + e) % 65536 = c * 256 + e := by omega
  refine ⟨?_, ?_⟩
  · intro rest hz
    simp [Err.UnmarshalBinary, readUint16, OpErr, readString_eof rest hz]
  · intro m rest hz
    simp [Err.UnmarshalBinary, readUint16, OpErr, hval, readString_terminated m rest hz,
      trimRightZero_terminated m hz]

/-- C20 witness: error code 1; the message "X" without and with its zero byte. -/
theorem Err_unmarshal_terminator_witness :
    (∀ rest, 0 ∉ rest → (Err.UnmarshalBinary ⟨0, []⟩ (0 :: 5 :: 0 :: 1 :: rest)).2 = some .eof) ∧
      (∀ m rest, 0 ∉ m →
        Err.UnmarshalBinary ⟨0, []⟩ (0 :: 5 :: 0 :: 1 :: (m ++ 0 :: rest))
          = (⟨0 * 256 + 1, m⟩, none)) :=
  Err_unmarshal_terminator ⟨0, []⟩ 0 1 (by decide) (by decide)

/-- C30: `Ack.UnmarshalBinary` succeeds on every buffer of at least 4 bytes that starts with
`00 04`, sets the receiver to the big-endian value of bytes 2-3 and ignores the bytes after
the fourth; on every buffer of fewer than 4 bytes it fails. -/
theorem Ack_unmarshal_length (a0 : Nat) :
    (∀ c e rest, c < 256 → e < 256 →
        Ack.UnmarshalBinary a0 (0 :: 4 :: c :: e :: rest) = (c * 256 + e, none)) ∧
      (∀ p, p.length < 4 → (Ack.UnmarshalBinary a0 p).2 ≠ none) := by
  refine ⟨?_, ?_⟩
  · intro c e rest hc he
    have hval : (c * 256 + e) % 65536 = c * 256 + e := by omega
    simp [Ack.UnmarshalBinary, readUint16, OpAck, hval]
  · intro p hp h
    cases hr : (Ack.UnmarshalBinary a0 p) with
    | mk v err =>
      rw [hr] at h
      simp only at h
      subst h
      have := Ack_unmarshal_ok_length a0 v p hr
      omega

/-- C30 witness: the Ack of block 258 followed by two more bytes. -/
theorem Ack_unmarshal_length_witness :
    Ack.UnmarshalBinary 0 (0 :: 4 :: 1 :: 2 :: [9, 9]) = (1 * 256 + 2, none) ∧
      (Ack.UnmarshalBinary 0 [0, 4, 1]).2 ≠ none :=
  ⟨(Ack_unmarshal_length 0).1 1 2 [9, 9] (by decide) (by decide),
    (Ack_unmarshal_length 0).2 [0, 4, 1] (by decide)⟩

/-! ## C21: the example transfer of 1000 bytes -/

theorem retry_acked_once (peer : Peer) (data : List Nat) (i : Nat) (st : Session)
    (d : List Nat) (hp : peer (st.sent ++ [data]) = .datagram d)
    (hd : ∀ a0, Ack.UnmarshalBinary a0 d = (blockOf data, none))
    (hbuf : st.buf.length = DatagramSize) (hblk : blockOf data = st.dataPkt.Block) :
    ∃ a, retry peer data (i + 1) st
      = (.next data.length,
         { st with ackPkt := a, buf := recvInto st.buf d,
                   log := st.log ++ [(data, .datagram d)] }) := by
  have hd4 : 4 ≤ d.length := Ack_unmarshal_ok_length 0 _ d (hd 0)
  have hb4 : 4 ≤ st.buf.length := by
    rw [hbuf]
    decide
  have hdec : Ack.UnmarshalBinary st.ackPkt (recvInto st.buf d) = (st.dataPkt.Block, none) := by
    rw [Ack_unmarshal_recvInto st.ackPkt st.buf d hb4 hd4, hd st.ackPkt, hblk]
  exact ⟨_, retry_ack_match peer data i st d hp (by rw [hdec]) (by rw [hdec])⟩

theorem lossyPeer_loses : LosesFirstReply lossyPeer := by
  refine ⟨fun pkt => by simp [lossyPeer], ?_⟩
  intro hist pkt hne
  obtain ⟨d, hd1, hd2⟩ := ackPeer_acknowledges hist pkt
  refine ⟨d, ?_, hd2⟩
  have hl : ¬ (hist ++ [pkt]).length ≤ 1 := by
    cases hist with
    | nil => exact absurd rfl hne
    | cons a rest => simp
  simp only [lossyPeer, hl, if_false]
  exact hd1

theorem example_transfer_run (s : Server) (peer : Peer) (hlen : s.payload.length = 1000)
    (hR : s.Retries = 3) (hpeer : LosesFirstReply peer) :
    ∃ st : Session,
      handleLoop s peer (s.payload.length / BlockSize + 1) DatagramSize s.initSession
        = (.complete 2, st) ∧
      st.sent = [dataPacketAt s.payload 0, dataPacketAt s.payload 0,
        dataPacketAt s.payload 1] := by
  have hbs : BlockSize = 512 := rfl
  have hfuel : s.payload.length / BlockSize + 1 = 2 := by
    rw [hlen]
    rfl
  have hp0 : s.initSession.dataPkt.packet = dataPacketAt s.payload 0 := by
    have h := dataPacketAt_eq_packet s.payload 0
    simpa [Server.initSession] using h
  have hadv0 : s.initSession.dataPkt.advance = ⟨1, s.payload.drop BlockSize⟩ := by
    simp [Server.initSession, Data.advance]
  have hp1 : (⟨1, s.payload.drop BlockSize⟩ : Data).packet = dataPacketAt s.payload 1 := by
    have h := dataPacketAt_eq_packet s.payload 1
    simpa using h
  -- block 1: one timeout, then the Ack
  obtain ⟨d1, hd1p, hd1⟩ := hpeer.2 [dataPacketAt s.payload 0] (dataPacketAt s.payload 0)
    (by simp)
  obtain ⟨a1, hr1⟩ := retry_acked_once peer (dataPacketAt s.payload 0) 1
    { s.initSession with dataPkt := ⟨1, s.payload.drop BlockSize⟩,
                         log := [(dataPacketAt s.payload 0, .timeout)] } d1
    (by simpa [Session.sent] using hd1p) hd1 (by simp [Server.initSession])
    (by simp [blockOf_dataPacketAt])
  have hrun1 : retry peer s.initSession.dataPkt.packet s.Retries
      { s.initSession with dataPkt := s.initSession.dataPkt.advance }
      = (.next (dataPacketAt s.payload 0).length,
         { s.initSession with dataPkt := ⟨1, s.payload.drop BlockSize⟩,
                              ackPkt := a1,
                              buf := recvInto s.initSession.buf d1,
                              log := [(dataPacketAt s.payload 0, .timeout),
                                (dataPacketAt s.payload 0, .datagram d1)] }) := by
    rw [hR, hp0, hadv0, retry_timeout peer _ 2 _ (by
      simpa [Session.sent, Server.initSession] using hpeer.1 (dataPacketAt s.payload 0))]
    simpa [Server.initSession] using hr1
  have hfull : (dataPacketAt s.payload 0).length = DatagramSize := by
    rw [← hp0, packet_length_full]
    simp [Server.initSession, hlen]
  -- block 2: acknowledged at once
  obtain ⟨d2, hd2p, hd2⟩ := hpeer.2 [dataPacketAt s.payload 0, dataPacketAt s.payload 0]
    (dataPacketAt s.payload 1) (by simp)
  obtain ⟨a2, hr2⟩ := retry_acked_once peer (dataPacketAt s.payload 1) 2
    { s.initSession with dataPkt := (⟨1, s.payload.drop BlockSize⟩ : Data).advance,
                         ackPkt := a1,
                         buf := recvInto s.initSession.buf d1,
                         log := [(dataPacketAt s.payload 0, .timeout),
                           (dataPacketAt s.payload 0, .datagram d1)] } d2
    (by simpa [Session.sent] using hd2p) hd2
    (by simp [Server.initSession, recvInto_length])
    (by simp [blockOf_dataPacketAt, Data.advance])
  have hshort : (dataPacketAt s.payload 1).length ≠ DatagramSize := by
    rw [← hp1, Ne, packet_length_full]
    simp only [List.length_drop, hlen, hbs]
    omega
  rw [hfuel, handleLoop_next s peer 1 _ _ _ hrun1, hfull,
    handleLoop_next s peer 0 _ _ (dataPacketAt s.payload 1).length (by
      rw [hR]
      simpa [hp1] using hr2),
    handleLoop_done s peer 0 _ _ hshort]
  refine ⟨_, Prod.ext ?_ rfl, ?_⟩
  · simp [Data.advance]
  · simp [Session.sent]

/-- C21: with a payload of 1000 bytes and `Retries = 3`, when the read after the first send of
block 1 times out and every later packet is acknowledged, `Server.handle` writes exactly three
packets: block 1 with the first 512 payload bytes, the same packet again, then block 2 with the
remaining 488 bytes; the session then completes with 2 blocks sent. -/
theorem example_transfer (s : Server) (addr : List Nat) (rrq : ReadReq) (peer : Peer)
    (hlen : s.payload.length = 1000) (hR : s.Retries = 3) (hpeer : LosesFirstReply peer) :
    (s.handle addr rrq peer).2.sent
        = [dataPacketAt s.payload 0, dataPacketAt s.payload 0, dataPacketAt s.payload 1] ∧
      blockOf (dataPacketAt s.payload 0) = 1 ∧
      payloadOf (dataPacketAt s.payload 0) = s.payload.take 512 ∧
      (payloadOf (dataPacketAt s.payload 0)).length = 512 ∧
      blockOf (dataPacketAt s.payload 1) = 2 ∧
      payloadOf (dataPacketAt s.payload 1) = s.payload.drop 512 ∧
      (payloadOf (dataPacketAt s.payload 1)).length = 488 ∧
      (s.handle addr rrq peer).1 = .complete 2 := by
  have hbs : BlockSize = 512 := rfl
  obtain ⟨st, hrun, hsent⟩ := example_transfer_run s peer hlen hR hpeer
  have hh : s.handle addr rrq peer = (.complete 2, st) := hrun
  have hdrop : (s.payload.drop 512).take 512 = s.payload.drop 512 :=
    List.take_of_length_le (by simp [hlen])
  refine ⟨by rw [hh]; exact hsent, by rw [blockOf_dataPacketAt], ?_, ?_,
    by rw [blockOf_dataPacketAt], ?_, ?_, by rw [hh]⟩
  · simp [payloadOf_dataPacketAt, hbs]
  · simp [payloadOf_dataPacketAt, hbs, hlen]
  · simp [payloadOf_dataPacketAt, hbs, hdrop]
  · simp [payloadOf_dataPacketAt, hbs, hlen]

/-- C21 witness: 1000 bytes of value 7, served to the peer that is silent once. -/
theorem example_transfer_witness :
    (⟨some (List.replicate 1000 7), 3, 50000000⟩ : Server).payload.length = 1000 ∧
      ((⟨some (List.replicate 1000 7), 3, 50000000⟩ : Server).handle [] ⟨[120], octet⟩
        lossyPeer).2.sent
        = [dataPacketAt (⟨some (List.replicate 1000 7), 3, 50000000⟩ : Server).payload 0,
           dataPacketAt (⟨some (List.replicate 1000 7), 3, 50000000⟩ : Server).payload 0,
           dataPacketAt (⟨some (List.replicate 1000 7), 3, 50000000⟩ : Server).payload 1] ∧
      ((⟨some (List.replicate 1000 7), 3, 50000000⟩ : Server).handle [] ⟨[120], octet⟩
        lossyPeer).1 = .complete 2 :=
  have hlen : (⟨some (List.replicate 1000 7), 3, 50000000⟩ : Server).payload.length = 1000 :=
    List.length_replicate 1000 7
  have h := example_transfer ⟨some (List.replicate 1000 7), 3, 50000000⟩ [] ⟨[120], octet⟩
    lossyPeer hlen rfl lossyPeer_loses
  ⟨hlen, h.1, h.2.2.2.2.2.2.2⟩

/-! ## C29: the retry budget is per block -/

theorem SegOK_append (P : List Nat) (R : Nat) (segs : List (List Entry)) (new : List Entry)
    (h : SegOK P R segs) (hne : ∀ seg ∈ segs, seg ≠ []) (hlen : new.length ≤ R)
    (hnew : ∀ x ∈ new, x.1 = dataPacketAt P segs.length) : SegOK P R (segs ++ [new]) := by
  intro j seg hj
  by_cases hlt : j < segs.length
  · rw [List.getElem?_append_left hlt] at hj
    obtain ⟨h1, h2, _⟩ := h j seg hj
    exact ⟨h1, h2, fun _ => hne seg (List.getElem?_mem hj)⟩
  · rw [List.getElem?_append_right (Nat.le_of_not_lt hlt)] at hj
    obtain ⟨hj0, hseg⟩ := getElem?_singleton_some new seg _ hj
    subst hseg
    have hjl : j = segs.length := by omega
    subst hjl
    refine ⟨hlen, hnew, ?_⟩
    intro hlt2
    simp at hlt2

theorem RunBound_append (R : Nat) (l new : List Entry) (b : Nat)
    (hl : RunBound R l) (hlen : new.length ≤ R) (hnew : ∀ x ∈ new, blockOf x.1 = b)
    (hlast : ∀ x, l.getLast? = some x → blockOf x.1 ≠ b) : RunBound R (l ++ new) := by
  intro pre run post heq hsame
  rw [List.append_assoc] at heq
  rcases List.append_eq_append_iff.mp heq with ⟨a1, _, h2⟩ | ⟨c1, h1, h2⟩
  · have hle : run.length ≤ new.length := by
      rw [h2]
      simp only [List.length_append]
      omega
    omega
  · rcases List.append_eq_append_iff.mp h2 with ⟨a2, h3, _⟩ | ⟨c2, h3, h4⟩
    · refine hl pre run a2 ?_ hsame
      rw [h1, h3, List.append_assoc]
    · rcases List.eq_nil_or_concat c1 with hc1 | ⟨init, x, hc1⟩
      · have hle : run.length ≤ new.length := by
          rw [h3, hc1, h4]
          simp only [List.nil_append, List.length_append]
          omega
        omega
      · rw [List.concat_eq_append] at hc1
        cases c2 with
        | nil =>
          refine hl pre run [] ?_ hsame
          rw [h1, h3]
          simp
        | cons y rest =>
          exfalso
          have hxl : l.getLast? = some x := by
            rw [h1, hc1, ← List.append_assoc, List.getLast?_concat]
          have hxr : x ∈ run := by
            rw [h3, hc1]
            simp
          have hyr : y ∈ run := by
            rw [h3]
            simp
          have hyn : y ∈ new := by
            rw [h4]
            simp
          exact hlast x hxl ((hsame x hxr y hyr).trans (hnew y hyn))

theorem succ_mod_ne (b : Nat) : (b + 1) % 65536 ≠ b := by
  omega

theorem handle_segments (s : Server) (addr : List Nat) (rrq : ReadReq) (peer : Peer) :
    RunBound s.Retries (s.handle addr rrq peer).2.log ∧
      ∃ segs : List (List Entry), (s.handle addr rrq peer).2.log = segs.flatten ∧
        SegOK s.payload s.Retries segs ∧
        ((s.handle addr rrq peer).1 = .exhausted →
          ∃ init last, segs = init ++ [last] ∧ last.length = s.Retries) := by
  refine handleLoop_rule s peer (SegInv s.payload s.Retries)
    (fun r => RunBound s.Retries r.2.log ∧
      ∃ segs : List (List Entry), r.2.log = segs.flatten ∧ SegOK s.payload s.Retries segs ∧
        (r.1 = .exhausted → ∃ init last, segs = init ++ [last] ∧ last.length = s.Retries))
    ?_ ?_ ?_ ?_ _ _ _ ?_
  · rintro fuel n st ⟨_, hrun, _, segs, hlog, _, hok, _⟩ _
    exact ⟨hrun, segs, hlog, hok, fun h => by simp at h⟩
  · rintro st ⟨_, hrun, _, segs, hlog, _, hok, _⟩
    exact ⟨hrun, segs, hlog, hok, fun h => by simp at h⟩
  · rintro fuel st o st1 ⟨hbuf, hrun, hlast, segs, hlog, hdp, hok, hne⟩ hr
    obtain ⟨new, hlog1, hlen, hnew, _, _, _, hstop, _⟩ := retry_spec peer st.dataPkt.packet
      s.Retries { st with dataPkt := st.dataPkt.advance } hbuf
      (by simp [blockOf_packet, Data.advance])
    rw [hr] at hlog1 hstop
    have hlog2 : st1.log = st.log ++ new := hlog1
    have hpkt : st.dataPkt.packet = dataPacketAt s.payload segs.length := by
      rw [hdp, dataPacketAt_eq_packet]
    refine ⟨?_, segs ++ [new], ?_, ?_, ?_⟩
    · show RunBound s.Retries st1.log
      rw [hlog2]
      refine RunBound_append _ st.log new (blockOf st.dataPkt.packet) hrun hlen ?_ ?_
      · intro x hx
        rw [hnew x hx]
      · intro x hx
        rw [hlast x hx, blockOf_packet]
        exact (succ_mod_ne _).symm
    · show st1.log = (segs ++ [new]).flatten
      rw [hlog2, hlog]
      simp
    · refine SegOK_append _ _ segs new hok hne hlen ?_
      intro x hx
      rw [hnew x hx, hpkt]
    · intro ho
      have ho1 : o = .exhausted := ho
      have hso := hstop o rfl
      rw [ho1] at hso
      exact ⟨segs, new, rfl, hso⟩
  · rintro fuel st n1 st1 ⟨hbuf, hrun, hlast, segs, hlog, hdp, hok, hne⟩ hr
    obtain ⟨new, hlog1, hlen, hnew, hdata, hbuf1, hnext, _, _⟩ := retry_spec peer
      st.dataPkt.packet s.Retries { st with dataPkt := st.dataPkt.advance } hbuf
      (by simp [blockOf_packet, Data.advance])
    rw [hr] at hlog1 hdata hbuf1 hnext
    have hlog2 : st1.log = st.log ++ new := hlog1
    have hdata1 : st1.dataPkt = st.dataPkt.advance := hdata
    have hpkt : st.dataPkt.packet = dataPacketAt s.payload segs.length := by
      rw [hdp, dataPacketAt_eq_packet]
    obtain ⟨_, init, x, hx, _⟩ := hnext n1 rfl
    refine ⟨hbuf1, ?_, ?_, segs ++ [new], ?_, ?_, ?_, ?_⟩
    · rw [hlog2]
      refine RunBound_append _ st.log new (blockOf st.dataPkt.packet) hrun hlen ?_ ?_
      · intro y hy
        rw [hnew y hy]
      · intro y hy
        rw [hlast y hy, blockOf_packet]
        exact (succ_mod_ne _).symm
    · intro y hy
      rw [hlog2, hx, ← List.append_assoc, List.getLast?_concat] at hy
      simp only [Option.some.injEq] at hy
      subst hy
      have hx1 : x.1 = st.dataPkt.packet := hnew x (by simp [hx])
      rw [hx1, blockOf_packet, hdata1]
      rfl
    · rw [hlog2, hlog]
      simp
    · rw [hdata1, hdp, advance_eq]
      simp
    · refine SegOK_append _ _ segs new hok hne hlen ?_
      intro y hy
      rw [hnew y hy, hpkt]
    · intro seg hseg
      rcases List.mem_append.mp hseg with h | h
      · exact hne seg h
      · rw [List.mem_singleton.mp h, hx]
        simp
  · refine ⟨by simp [Server.initSession], ?_, by simp [Server.initSession], [],
      by simp [Server.initSession], by simp [Server.initSession],
      fun j seg hj => by simp at hj, by simp⟩
    intro pre run post heq _
    have hnil : pre ++ run ++ post = [] := by
      rw [← heq]
      simp [Server.initSession]
    simp only [List.append_eq_nil] at hnil
    rw [hnil.1.2]
    simp

/-- C29: the retry budget of `Server.handle` is per block. In every session, with every peer:
(1) no more than `Retries` consecutive entries of the log carry the same block number, so at
most `Retries` Data packets are written for any single block, whatever the earlier blocks
used; (2) the log is the concatenation of one segment per block sent, in order: segment `j`
holds the attempts for the `j`-th Data packet of the payload, at most `Retries` and at least one
unless it is the last segment, and a session that ends with its retries exhausted has used
exactly `Retries` attempts on its last block; (3) in the retry loop with `i + 1` attempts
left, a timeout, an Ack of another block number, and a reply after which the receive buffer
decodes neither as an Ack nor as an Err packet each leave exactly `i` attempts for the same
packet. -/
theorem retry_budget_per_block (s : Server) (addr : List Nat) (rrq : ReadReq) (peer : Peer) :
    RunBound s.Retries (s.handle addr rrq peer).2.log ∧
      (∃ segs : List (List Entry), (s.handle addr rrq peer).2.log = segs.flatten ∧
        SegOK s.payload s.Retries segs ∧
        ((s.handle addr rrq peer).1 = .exhausted →
          ∃ init last, segs = init ++ [last] ∧ last.length = s.Retries)) ∧
      (∀ (data : List Nat) (i : Nat) (st : Session), peer (st.sent ++ [data]) = .timeout →
        retry peer data (i + 1) st
          = retry peer data i { st with log := st.log ++ [(data, .timeout)] }) ∧
      (∀ (data : List Nat) (i : Nat) (st : Session) (d : List Nat) (a : Nat),
        st.buf.length = DatagramSize → peer (st.sent ++ [data]) = .datagram d →
        Ack.UnmarshalBinary st.ackPkt d = (a, none) → a ≠ st.dataPkt.Block →
        retry peer data (i + 1) st
          = retry peer data i { st with ackPkt := a, buf := recvInto st.buf d,
                                        log := st.log ++ [(data, .datagram d)] }) ∧
      (∀ (data : List Nat) (i : Nat) (st : Session) (d : List Nat),
        peer (st.sent ++ [data]) = .datagram d →
        (Ack.UnmarshalBinary st.ackPkt (recvInto st.buf d)).2 ≠ none →
        (Err.UnmarshalBinary st.errPkt (recvInto st.buf d)).2 ≠ none →
        ∃ a e, retry peer data (i + 1) st
          = retry peer data i { st with ackPkt := a, errPkt := e, buf := recvInto st.buf d,
                                        log := st.log ++ [(data, .datagram d)] }) := by
  refine ⟨(handle_segments s addr rrq peer).1, (handle_segments s addr rrq peer).2, ?_, ?_, ?_⟩
  · intro data i st hp
    exact retry_timeout peer data i st hp
  · intro data i st d a hbuf hp hdec hne
    have hb4 : 4 ≤ st.buf.length := by
      rw [hbuf]
      decide
    have hdec1 : Ack.UnmarshalBinary st.ackPkt (recvInto st.buf d) = (a, none) := by
      rw [Ack_unmarshal_recvInto st.ackPkt st.buf d hb4
        (Ack_unmarshal_ok_length st.ackPkt a d hdec), hdec]
    have h := retry_ack_other peer data i st d hp (by rw [hdec1]) (by rw [hdec1]; exact hne)
    rw [hdec1] at h
    exact h
  · intro data i st d hp ha he
    exact ⟨_, _, retry_bad peer data i st d hp ha he⟩

set_option maxRecDepth 100000 in
/-- C29 witness: `Retries = 2`, a payload of 512 bytes; block 1 uses both attempts (a timeout,
then its Ack), and block 2 still has two attempts, which both time out. The two entries for
block 2 are a run of one block number, and the bound gives `2 ≤ Retries`. -/
theorem retry_budget_per_block_witness :
    (((⟨some (List.replicate 512 9), 2, 0⟩ : Server).handle [] ⟨[120], octet⟩
        (scriptPeer [.timeout, .datagram [0, 4, 0, 1]])).2.log
        = [(dataPacketAt (List.replicate 512 9) 0, .timeout),
           (dataPacketAt (List.replicate 512 9) 0, .datagram [0, 4, 0, 1])]
          ++ [(dataPacketAt (List.replicate 512 9) 1, .timeout),
              (dataPacketAt (List.replicate 512 9) 1, .timeout)] ++ []) ∧
      (∀ x ∈ [(dataPacketAt (List.replicate 512 9) 1, Event.timeout),
              (dataPacketAt (List.replicate 512 9) 1, Event.timeout)],
        ∀ y ∈ [(dataPacketAt (List.replicate 512 9) 1, Event.timeout),
               (dataPacketAt (List.replicate 512 9) 1, Event.timeout)],
          blockOf x.1 = blockOf y.1) ∧
      [(dataPacketAt (List.replicate 512 9) 1, Event.timeout),
        (dataPacketAt (List.replicate 512 9) 1, Event.timeout)].length
        ≤ (⟨some (List.replicate 512 9), 2, 0⟩ : Server).Retries :=
  have hlog : ((⟨some (List.replicate 512 9), 2, 0⟩ : Server).handle [] ⟨[120], octet⟩
      (scriptPeer [.timeout, .datagram [0, 4, 0, 1]])).2.log
      = [(dataPacketAt (List.replicate 512 9) 0, .timeout),
         (dataPacketAt (List.replicate 512 9) 0, .datagram [0, 4, 0, 1])]
        ++ [(dataPacketAt (List.replicate 512 9) 1, .timeout),
            (dataPacketAt (List.replicate 512 9) 1, .timeout)] ++ [] := by decide
  have hsame : ∀ x ∈ [(dataPacketAt (List.replicate 512 9) 1, Event.timeout),
        (dataPacketAt (List.replicate 512 9) 1, Event.timeout)],
      ∀ y ∈ [(dataPacketAt (List.replicate 512 9) 1, Event.timeout),
        (dataPacketAt (List.replicate 512 9) 1, Event.timeout)],
        blockOf x.1 = blockOf y.1 := by
    intro x hx y hy
    simp only [List.mem_cons, List.mem_singleton, List.not_mem_nil, or_false, or_self] at hx hy
    rw [hx, hy]
  ⟨hlog, hsame,
    (retry_budget_per_block ⟨some (List.replicate 512 9), 2, 0⟩ [] ⟨[120], octet⟩
      (scriptPeer [.timeout, .datagram [0, 4, 0, 1]])).1 _ _ _ hlog hsame⟩

/-! ## The dispatcher `Serve` (C22-C24, C28) -/

theorem serveLoop_nil (uni : List Nat → List Nat) (s : Server) (rrq : ReadReq) :
    serveLoop uni s rrq [] = ([], []) := rfl

set_option maxRecDepth 100000 in
theorem serveLoop_bad (uni : List Nat → List Nat) (s : Server) (rrq : ReadReq)
    (addr d : List Nat) (rest : List (List Nat × List Nat)) (e : TftpError)
    (h : (ReadReq.UnmarshalBinary uni rrq (datagramBuf d)).2 = some e) :
    serveLoop uni s rrq ((addr, d) :: rest)
      = ((serveLoop uni s (ReadReq.UnmarshalBinary uni rrq (datagramBuf d)).1 rest).1,
         (addr, e) :: (serveLoop uni s (ReadReq.UnmarshalBinary uni rrq (datagramBuf d)).1
           rest).2) := by
  rw [serveLoop]
  simp only [h]

set_option maxRecDepth 100000 in
theorem serveLoop_ok (uni : List Nat → List Nat) (s : Server) (rrq : ReadReq)
    (addr d : List Nat) (rest : List (List Nat × List Nat))
    (h : (ReadReq.UnmarshalBinary uni rrq (datagramBuf d)).2 = none) :
    serveLoop uni s rrq ((addr, d) :: rest)
      = (⟨s, addr, (ReadReq.UnmarshalBinary uni rrq (datagramBuf d)).1⟩ ::
          (serveLoop uni s (ReadReq.UnmarshalBinary uni rrq (datagramBuf d)).1 rest).1,
         (serveLoop uni s (ReadReq.UnmarshalBinary uni rrq (datagramBuf d)).1 rest).2) := by
  rw [serveLoop]
  simp only [h]

theorem serveLoop_server (uni : List Nat → List Nat) (s : Server) (rrq : ReadReq)
    (inbound : List (List Nat × List Nat)) :
    ∀ sp ∈ (serveLoop uni s rrq inbound).1, sp.server = s := by
  induction inbound generalizing rrq with
  | nil =>
    intro sp hsp
    rw [serveLoop_nil] at hsp
    simp at hsp
  | cons x rest ih =>
    obtain ⟨addr, d⟩ := x
    intro sp hsp
    cases h : (ReadReq.UnmarshalBinary uni rrq (datagramBuf d)).2 with
    | some e =>
      rw [serveLoop_bad uni s rrq addr d rest e h] at hsp
      exact ih _ sp hsp
    | none =>
      rw [serveLoop_ok uni s rrq addr d rest h] at hsp
      rcases List.mem_cons.mp hsp with h1 | h1
      · rw [h1]
      · exact ih _ sp h1

theorem serveLoop_count (uni : List Nat → List Nat) (s : Server) (rrq : ReadReq)
    (inbound : List (List Nat × List Nat)) :
    (serveLoop uni s rrq inbound).1.length + (serveLoop uni s rrq inbound).2.length
      = inbound.length := by
  induction inbound generalizing rrq with
  | nil => rw [serveLoop_nil]; rfl
  | cons x rest ih =>
    obtain ⟨addr, d⟩ := x
    have hrec := ih (ReadReq.UnmarshalBinary uni rrq (datagramBuf d)).1
    cases h : (ReadReq.UnmarshalBinary uni rrq (datagramBuf d)).2 with
    | some e =>
      rw [serveLoop_bad uni s rrq addr d rest e h]
      simp only [List.length_cons]
      omega
    | none =>
      rw [serveLoop_ok uni s rrq addr d rest h]
      simp only [List.length_cons]
      omega

set_option maxRecDepth 100000 in
/-- C22 counterexample: a server whose payload is an empty slice that is not nil, on a
connection that delivers the read request for "x" in mode "octet" and then fails with error 7.
`Serve` returns no configuration error: it reads the datagram, spawns a session and returns
the read error. -/
theorem empty_payload_served_counterexample :
    (⟨some [], 0, 0⟩ : Server).payload.length = 0 ∧
      Server.Serve id ⟨some [], 0, 0⟩
          (some ⟨[([1], [0, 1, 120, 0, 111, 99, 116, 101, 116, 0])], 7⟩)
        = { err := .readError 7, server := ⟨some [], 10, 6000000000⟩, reads := 1,
            spawned := [⟨⟨some [], 10, 6000000000⟩, [1], ⟨[120], octet⟩⟩], rejected := [] } := by
  decide

/-- C22 (amended): `Serve` returns a configuration error, having read no datagram and spawned
no session, exactly when the connection is nil or the Payload is nil: with a nil connection
the error is "nil connection", with a connection and a nil Payload it is "payload is
required"; with a connection and a Payload that is not nil, of whatever length, it serves:
it reads every datagram and returns the read error of the connection. -/
theorem Serve_configuration (uni : List Nat → List Nat) (s : Server) :
    ((Server.Serve uni s none).err = .nilConnection ∧ (Server.Serve uni s none).reads = 0 ∧
        (Server.Serve uni s none).spawned = []) ∧
      (∀ l, s.Payload = none →
        (Server.Serve uni s (some l)).err = .payloadRequired ∧
          (Server.Serve uni s (some l)).reads = 0 ∧ (Server.Serve uni s (some l)).spawned = []) ∧
      (∀ l, s.Payload ≠ none →
        (Server.Serve uni s (some l)).err = .readError l.err ∧
          (Server.Serve uni s (some l)).reads = l.inbound.length) := by
  refine ⟨⟨rfl, rfl, rfl⟩, ?_, ?_⟩
  · intro l hnil
    simp [Server.Serve, hnil]
  · intro l hne
    simp [Server.Serve, hne]

/-- C22 witness: a nil Payload and a connection that would deliver a datagram. -/
theorem Serve_configuration_witness :
    (⟨none, 0, 0⟩ : Server).Payload = none ∧
      (Server.Serve id ⟨none, 0, 0⟩ (some ⟨[([1], [0, 1])], 7⟩)).err = .payloadRequired ∧
      (Server.Serve id ⟨none, 0, 0⟩ (some ⟨[([1], [0, 1])], 7⟩)).reads = 0 ∧
      (Server.Serve id ⟨none, 0, 0⟩ (some ⟨[([1], [0, 1])], 7⟩)).spawned = [] :=
  ⟨rfl, (Serve_configuration id ⟨none, 0, 0⟩).2.1 ⟨[([1], [0, 1])], 7⟩ rfl⟩

/-- C23: when `Serve` starts serving (the connection and the Payload are not nil), a zero
Retries is replaced by 10 and a zero Timeout by 6 seconds, every other Retries or Timeout is
kept, and every session spawned, the first included, is started with these values. -/
theorem Serve_defaults (uni : List Nat → List Nat) (s : Server) (l : Listener)
    (hp : s.Payload ≠ none) :
    (Server.Serve uni s (some l)).server.Retries = (if s.Retries = 0 then 10 else s.Retries) ∧
      (Server.Serve uni s (some l)).server.Timeout
        = (if s.Timeout = 0 then 6 * Second else s.Timeout) ∧
      (Server.Serve uni s (some l)).server.Payload = s.Payload ∧
      ∀ sp ∈ (Server.Serve uni s (some l)).spawned,
        sp.server = (Server.Serve uni s (some l)).server := by
  refine ⟨?_, ?_, ?_, ?_⟩
  · by_cases hr : s.Retries = 0 <;> by_cases ht : s.Timeout = 0 <;>
      simp [Server.Serve, hp, hr, ht]
  · by_cases hr : s.Retries = 0 <;> by_cases ht : s.Timeout = 0 <;>
      simp [Server.Serve, hp, hr, ht]
  · by_cases hr : s.Retries = 0 <;> by_cases ht : s.Timeout = 0 <;>
      simp [Server.Serve, hp, hr, ht]
  · intro sp hsp
    simp only [Server.Serve, hp, if_false] at hsp ⊢
    exact serveLoop_server uni _ _ _ sp hsp

set_option maxRecDepth 100000 in
/-- C23 witness: Retries and Timeout unset, one valid read request. -/
theorem Serve_defaults_witness :
    (⟨some [1], 0, 0⟩ : Server).Payload ≠ none ∧
      (Server.Serve id ⟨some [1], 0, 0⟩
        (some ⟨[([1], [0, 1, 120, 0, 111, 99, 116, 101, 116, 0])], 7⟩)).spawned
        = [⟨⟨some [1], 10, 6000000000⟩, [1], ⟨[120], octet⟩⟩] ∧
      (Server.Serve id ⟨some [1], 0, 0⟩
        (some ⟨[([1], [0, 1, 120, 0, 111, 99, 116, 101, 116, 0])], 7⟩)).server.Retries
        = (if (⟨some [1], 0, 0⟩ : Server).Retries = 0 then 10
            else (⟨some [1], 0, 0⟩ : Server).Retries) :=
  ⟨by decide, by decide,
    (Serve_defaults id ⟨some [1], 0, 0⟩
      ⟨[([1], [0, 1, 120, 0, 111, 99, 116, 101, 116, 0])], 7⟩ (by decide)).1⟩

theorem ReadReq_unmarshal_receiver (uni : List Nat → List Nat) (q0 q1 : ReadReq)
    (p : List Nat) :
    (ReadReq.UnmarshalBinary uni q0 p).2 = (ReadReq.UnmarshalBinary uni q1 p).2 ∧
      ((ReadReq.UnmarshalBinary uni q0 p).2 = none →
        (ReadReq.UnmarshalBinary uni q0 p).1 = (ReadReq.UnmarshalBinary uni q1 p).1) := by
  match p with
  | [] => simp [ReadReq.UnmarshalBinary, readUint16]
  | [_] => simp [ReadReq.UnmarshalBinary, readUint16]
  | a :: b :: r =>
    simp only [ReadReq.UnmarshalBinary, readUint16]
    split_ifs <;> simp

theorem ReadReq_unmarshal_padded (uni : List Nat → List Nat) (q0 q1 : ReadReq) (d : List Nat)
    (hb : IsBytes d) (hlen : d.length ≤ DatagramSize)
    (h : (ReadReq.UnmarshalBinary uni q0 d).2 = none) :
    ReadReq.UnmarshalBinary uni q1 (datagramBuf d)
      = ((ReadReq.UnmarshalBinary uni q0 d).1, none) := by
  obtain ⟨f, m, rest, hd, hne, hz, hmz, hlow⟩ := ReadReq_unmarshal_ok uni q0 d hb h
  have hm : m ≠ [] := by
    intro hnil
    rw [hnil] at hlow
    simp [toLower, octet] at hlow
  have hpad : ∃ t, datagramBuf d = 0 :: 1 :: (f ++ 0 :: (m ++ 0 :: (rest ++ t))) := by
    refine ⟨(List.replicate DatagramSize 0).drop d.length, ?_⟩
    rw [datagramBuf, recvInto_short _ d (by rw [List.length_replicate]; exact hlen)]
    conv_lhs => rw [hd]
    simp only [List.cons_append, List.append_assoc]
    rw [← hd]
  obtain ⟨t, ht⟩ := hpad
  rw [ht, ReadReq_unmarshal_form uni q1 f m _ hne hz hmz]
  conv_rhs => rw [hd, ReadReq_unmarshal_form uni q0 f m rest hne hz hmz]
  simp [hm, hlow]

theorem serveLoop_spawned (uni : List Nat → List Nat) (s : Server) (rrq : ReadReq)
    (inbound : List (List Nat × List Nat)) :
    (serveLoop uni s rrq inbound).1
      = inbound.filterMap (fun x =>
          if (ReadReq.UnmarshalBinary uni ⟨[], []⟩ (datagramBuf x.2)).2 = none then
            some ⟨s, x.1, (ReadReq.UnmarshalBinary uni ⟨[], []⟩ (datagramBuf x.2)).1⟩
          else none) := by
  induction inbound generalizing rrq with
  | nil => rw [serveLoop_nil]; rfl
  | cons x rest ih =>
    obtain ⟨addr, d⟩ := x
    obtain ⟨herr, hval⟩ := ReadReq_unmarshal_receiver uni rrq ⟨[], []⟩ (datagramBuf d)
    cases h : (ReadReq.UnmarshalBinary uni rrq (datagramBuf d)).2 with
    | some e =>
      rw [serveLoop_bad uni s rrq addr d rest e h, ih]
      rw [h] at herr
      simp [← herr]
    | none =>
      rw [serveLoop_ok uni s rrq addr d rest h, ih]
      rw [h] at herr
      simp [← herr, hval h]

/-- What `Serve` does once it serves, datagram by datagram: it returns the read error of the
connection, and the sessions spawned are, in arrival order, one for each datagram whose
zero-padded buffer unmarshals as a read request, for the sender of that datagram. -/
theorem Serve_sessions (uni : List Nat → List Nat) (s : Server) (l : Listener)
    (hp : s.Payload ≠ none) :
    (Server.Serve uni s (some l)).err = .readError l.err ∧
      (Server.Serve uni s (some l)).spawned.map (fun sp => (sp.clientAddr, sp.rrq))
        = l.inbound.filterMap (fun x =>
            if (ReadReq.UnmarshalBinary uni ⟨[], []⟩ (datagramBuf x.2)).2 = none then
              some (x.1, (ReadReq.UnmarshalBinary uni ⟨[], []⟩ (datagramBuf x.2)).1)
            else none) := by
  refine ⟨by simp [Server.Serve, hp], ?_⟩
  simp only [Server.Serve, hp, if_false]
  rw [serveLoop_spawned, List.map_filterMap]
  apply List.filterMap_congr
  intro x _
  by_cases hx : (ReadReq.UnmarshalBinary uni ⟨[], []⟩ (datagramBuf x.2)).2 = none
  · simp [hx]
  · simp [hx]

set_option maxRecDepth 100000 in
/-- C24, evaluated: the connection delivers `09 09` from sender 1 and then, from sender 2, the
nine bytes `00 01 'y' 00 "octet"`, which `ReadReq.UnmarshalBinary` rejects (the mode is not
zero-terminated), and then fails with error 7. `Serve` returns the read error and has logged
the first datagram as a bad request, but it has spawned a session for sender 2: the zero bytes
of its buffer after the datagram terminate the mode. -/
theorem Serve_spawns_for_undecodable_datagram :
    (ReadReq.UnmarshalBinary id ⟨[], []⟩ [0, 1, 121, 0, 111, 99, 116, 101, 116]).2
        = some .invalidRRQ ∧
      Server.Serve id ⟨some [1], 3, 5⟩
          (some ⟨[([1], [9, 9]), ([2], [0, 1, 121, 0, 111, 99, 116, 101, 116])], 7⟩)
        = { err := .readError 7, server := ⟨some [1], 3, 5⟩, reads := 2,
            spawned := [⟨⟨some [1], 3, 5⟩, [2], ⟨[121], octet⟩⟩],
            rejected := [([1], .invalidRRQ)] } := by
  decide

set_option maxRecDepth 100000 in
/-- C28, evaluated: the nine bytes `00 01 'x' 00 "octet"` are rejected by
`ReadReq.UnmarshalBinary` with the invalid-request error, but `Serve`, which unmarshals its
whole zero-filled buffer of 516 bytes, accepts them: nothing is logged as a bad request and a
session for file "x" in mode "octet" is spawned. -/
theorem truncated_mode_spawns_session :
    (ReadReq.UnmarshalBinary id ⟨[], []⟩ [0, 1, 120, 0, 111, 99, 116, 101, 116]).2
        = some .invalidRRQ ∧
      (Server.Serve id ⟨some [1], 3, 5⟩
          (some ⟨[([1], [0, 1, 120, 0, 111, 99, 116, 101, 116])], 7⟩)).spawned
        = [⟨⟨some [1], 3, 5⟩, [1], ⟨[120], octet⟩⟩] ∧
      (Server.Serve id ⟨some [1], 3, 5⟩
          (some ⟨[([1], [0, 1, 120, 0, 111, 99, 116, 101, 116])], 7⟩)).rejected = [] := by
  decide

end Tftp

namespace Payloads

/-! ## Typed payloads: the size limit and the round trip (C25, C26) -/

theorem read_error (k : Nat) (r : Reader) :
    (Reader.read k r).2.2 = none ∨ (Reader.read k r).2.2 = some .eof := by
  induction r with
  | nil =>
    by_cases hk : k = 0 <;> simp [Reader.read, hk]
  | cons c cs ih =>
    by_cases hk : k = 0
    · simp [Reader.read, hk]
    · by_cases hc : c = []
      · simpa [Reader.read, hk, hc] using ih
      · simp [Reader.read, hk, hc]

theorem Binary_ReadFrom_header (m : List Nat) (r r1 r2 : Reader) (sz : List Nat)
    (h1 : readFull 1 r = ([BinaryType], r1, none)) (h4 : readFull 4 r1 = (sz, r2, none)) :
    Binary.ReadFrom m r
      = if getUint32 sz > MaxPayloadSize then (m, 5, some .maxPayloadSize, r2)
        else ((Reader.read (getUint32 sz) r2).1
                ++ List.replicate (getUint32 sz - (Reader.read (getUint32 sz) r2).1.length) 0,
              5 + (Reader.read (getUint32 sz) r2).1.length,
              (Reader.read (getUint32 sz) r2).2.2, (Reader.read (getUint32 sz) r2).2.1) := by
  simp only [Binary.ReadFrom, h1, h4, ne_eq, not_true_eq_false, if_false]

theorem String_ReadFrom_header (m : List Nat) (r r1 r2 : Reader) (sz : List Nat)
    (h1 : readFull 1 r = ([StringType], r1, none)) (h4 : readFull 4 r1 = (sz, r2, none)) :
    String.ReadFrom m r
      = if getUint32 sz > MaxPayloadSize then (m, 5, some .maxPayloadSize, r2)
        else
          match (Reader.read (getUint32 sz) r2).2.2 with
          | some e => (m, 5, some e, (Reader.read (getUint32 sz) r2).2.1)
          | none =>
            ((Reader.read (getUint32 sz) r2).1
                ++ List.replicate (getUint32 sz - (Reader.read (getUint32 sz) r2).1.length) 0,
              5 + (Reader.read (getUint32 sz) r2).1.length, none,
              (Reader.read (getUint32 sz) r2).2.1) := by
  simp only [String.ReadFrom, h1, h4, ne_eq, not_true_eq_false, if_false]

/-- C26: for every input whose type byte is the right one and whose 4-byte size field exceeds
`MaxPayloadSize`, `Binary.ReadFrom` and `String.ReadFrom` return `ErrMaxPayloadSize` with a
byte count of 5, the receiver unchanged and the reader left just after the size field; a size
field equal to `MaxPayloadSize` is not answered with this error. -/
theorem ReadFrom_max_payload (m : List Nat) (r r1 r2 : Reader) (sz : List Nat)
    (h4 : readFull 4 r1 = (sz, r2, none)) :
    (readFull 1 r = ([BinaryType], r1, none) →
        (getUint32 sz > MaxPayloadSize →
          Binary.ReadFrom m r = (m, 5, some .maxPayloadSize, r2)) ∧
        (getUint32 sz = MaxPayloadSize →
          (Binary.ReadFrom m r).2.2.1 ≠ some .maxPayloadSize)) ∧
      (readFull 1 r = ([StringType], r1, none) →
        (getUint32 sz > MaxPayloadSize →
          String.ReadFrom m r = (m, 5, some .maxPayloadSize, r2)) ∧
        (getUint32 sz = MaxPayloadSize →
          (String.ReadFrom m r).2.2.1 ≠ some .maxPayloadSize)) := by
  refine ⟨?_, ?_⟩
  · intro h1
    rw [Binary_ReadFrom_header m r r1 r2 sz h1 h4]
    refine ⟨fun hgt => by rw [if_pos hgt], ?_⟩
    intro heq
    have hng : ¬ getUint32 sz > MaxPayloadSize := by omega
    rw [if_neg hng]
    rcases read_error (getUint32 sz) r2 with h | h <;> simp [h]
  · intro h1
    rw [String_ReadFrom_header m r r1 r2 sz h1 h4]
    refine ⟨fun hgt => by rw [if_pos hgt], ?_⟩
    intro heq
    have hng : ¬ getUint32 sz > MaxPayloadSize := by omega
    rw [if_neg hng]
    rcases read_error (getUint32 sz) r2 with h | h <;> simp [h]

/-- C26 witness: the type byte of a `Binary`, the size `1 << 30` and one more byte. -/
theorem ReadFrom_max_payload_witness :
    readFull 4 [[64, 0, 0, 0, 7]] = ([64, 0, 0, 0], [[7]], none) ∧
      readFull 1 [[1, 64, 0, 0, 0, 7]] = ([BinaryType], [[64, 0, 0, 0, 7]], none) ∧
      getUint32 [64, 0, 0, 0] > MaxPayloadSize ∧
      Binary.ReadFrom [9] [[1, 64, 0, 0, 0, 7]] = ([9], 5, some .maxPayloadSize, [[7]]) :=
  ⟨by decide, by decide, by decide,
    ((ReadFrom_max_payload [9] [[1, 64, 0, 0, 0, 7]] [[64, 0, 0, 0, 7]] [[7]] [64, 0, 0, 0]
      (by decide)).1 (by decide)).1 (by decide)⟩

/-- C25, evaluated: `Binary.WriteTo` of the four bytes "abcd" writes `01 00 00 00 04 'a' 'b'
'c' 'd'`. On a stream that delivers these bytes in two reads, the second starting at 'c',
`decode` returns, without error, the `Binary` `'a' 'b' 00 00`, and the next `decode` fails with
the unknown-type error on the byte 'c'. -/
theorem decode_short_read :
    (Binary.WriteTo [97, 98, 99, 100]).1 = [1, 0, 0, 0, 4, 97, 98, 99, 100] ∧
      List.flatten [[1, 0, 0, 0, 4, 97, 98], [99, 100]] = (Binary.WriteTo [97, 98, 99, 100]).1 ∧
      decode [[1, 0, 0, 0, 4, 97, 98], [99, 100]]
        = (some (.binary [97, 98, 0, 0]), none, [[99, 100]]) ∧
      decode [[99, 100]] = (none, some .unknownType, [[100]]) := by
  decide

end Payloads

namespace Payloads

/-! ## The round trip on an in-memory reader -/

theorem getUint32_putUint32 (n : Nat) (h : n < 2 ^ 32) : getUint32 (putUint32 n) = n := by
  simp only [getUint32, putUint32, List.foldl_cons, List.foldl_nil]
  norm_num at h ⊢
  omega

theorem readFull_buffered (k : Nat) (bs rest : List Nat) (hk : bs.length = k) (h0 : 0 < k) :
    readFull k (buffered (bs ++ rest)) = (bs, buffered rest, none) := by
  have hne : bs ++ rest ≠ [] := by
    intro h
    have : bs = [] := (List.append_eq_nil.mp h).1
    rw [this] at hk
    simp at hk
    omega
  have hle : k ≤ (bs ++ rest).length := by
    rw [List.length_append]
    omega
  simp only [buffered, if_neg hne, readFull, if_pos hle]
  rw [← hk, List.take_left, List.drop_left]

theorem read_buffered (bs rest : List Nat) :
    Reader.read bs.length (buffered (bs ++ rest)) = (bs, buffered rest, none) := by
  by_cases hb : bs = []
  · subst hb
    by_cases hr : rest = []
    · simp [buffered, hr, Reader.read]
    · simp [buffered, hr, Reader.read]
  · have hne : bs ++ rest ≠ [] := fun h => hb (List.append_eq_nil.mp h).1
    have hk : bs.length ≠ 0 := fun h => hb (List.length_eq_zero.mp h)
    simp only [buffered, if_neg hne, Reader.read, if_neg hk]
    rw [List.take_left, List.drop_left]

theorem readFull_type_chunk (t : Nat) (r : Reader) : readFull 1 ([t] :: r) = ([t], r, none) := by
  simp [readFull]

theorem decode_buffered_step (p : Payload) (rest : List Nat)
    (hsize : p.bytes.length ≤ MaxPayloadSize) :
    decode (buffered (p.encode ++ rest)) = (some p, none, buffered rest) := by
  have hmax : MaxPayloadSize < 2 ^ 32 := by decide
  cases p with
  | binary b =>
    have hb : b.length ≤ MaxPayloadSize := hsize
    have hmod : b.length % 2 ^ 32 = b.length := Nat.mod_eq_of_lt (by omega)
    have henc : (Payload.binary b).encode ++ rest
        = [BinaryType] ++ (putUint32 b.length ++ (b ++ rest)) := by
      simp only [Payload.encode, Binary.WriteTo, hmod]
      simp
    have h1 := readFull_buffered 1 [BinaryType] (putUint32 b.length ++ (b ++ rest)) rfl
      (by decide)
    have h4 := readFull_buffered 4 (putUint32 b.length) (b ++ rest) rfl (by decide)
    have hget : getUint32 (putUint32 b.length) = b.length :=
      getUint32_putUint32 b.length (by omega)
    have hrf := Binary_ReadFrom_header [] ([BinaryType] :: buffered (putUint32 b.length ++ (b ++ rest)))
      _ _ _ (readFull_type_chunk BinaryType _) h4
    rw [hget, if_neg (by omega), read_buffered b rest] at hrf
    rw [henc]
    simp only [decode, h1, if_true, hrf]
    simp
  | string m =>
    have hb : m.length ≤ MaxPayloadSize := hsize
    have hmod : m.length % 2 ^ 32 = m.length := Nat.mod_eq_of_lt (by omega)
    have henc : (Payload.string m).encode ++ rest
        = [StringType] ++ (putUint32 m.length ++ (m ++ rest)) := by
      simp only [Payload.encode, String.WriteTo, hmod]
      simp
    have h1 := readFull_buffered 1 [StringType] (putUint32 m.length ++ (m ++ rest)) rfl
      (by decide)
    have h4 := readFull_buffered 4 (putUint32 m.length) (m ++ rest) rfl (by decide)
    have hget : getUint32 (putUint32 m.length) = m.length :=
      getUint32_putUint32 m.length (by omega)
    have hrf := String_ReadFrom_header [] ([StringType] :: buffered (putUint32 m.length ++ (m ++ rest)))
      _ _ _ (readFull_type_chunk StringType _) h4
    rw [hget, if_neg (by omega), read_buffered m rest] at hrf
    have hts : ([StringType] : List Nat) ≠ [BinaryType] := by decide
    rw [henc]
    simp only [decode, h1, hts, if_false, if_true, hrf]
    simp

/-- The round trip on an in-memory reader: payloads of at most `MaxPayloadSize` bytes written
one after another with `WriteTo`, all held by the reader, are returned by successive calls of
`decode` in the same order, with the same type and contents. -/
theorem decode_buffered (ps : List Payload) (rest : List Nat)
    (hsize : ∀ p ∈ ps, p.bytes.length ≤ MaxPayloadSize) :
    decodeN ps.length (buffered ((ps.map Payload.encode).flatten ++ rest))
      = ps.map (fun p => (some p, none)) := by
  induction ps with
  | nil => rfl
  | cons p ps ih =>
    have hstep := decode_buffered_step p ((ps.map Payload.encode).flatten ++ rest)
      (hsize p (by simp))
    have hrec := ih (fun q hq => hsize q (List.mem_cons_of_mem _ hq))
    simp only [List.map_cons, List.flatten_cons, List.append_assoc, List.length_cons, decodeN,
      hstep, hrec]

end Payloads

namespace Middleware

/-! ## C27: the handler of `RestrictPrefix` -/

theorem restrictLoop_spec (pfx : List Nat) (r : Request) (segs : List (List Nat)) :
    ((∃ seg ∈ segs, pfx <+: seg) →
        restrictLoop pfx r segs = [.error "Not Found" StatusNotFound]) ∧
      ((¬ ∃ seg ∈ segs, pfx <+: seg) → restrictLoop pfx r segs = [.next r]) := by
  induction segs with
  | nil =>
    refine ⟨?_, fun _ => rfl⟩
    rintro ⟨seg, hseg, _⟩
    simp at hseg
  | cons p ps ih =>
    by_cases hp : pfx.isPrefixOf p = true
    · refine ⟨fun _ => by simp [restrictLoop, hp], ?_⟩
      intro hno
      exact absurd ⟨p, by simp, List.isPrefixOf_iff_prefix.mp hp⟩ hno
    · have hnp : ¬ pfx <+: p := fun h => hp (List.isPrefixOf_iff_prefix.mpr h)
      refine ⟨?_, ?_⟩
      · rintro ⟨seg, hseg, hpre⟩
        rcases List.mem_cons.mp hseg with h | h
        · rw [h] at hpre
          exact absurd hpre hnp
        · simp only [restrictLoop, hp]
          exact ih.1 ⟨seg, h, hpre⟩
      · intro hno
        simp only [restrictLoop, hp]
        apply ih.2
        rintro ⟨seg, hseg, hpre⟩
        exact hno ⟨seg, List.mem_cons_of_mem _ hseg, hpre⟩

/-- C27: for every prefix and every request, the handler of `RestrictPrefix` answers 404 "Not
Found" and does not call the next handler when some segment between slashes of the cleaned URL
path starts with the prefix, and otherwise calls the next handler once, with the request as it
came, and does nothing else. -/
theorem RestrictPrefix_spec (clean : List Nat → List Nat) (pfx : List Nat) (r : Request) :
    ((∃ seg ∈ splitSlash (clean r.Path), pfx <+: seg) →
        RestrictPrefix clean pfx r = [.error "Not Found" 404]) ∧
      ((¬ ∃ seg ∈ splitSlash (clean r.Path), pfx <+: seg) →
        RestrictPrefix clean pfx r = [.next r]) :=
  restrictLoop_spec pfx r (splitSlash (clean r.Path))

/-- C27 witness: prefix "." and the paths "/.dir/secret" (refused) and "/sage.svg" (passed
on), which `path.Clean` leaves as they are. -/
theorem RestrictPrefix_spec_witness :
    (∃ seg ∈ splitSlash (id [47, 46, 100, 105, 114, 47, 115, 101, 99, 114, 101, 116]),
        [46] <+: seg) ∧
      RestrictPrefix id [46] ⟨[47, 46, 100, 105, 114, 47, 115, 101, 99, 114, 101, 116], []⟩
        = [.error "Not Found" 404] ∧
      RestrictPrefix id [46] ⟨[47, 115, 97, 103, 101, 46, 115, 118, 103], []⟩
        = [.next ⟨[47, 115, 97, 103, 101, 46, 115, 118, 103], []⟩] :=
  have h : ∃ seg ∈ splitSlash (id [47, 46, 100, 105, 114, 47, 115, 101, 99, 114, 101, 116]),
      [46] <+: seg := ⟨[46, 100, 105, 114], by decide, by decide⟩
  ⟨h, (RestrictPrefix_spec id [46]
      ⟨[47, 46, 100, 105, 114, 47, 115, 101, 99, 114, 101, 116], []⟩).1 h, by decide⟩

end Middleware
